import Mathlib

/-!
# Array.Sort.c : quicksort over a late-bound collection

A shallow embedding of `src/Classes/Array.Sort.c`.  The C file sorts a foreign
collection that it can only reach through `IDispatch::Invoke` (a getter named
`Get`, a setter named `__Item`, both one-based), with a comparator supplied by
the caller.

* C `int` values are `Int`s, every C addition and subtraction on them goes
  through `wrap32` (two's complement, 32 bits).
* A `VARIANT` is its type tag, its 64-bit integer field and the rest of its bytes.
* The object behind `pDisp` is a `Host` (how it answers) and a `World` (what it
  currently holds, and the record of every call made so far).
* A local `VARIANT` that is read before all of it has been assigned holds whatever
  earlier calls left on the stack: the `Host` supplies that content, separately
  for every local of every function call.
* The `for` loop of `Partition` and the recursion of `QuickSort` run on fuel.
-/

namespace ArraySort

/-! ## Data model -/

/-- A `VARIANT`: the type tag `vt`, the 64-bit integer field `llVal` of its union,
and `ext`, every other byte of the structure (the reserved words and the part of
the union beyond the first 64 bits, used by the kinds whose payload is wider). -/
structure Variant where
  vt : Nat
  llVal : Int
  ext : Nat
deriving DecidableEq, Repr

/-- Tag of an empty variant. -/
def VT_EMPTY : Nat := 0

/-- Tag of a 32-bit integer. -/
def VT_I4 : Nat := 3

/-- Tag of a 64-bit integer. -/
def VT_I8 : Nat := 20

/-- Tag of an object reference. -/
def VT_DISPATCH : Nat := 9

/-- Tag of a 96-bit decimal, a kind whose payload does not fit in `llVal`. -/
def VT_DECIMAL : Nat := 14

/-- Tag of a user-defined record, held as two pointers. -/
def VT_RECORD : Nat := 36

/-- Result code of a COM call. -/
abbrev HRESULT := Int

/-- Success code. -/
def S_OK : HRESULT := 0

/-- The failure code used for every failing foreign call. -/
def E_FAIL : HRESULT := -2147467259

/-- Two's complement reduction of an integer to the range of a C `int`. -/
def wrap32 (x : Int) : Int := (x + 2147483648) % 4294967296 - 2147483648

/-- Which of the two adapter calls was made. -/
inductive Kind where
  | get
  | set
deriving DecidableEq, Repr

/-- One adapter call, as recorded in the trace: `index` is the zero-based index the
engine passed to `InvokeGet` / `InvokeSet`, `arg` the index argument handed to
`Invoke`, `value` the value handed to the setter, `ok` whether the call succeeded. -/
structure Call where
  kind : Kind
  index : Int
  arg : Int
  value : Option Variant
  ok : Bool
deriving DecidableEq, Repr

/-- What the foreign collection holds and what has happened to it: `items` is its
storage (foreign index `k` addresses `items[k - 1]`), `log` the adapter calls made
so far in order, `cmps` the number of comparator calls made so far. -/
structure World where
  items : List Variant
  log : List Call
  cmps : Nat
deriving DecidableEq, Repr

/-- The local `VARIANT`s of the engine and of the adapter that are read before every
byte of them has been assigned: `pivot` and `v1` of `Partition`, `temp1` and `temp2` of
`SwapElements`, `args[0]` of `InvokeSet`. -/
inductive Slot where
  | pivot
  | v1
  | temp1
  | temp2
  | args0
deriving DecidableEq, Repr

/-- How the object behind `pDisp` and the C stack answer, fixed for one call of
`sort`: `names` is `GetIDsOfNames` (`none` when the name does not resolve),
`fails n k a` tells whether the call of kind `k` with index argument `a`, made
after `n` earlier calls, is rejected, and `uninit n s` is what the stack holds in the
local `s` of the function entered after `n` adapter calls, before anything is
assigned to it. No two locals share `n` and `s`, so every content of every local is
some `uninit`. -/
structure Host where
  names : String → Option Int
  fails : Nat → Kind → Int → Bool
  uninit : Nat → Slot → Variant

/-- The argument `pVariant` of `sort` when it is not null: its tag and the
reference it holds (`none` for a null reference). -/
structure VariantArg where
  vt : Nat
  pdispVal : Option Host

/-- The C `VariantInit`: only the tag is set. -/
def VariantInit (v : Variant) : Variant := { v with vt := VT_EMPTY }

/-- The C `VariantClear`: the value is released and the tag reset. -/
def VariantClear (v : Variant) : Variant := { v with vt := VT_EMPTY }

/-! ## The foreign collection -/

/-- The getter reached by `Invoke(dispid, DISPATCH_METHOD, [arg])`: the element at
the one-based position `arg`, or `none` when the call fails (the id is not the one
of `Get`, the host rejects the call, or the position does not exist). -/
def Host.foreignGet (h : Host) (w : World) (dispid : Int) (arg : Int) : Option Variant :=
  if h.names "Get" = some dispid ∧ h.fails w.log.length Kind.get arg = false ∧ 1 ≤ arg then
    w.items[(arg - 1).toNat]?
  else none

/-- The setter reached by `Invoke(dispid, DISPATCH_PROPERTYPUT, [value, arg])`: the
storage with the one-based position `arg` overwritten by `value`, or `none` when
the call fails. -/
def Host.foreignSet (h : Host) (w : World) (dispid : Int) (arg : Int) (value : Variant) :
    Option (List Variant) :=
  if h.names "__Item" = some dispid ∧ h.fails w.log.length Kind.set arg = false ∧ 1 ≤ arg
      ∧ (arg - 1).toNat < w.items.length then
    some (w.items.set (arg - 1).toNat value)
  else none

/-! ## The adapter -/

/-- The C `InvokeGet`: calls the getter with `index + 1`.  Returns the result code, the
new content of `*result` (untouched when the call fails) and the new world. -/
def InvokeGet (h : Host) (w : World) (dispidGet : Int) (index : Int) (result : Variant) :
    HRESULT × Variant × World :=
  let idx := wrap32 (index + 1)
  match h.foreignGet w dispidGet idx with
  | some v => (S_OK, v, { w with log := w.log ++ [⟨Kind.get, index, idx, none, true⟩] })
  | none => (E_FAIL, result, { w with log := w.log ++ [⟨Kind.get, index, idx, none, false⟩] })

/-- The value `InvokeSet` hands to the setter: `args[0]` is a local that is never
initialised (it holds `residue`), and only its `vt` and `llVal` are assigned from
`value`. -/
def setArg (residue value : Variant) : Variant :=
  { residue with vt := value.vt, llVal := value.llVal }

/-- The C `InvokeSet`: calls the setter with `index + 1` and `args[0]`. -/
def InvokeSet (h : Host) (w : World) (dispidSet : Int) (index : Int) (value : Variant) :
    HRESULT × World :=
  let args0 := setArg (h.uninit w.log.length Slot.args0) value
  let args1 := wrap32 (index + 1)
  match h.foreignSet w dispidSet args1 args0 with
  | some l =>
    (S_OK, { w with items := l, log := w.log ++ [⟨Kind.set, index, args1, some args0, true⟩] })
  | none => (E_FAIL, { w with log := w.log ++ [⟨Kind.set, index, args1, some args0, false⟩] })

/-! ## The engine -/

/-- The C `SwapElements`: get, get, set, set; no result code is looked at. -/
def SwapElements (h : Host) (w : World) (dispidGet dispidSet : Int) (i j : Int) : World :=
  let temp1 := VariantInit (h.uninit w.log.length Slot.temp1)
  let temp2 := VariantInit (h.uninit w.log.length Slot.temp2)
  let r1 := InvokeGet h w dispidGet i temp1
  let r2 := InvokeGet h r1.2.2 dispidGet j temp2
  let r3 := InvokeSet h r2.2.2 dispidSet i r2.2.1
  let r4 := InvokeSet h r3.2 dispidSet j r1.2.1
  r4.2

/-- One more call of the comparator has been made. -/
def World.tick (w : World) : World := { w with cmps := w.cmps + 1 }

/-- The `for (j = low; j < high; j++)` loop of `Partition`, started at `j` with
boundary cursor `i` and the current content `v1` of the scratch variant.  Each
unit of fuel pays for one test of `j < high`. -/
def PartitionLoop (h : Host) (comparator : Variant → Variant → Int) (dispidGet dispidSet : Int)
    (high : Int) (pivot : Variant) : Nat → Int → Int → Variant → World → Int × World
  | 0, _, i, _, w => (i, w)
  | fuel + 1, j, i, v1, w =>
    if j < high then
      let r := InvokeGet h w dispidGet j v1
      let w1 := r.2.2.tick
      if comparator r.2.1 pivot < 0 then
        let i1 := wrap32 (i + 1)
        PartitionLoop h comparator dispidGet dispidSet high pivot fuel (wrap32 (j + 1)) i1
          (VariantClear r.2.1) (SwapElements h w1 dispidGet dispidSet i1 j)
      else
        PartitionLoop h comparator dispidGet dispidSet high pivot fuel (wrap32 (j + 1)) i
          (VariantClear r.2.1) w1
    else (i, w)

/-- The C `Partition`: Lomuto partition of `[low, high]` around the element at `high`.
The loop gets `high - low` units of fuel, one for each index in `[low, high)`. -/
def Partition (h : Host) (comparator : Variant → Variant → Int) (w : World)
    (dispidGet dispidSet : Int) (low high : Int) : Int × World :=
  let pivot := VariantInit (h.uninit w.log.length Slot.pivot)
  let v1 := VariantInit (h.uninit w.log.length Slot.v1)
  let r := InvokeGet h w dispidGet high pivot
  let i := wrap32 (low - 1)
  let lp := PartitionLoop h comparator dispidGet dispidSet high r.2.1 (high - low).toNat
    low i v1 r.2.2
  let w2 := SwapElements h lp.2 dispidGet dispidSet (wrap32 (lp.1 + 1)) high
  (wrap32 (lp.1 + 1), w2)

/-- The C `QuickSort`: `none` when the fuel (the depth of recursion allowed) runs out. -/
def QuickSort (h : Host) (comparator : Variant → Variant → Int) (dispidGet dispidSet : Int) :
    Nat → Int → Int → World → Option World
  | 0, _, _, _ => none
  | fuel + 1, low, high, w =>
    if low ≥ high then some w
    else
      let p := Partition h comparator w dispidGet dispidSet low high
      match QuickSort h comparator dispidGet dispidSet fuel low (wrap32 (p.1 - 1)) p.2 with
      | none => none
      | some w1 => QuickSort h comparator dispidGet dispidSet fuel (wrap32 (p.1 + 1)) high w1

/-- The conversion of an unsigned 32-bit value to `int`. -/
def toInt32 (u : Nat) : Int := if u < 2147483648 then (u : Int) else (u : Int) - 4294967296

/-- The exported `sort`: `pVariant` is `none` for a null pointer, `dwLen` is an
unsigned 32-bit length.  Returns the result code and the world afterwards, or
`none` when the fuel handed to `QuickSort` runs out. -/
def sort (fuel : Nat) (pVariant : Option VariantArg) (dwLen : Nat)
    (comparator : Variant → Variant → Int) (w : World) : Option (Int × World) :=
  match pVariant with
  | none => some (-1, w)
  | some v =>
    if v.vt ≠ VT_DISPATCH then some (-1, w)
    else
      match v.pdispVal with
      | none => some (-1, w)
      | some pDisp =>
        match pDisp.names "Get" with
        | none => some (-2, w)
        | some dispidGet =>
          match pDisp.names "__Item" with
          | none => some (-3, w)
          | some dispidSet =>
            let high := toInt32 ((dwLen % 4294967296 + 4294967295) % 4294967296)
            match QuickSort pDisp comparator dispidGet dispidSet fuel 0 high w with
            | none => none
            | some w1 => some (0, w1)

/-! ## Vocabulary of the statements -/

/-- The trace of `w2` continues the trace of `w1`, and every call added satisfies `P`. -/
def Grows (P : Call → Prop) (w1 w2 : World) : Prop :=
  ∃ t, w2.log = w1.log ++ t ∧ ∀ c ∈ t, P c

/-- The trace of `w2` continues the trace of `w1` by at least one call, the last of
which is a `set`. -/
def LastSet (w1 w2 : World) : Prop :=
  ∃ t c, w2.log = w1.log ++ (t ++ [c]) ∧ c.kind = Kind.set

/-- Every call recorded after the first `k` ones succeeded. -/
def okFrom (k : Nat) (w : World) : Prop := ∀ c ∈ w.log.drop k, c.ok = true

instance (k : Nat) (w : World) : Decidable (okFrom k w) := by
  unfold okFrom
  infer_instance

/-- What `InvokeSet` carries over of a value: its tag and its 64-bit field, the other
bytes blanked. -/
def key (v : Variant) : Variant := { v with ext := 0 }

/-- The lists `A` and `B` hold, position by position, values with the same tag and the
same 64-bit field. -/
def KeyEq (A B : List Variant) : Prop := A.map key = B.map key

instance (A B : List Variant) : Decidable (KeyEq A B) := by
  unfold KeyEq
  infer_instance

/-- The comparator tells the elements of `l` apart by their tag and their 64-bit field
only: its answer on two values that have the tag and the 64-bit field of elements of
`l` does not depend on their other bytes. -/
def Determined (cmp : Variant → Variant → Int) (l : List Variant) : Prop :=
  ∀ a b a' b', key a ∈ l.map key → key b ∈ l.map key → key a' = key a → key b' = key b →
    cmp a' b' = cmp a b

/-- The kinds whose payload reaches beyond the 64-bit field: the decimal, which
fills the reserved words, and the record, whose second pointer lies behind the first. -/
def wide (vt : Nat) : Bool := vt == VT_DECIMAL || vt == VT_RECORD

/-- Two variants hold the same value: the same tag, the same 64-bit field and, for a
kind whose payload reaches beyond that field, the same other bytes. The other bytes of
a kind whose payload fits in the field are padding. -/
def same (a b : Variant) : Prop :=
  a.vt = b.vt ∧ a.llVal = b.llVal ∧ (wide a.vt = true → a.ext = b.ext)

instance (a b : Variant) : Decidable (same a b) := by
  unfold same
  infer_instance

/-- What is left of a call when its outcome and the value handed over are set aside:
its kind and its zero-based index. -/
def Call.shape (c : Call) : Kind × Int := (c.kind, c.index)

/-- The four calls of `SwapElements(i, j)`. -/
def swapShape (i j : Int) : List (Kind × Int) :=
  [(Kind.get, i), (Kind.get, j), (Kind.set, i), (Kind.set, j)]

/-- The calls of the loop of `Partition` from the index `j` on with boundary cursor `i`,
and the cursor at the end, when the comparator answers "less" where `answers` says
so: a get at every index, followed by a whole swap after each "less". -/
def loopShape : List Bool → Int → Int → List (Kind × Int) × Int
  | [], _, i => ([], i)
  | true :: bs, j, i =>
    ((Kind.get, j) :: swapShape (i + 1) j ++ (loopShape bs (j + 1) (i + 1)).1,
      (loopShape bs (j + 1) (i + 1)).2)
  | false :: bs, j, i => ((Kind.get, j) :: (loopShape bs (j + 1) i).1, (loopShape bs (j + 1) i).2)

/-- The index that a whole `Partition(low, high)` returns under these answers. -/
def pivotOf (low : Int) (answers : List Bool) : Int := (loopShape answers low (low - 1)).2 + 1

/-- The calls of a whole `Partition(low, high)`: the get of the pivot, the loop, the
closing swap. -/
def partitionShape (low high : Int) (answers : List Bool) : List (Kind × Int) :=
  (Kind.get, high) :: (loopShape answers low (low - 1)).1
    ++ swapShape (pivotOf low answers) high

/-- The sequences of calls of a whole `QuickSort(low, high)`: nothing on a range of at
most one index; otherwise a whole `Partition(low, high)` with one answer of the
comparator for each index of `[low, high)`, then a whole `QuickSort` of the range
below the pivot, then a whole `QuickSort` of the range above it. -/
inductive Flow : Int → Int → List (Kind × Int) → Prop where
  | leaf (low high : Int) : high ≤ low → Flow low high []
  | node (low high : Int) (answers : List Bool) (t1 t2 : List (Kind × Int)) :
      low < high → answers.length = (high - low).toNat →
      Flow low (pivotOf low answers - 1) t1 → Flow (pivotOf low answers + 1) high t2 →
      Flow low high (partitionShape low high answers ++ (t1 ++ t2))

/-- The list with the elements at positions `a` and `b` exchanged. -/
def swapAt (l : List Variant) (a b : Nat) : List Variant :=
  match l[a]?, l[b]? with
  | some x, some y => (l.set a y).set b x
  | _, _ => l

/-- The elements of `l` at the indices `lo, ..., hi`. -/
def slice (l : List Variant) (lo hi : Int) : List Variant :=
  (l.drop lo.toNat).take (hi + 1 - lo).toNat

/-- The list `A'` has the length of `A` and the same element as `A` at every position
that `touched` does not name. -/
def Untouched (touched : Int → Prop) (A A' : List Variant) : Prop :=
  A'.length = A.length ∧ ∀ k : Nat, ¬ touched (k : Int) → A'[k]? = A[k]?

/-- A comparator whose sign is a strict weak ordering: a positive result is the
mirror of a negative one, "less" is transitive and so is "equivalent". -/
structure StrictWeakOrder (cmp : Variant → Variant → Int) : Prop where
  sign : ∀ a b, 0 < cmp a b ↔ cmp b a < 0
  trans : ∀ a b c, cmp a b < 0 → cmp b c < 0 → cmp a c < 0
  equiv : ∀ a b c, cmp a b = 0 → cmp b c = 0 → cmp a c = 0

/-- The state of the loop of `Partition` on `[low, high]` with pivot `pv`, when the
loop index is `j`, the boundary cursor `i`, the collection held `A0` at entry and
holds `A` now. What is said of the answers of the comparator is said for a
comparator that tells the elements apart by tag and 64-bit field. -/
structure LoopInv (cmp : Variant → Variant → Int) (pv : Variant) (low high : Int)
    (A0 : List Variant) (j i : Int) (A : List Variant) : Prop where
  len : A.length = A0.length
  perm : (A.map key).Perm (A0.map key)
  ilo : low - 1 ≤ i
  ij : i < j
  jhi : j ≤ high
  small : Determined cmp A0 → ∀ (k : Nat) (v : Variant), low ≤ (k : Int) → (k : Int) ≤ i →
    A[k]? = some v → cmp v pv < 0
  large : Determined cmp A0 → ∀ (k : Nat) (v : Variant), i < (k : Int) → (k : Int) < j →
    A[k]? = some v → ¬ cmp v pv < 0
  frame : ∀ k : Nat, ((k : Int) < low ∨ high ≤ (k : Int)) → A[k]? = A0[k]?
  keep : ∀ P : Variant → Prop, (∀ a b, key a = key b → P a → P b) →
    (∀ (k : Nat) (v : Variant), low ≤ (k : Int) → (k : Int) < high → A0[k]? = some v → P v) →
    ∀ (k : Nat) (v : Variant), low ≤ (k : Int) → (k : Int) < high → A[k]? = some v → P v

/-- The list `A` is `A0` partitioned on `[low, high]` around the element `pv` that was
at `high`: a value `pv'` with its tag and 64-bit field now sits at `p`, and, for a
comparator that tells the elements apart by tag and 64-bit field, what lies below `p`
is less than `pv` and what lies above is not. -/
structure Parted (cmp : Variant → Variant → Int) (low high p : Int)
    (A0 A : List Variant) : Prop where
  len : A.length = A0.length
  perm : (A.map key).Perm (A0.map key)
  plo : low ≤ p
  phi : p ≤ high
  pivot : ∃ pv pv', A0[high.toNat]? = some pv ∧ A[p.toNat]? = some pv' ∧ key pv' = key pv
    ∧ (Determined cmp A0 →
      (∀ (k : Nat) (v : Variant), low ≤ (k : Int) → (k : Int) < p → A[k]? = some v →
        cmp v pv < 0)
      ∧ (∀ (k : Nat) (v : Variant), p < (k : Int) → (k : Int) ≤ high → A[k]? = some v →
        ¬ cmp v pv < 0))
  frame : ∀ k : Nat, ((k : Int) < low ∨ high < (k : Int)) → A[k]? = A0[k]?
  keep : ∀ P : Variant → Prop, (∀ a b, key a = key b → P a → P b) →
    (∀ (k : Nat) (v : Variant), low ≤ (k : Int) → (k : Int) ≤ high → A0[k]? = some v → P v) →
    ∀ (k : Nat) (v : Variant), low ≤ (k : Int) → (k : Int) ≤ high → A[k]? = some v → P v

/-- The list `A` is `A0` with the tags and 64-bit fields of the range `[low, high]`
rearranged, the rest untouched; under a strict weak ordering that tells the elements
apart by tag and 64-bit field the range is in order. -/
structure Arranged (cmp : Variant → Variant → Int) (low high : Int)
    (A0 A : List Variant) : Prop where
  len : A.length = A0.length
  perm : (A.map key).Perm (A0.map key)
  frame : ∀ k : Nat, ((k : Int) < low ∨ high < (k : Int)) → A[k]? = A0[k]?
  keep : ∀ P : Variant → Prop, (∀ a b, key a = key b → P a → P b) →
    (∀ (k : Nat) (v : Variant), low ≤ (k : Int) → (k : Int) ≤ high → A0[k]? = some v → P v) →
    ∀ (k : Nat) (v : Variant), low ≤ (k : Int) → (k : Int) ≤ high → A[k]? = some v → P v
  sorted : StrictWeakOrder cmp → Determined cmp A0 → ∀ (a b : Nat) (x y : Variant),
    low ≤ (a : Int) → a < b → (b : Int) ≤ high → A[a]? = some x → A[b]? = some y → cmp x y ≤ 0

/-! ## Concrete hosts, comparators and collections -/

/-- A valid `pVariant`: an object reference to `h`. -/
def bound (h : Host) : Option VariantArg := some ⟨VT_DISPATCH, some h⟩

/-- A host that resolves both names and never rejects a call. -/
def okHost : Host :=
  ⟨fun s => if s = "Get" then some 1 else if s = "__Item" then some 2 else none,
    fun _ _ _ => false, fun _ _ => ⟨0, 0, 0⟩⟩

/-- A host that resolves both names, never rejects a call, and whose stack holds
something else in every local: after `n` calls the tag 20, the number `100 + n` and
the other bytes `7 + n`. -/
def residueHost : Host :=
  ⟨fun s => if s = "Get" then some 1 else if s = "__Item" then some 2 else none,
    fun _ _ _ => false, fun n _ => ⟨20, 100 + n, 7 + n⟩⟩

/-- A host that resolves both names and rejects every get at zero-based index 2. -/
def failHost : Host :=
  ⟨fun s => if s = "Get" then some 1 else if s = "__Item" then some 2 else none,
    fun _ k a => decide (k = Kind.get ∧ a = 3), fun _ _ => ⟨0, 0, 0⟩⟩

/-- The hosts that resolve both names and reject every get at zero-based index 2 and
nothing else, one for every content `u` of the stack. -/
def failHostWith (u : Nat → Slot → Variant) : Host :=
  ⟨fun s => if s = "Get" then some 1 else if s = "__Item" then some 2 else none,
    fun _ k a => decide (k = Kind.get ∧ a = 3), u⟩

/-- A host on which the name of the getter does not resolve. -/
def unboundHost : Host :=
  ⟨fun _ => none, fun _ _ _ => false, fun _ _ => ⟨0, 0, 0⟩⟩

/-- The numeric ascending comparator on the 64-bit field. -/
def numAsc (a b : Variant) : Int :=
  if a.llVal < b.llVal then -1 else if b.llVal < a.llVal then 1 else 0

/-- The ascending comparator on `llVal + 10 * ext`, which looks at every byte. -/
def wideAsc (a b : Variant) : Int :=
  if a.llVal + 10 * a.ext < b.llVal + 10 * b.ext then -1
  else if b.llVal + 10 * b.ext < a.llVal + 10 * a.ext then 1 else 0

/-- The comparator that always answers "less"; it is not an ordering. -/
def allLess (_ _ : Variant) : Int := -1

/-- A 64-bit integer value. -/
def i8 (n : Int) : Variant := ⟨VT_I8, n, 0⟩

/-- A 32-bit integer value. -/
def i4 (n : Int) : Variant := ⟨VT_I4, n, 0⟩

/-- A fresh collection of 32-bit integers. -/
def ints (l : List Int) : World := ⟨l.map i4, [], 0⟩

/-- A fresh collection of two decimals whose payload reaches beyond `llVal`. -/
def decimals : World := ⟨[⟨VT_DECIMAL, 1, 1⟩, ⟨VT_DECIMAL, 2, 1⟩], [], 0⟩

/-- A fresh collection of four decimals, strictly ascending under `wideAsc`
(`0, 5, 11, 20`), whose 64-bit fields alone are `0, 5, 1, 0`. -/
def decimals4 : World :=
  ⟨[⟨VT_DECIMAL, 0, 0⟩, ⟨VT_DECIMAL, 5, 0⟩, ⟨VT_DECIMAL, 1, 1⟩, ⟨VT_DECIMAL, 0, 2⟩], [], 0⟩

/-- A fresh collection of two distinct values with the same 64-bit field: the 32-bit
integer 1 and the 64-bit integer 1. -/
def twins : World := ⟨[i4 1, i8 1], [], 0⟩

theorem wrap32_eq {x : Int} (h1 : -2147483648 ≤ x) (h2 : x < 2147483648) : wrap32 x = x := by
  unfold wrap32
  omega

theorem Grows.refl (P : Call → Prop) (w : World) : Grows P w w :=
  ⟨[], by simp, by simp⟩

theorem Grows.trans {P : Call → Prop} {w1 w2 w3 : World} (h12 : Grows P w1 w2)
    (h23 : Grows P w2 w3) : Grows P w1 w3 := by
  obtain ⟨t, ht, hP⟩ := h12
  obtain ⟨u, hu, hQ⟩ := h23
  refine ⟨t ++ u, by rw [hu, ht, List.append_assoc], ?_⟩
  intro c hc
  rcases List.mem_append.mp hc with hc | hc
  · exact hP c hc
  · exact hQ c hc

theorem Grows.mono {P Q : Call → Prop} {w1 w2 : World} (h12 : Grows P w1 w2)
    (hPQ : ∀ c, P c → Q c) : Grows Q w1 w2 := by
  obtain ⟨t, ht, hP⟩ := h12
  exact ⟨t, ht, fun c hc => hPQ c (hP c hc)⟩

theorem Grows.length_le {P : Call → Prop} {w1 w2 : World} (h12 : Grows P w1 w2) :
    w1.log.length ≤ w2.log.length := by
  obtain ⟨t, ht, _⟩ := h12
  rw [ht, List.length_append]
  omega

/-- Calls that succeeded in the longer trace succeeded in the shorter one. -/
theorem okFrom_of_grows {P : Call → Prop} {w1 w2 : World} {k : Nat} (h12 : Grows P w1 w2)
    (hk : k ≤ w1.log.length) (hok : okFrom k w2) : okFrom k w1 := by
  obtain ⟨t, ht, _⟩ := h12
  intro c hc
  apply hok c
  rw [ht, List.drop_append_of_le_length hk]
  exact List.mem_append_left _ hc

theorem LastSet.of_grows_left {P : Call → Prop} {w1 w2 w3 : World} (h12 : Grows P w1 w2)
    (h23 : LastSet w2 w3) : LastSet w1 w3 := by
  obtain ⟨t, ht, _⟩ := h12
  obtain ⟨u, c, hu, hc⟩ := h23
  exact ⟨t ++ u, c, by rw [hu, ht]; simp, hc⟩

/-! ### The adapter, for any host -/

theorem InvokeGet_some {h : Host} {w : World} {dg i : Int} {v : Variant} (r : Variant)
    (hf : h.foreignGet w dg (wrap32 (i + 1)) = some v) :
    InvokeGet h w dg i r = (S_OK, v, { w with log := w.log ++
      [⟨Kind.get, i, wrap32 (i + 1), none, true⟩] }) := by
  simp [InvokeGet, hf]

theorem InvokeGet_none {h : Host} {w : World} {dg i : Int} (r : Variant)
    (hf : h.foreignGet w dg (wrap32 (i + 1)) = none) :
    InvokeGet h w dg i r = (E_FAIL, r, { w with log := w.log ++
      [⟨Kind.get, i, wrap32 (i + 1), none, false⟩] }) := by
  simp [InvokeGet, hf]

theorem InvokeSet_some {h : Host} {w : World} {ds i : Int} {v : Variant} {l : List Variant}
    (hf : h.foreignSet w ds (wrap32 (i + 1)) (setArg (h.uninit w.log.length Slot.args0) v) = some l) :
    InvokeSet h w ds i v = (S_OK, { w with items := l, log := w.log ++
      [⟨Kind.set, i, wrap32 (i + 1), some (setArg (h.uninit w.log.length Slot.args0) v), true⟩] }) := by
  simp [InvokeSet, hf]

theorem InvokeSet_none {h : Host} {w : World} {ds i : Int} {v : Variant}
    (hf : h.foreignSet w ds (wrap32 (i + 1)) (setArg (h.uninit w.log.length Slot.args0) v) = none) :
    InvokeSet h w ds i v = (E_FAIL, { w with log := w.log ++
      [⟨Kind.set, i, wrap32 (i + 1), some (setArg (h.uninit w.log.length Slot.args0) v), false⟩] }) := by
  simp [InvokeSet, hf]

theorem InvokeGet_items (h : Host) (w : World) (dg i : Int) (r : Variant) :
    (InvokeGet h w dg i r).2.2.items = w.items ∧ (InvokeGet h w dg i r).2.2.cmps = w.cmps := by
  cases hf : h.foreignGet w dg (wrap32 (i + 1)) with
  | none => simp [InvokeGet_none r hf]
  | some v => simp [InvokeGet_some r hf]

theorem InvokeGet_log (h : Host) (w : World) (dg i : Int) (r : Variant) :
    ∃ c, (InvokeGet h w dg i r).2.2.log = w.log ++ [c] ∧ c.kind = Kind.get ∧ c.index = i
      ∧ c.arg = wrap32 (i + 1)
      ∧ (c.ok = true → ∃ v, h.foreignGet w dg (wrap32 (i + 1)) = some v
          ∧ (InvokeGet h w dg i r).2.1 = v) := by
  cases hf : h.foreignGet w dg (wrap32 (i + 1)) with
  | none => simp [InvokeGet_none r hf]
  | some v => simp [InvokeGet_some r hf]

theorem InvokeSet_log (h : Host) (w : World) (ds i : Int) (v : Variant) :
    ∃ c, (InvokeSet h w ds i v).2.log = w.log ++ [c] ∧ c.kind = Kind.set ∧ c.index = i
      ∧ c.arg = wrap32 (i + 1) ∧ (InvokeSet h w ds i v).2.cmps = w.cmps
      ∧ (c.ok = true → ∃ l, h.foreignSet w ds (wrap32 (i + 1)) (setArg (h.uninit w.log.length Slot.args0) v) = some l
          ∧ (InvokeSet h w ds i v).2.items = l) := by
  cases hf : h.foreignSet w ds (wrap32 (i + 1)) (setArg (h.uninit w.log.length Slot.args0) v) with
  | none => simp [InvokeSet_none hf]
  | some l => simp [InvokeSet_some hf]

theorem foreignGet_some {h : Host} {w : World} {dg a : Int} {v : Variant}
    (hf : h.foreignGet w dg a = some v) : 1 ≤ a ∧ w.items[(a - 1).toNat]? = some v := by
  unfold Host.foreignGet at hf
  split at hf
  · rename_i hc
    exact ⟨hc.2.2, hf⟩
  · cases hf

theorem foreignSet_some {h : Host} {w : World} {ds a : Int} {v : Variant} {l : List Variant}
    (hf : h.foreignSet w ds a v = some l) :
    1 ≤ a ∧ (a - 1).toNat < w.items.length ∧ l = w.items.set (a - 1).toNat v := by
  unfold Host.foreignSet at hf
  split at hf
  · rename_i hc
    exact ⟨hc.2.2.1, hc.2.2.2, by simpa using hf.symm⟩
  · cases hf

/-- The four calls of a swap. -/
theorem SwapElements_log (h : Host) (w : World) (dg ds i j : Int) :
    ∃ c1 c2 c3 c4, (SwapElements h w dg ds i j).log = w.log ++ [c1, c2, c3, c4]
      ∧ (c1.kind = Kind.get ∧ c1.index = i) ∧ (c2.kind = Kind.get ∧ c2.index = j)
      ∧ (c3.kind = Kind.set ∧ c3.index = i) ∧ (c4.kind = Kind.set ∧ c4.index = j)
      ∧ (SwapElements h w dg ds i j).cmps = w.cmps := by
  unfold SwapElements
  simp only []
  generalize VariantInit (h.uninit w.log.length Slot.temp1) = t1
  generalize VariantInit (h.uninit w.log.length Slot.temp2) = t2
  obtain ⟨c1, h1, k1, i1, -, -⟩ := InvokeGet_log h w dg i t1
  obtain ⟨c2, h2, k2, i2, -, -⟩ := InvokeGet_log h (InvokeGet h w dg i t1).2.2 dg j t2
  obtain ⟨c3, h3, k3, i3, -, m3, -⟩ := InvokeSet_log h
    (InvokeGet h (InvokeGet h w dg i t1).2.2 dg j t2).2.2 ds i
    (InvokeGet h (InvokeGet h w dg i t1).2.2 dg j t2).2.1
  obtain ⟨c4, h4, k4, i4, -, m4, -⟩ := InvokeSet_log h
    (InvokeSet h (InvokeGet h (InvokeGet h w dg i t1).2.2 dg j t2).2.2 ds i
      (InvokeGet h (InvokeGet h w dg i t1).2.2 dg j t2).2.1).2
    ds j (InvokeGet h w dg i t1).2.1
  refine ⟨c1, c2, c3, c4, ?_, ⟨k1, i1⟩, ⟨k2, i2⟩, ⟨k3, i3⟩, ⟨k4, i4⟩, ?_⟩
  · rw [h4, h3, h2, h1]; simp
  · rw [m4, m3, (InvokeGet_items _ _ _ _ _).2, (InvokeGet_items _ _ _ _ _).2]

theorem SwapElements_grows (h : Host) (w : World) (dg ds i j : Int) :
    Grows (fun c => c.index = i ∨ c.index = j) w (SwapElements h w dg ds i j)
      ∧ LastSet w (SwapElements h w dg ds i j) := by
  obtain ⟨c1, c2, c3, c4, hl, h1, h2, h3, h4, -⟩ := SwapElements_log h w dg ds i j
  refine ⟨⟨_, hl, ?_⟩, ⟨[c1, c2, c3], c4, by rw [hl]; simp, h4.1⟩⟩
  intro c hc
  simp only [List.mem_cons, List.mem_singleton, List.not_mem_nil, or_false] at hc
  rcases hc with rfl | rfl | rfl | rfl
  · exact Or.inl h1.2
  · exact Or.inr h2.2
  · exact Or.inl h3.2
  · exact Or.inr h4.2

/-! ### The engine, for any host and any comparator -/

theorem PartitionLoop_zero (h : Host) (cmp : Variant → Variant → Int) (dg ds high : Int)
    (pv : Variant) (j i : Int) (v1 : Variant) (w : World) :
    PartitionLoop h cmp dg ds high pv 0 j i v1 w = (i, w) := rfl

theorem PartitionLoop_done (h : Host) (cmp : Variant → Variant → Int) (dg ds high : Int)
    (pv : Variant) (fuel : Nat) (j i : Int) (v1 : Variant) (w : World) (hj : ¬ j < high) :
    PartitionLoop h cmp dg ds high pv fuel j i v1 w = (i, w) := by
  cases fuel with
  | zero => rfl
  | succ fuel => simp [PartitionLoop, hj]

theorem PartitionLoop_less (h : Host) (cmp : Variant → Variant → Int) (dg ds high : Int)
    (pv : Variant) (fuel : Nat) (j i : Int) (v1 : Variant) (w : World) (hj : j < high)
    (hlt : cmp (InvokeGet h w dg j v1).2.1 pv < 0) :
    PartitionLoop h cmp dg ds high pv (fuel + 1) j i v1 w =
      PartitionLoop h cmp dg ds high pv fuel (wrap32 (j + 1)) (wrap32 (i + 1))
        (VariantClear (InvokeGet h w dg j v1).2.1)
        (SwapElements h (InvokeGet h w dg j v1).2.2.tick dg ds (wrap32 (i + 1)) j) := by
  simp [PartitionLoop, hj, hlt]

theorem PartitionLoop_notLess (h : Host) (cmp : Variant → Variant → Int) (dg ds high : Int)
    (pv : Variant) (fuel : Nat) (j i : Int) (v1 : Variant) (w : World) (hj : j < high)
    (hlt : ¬ cmp (InvokeGet h w dg j v1).2.1 pv < 0) :
    PartitionLoop h cmp dg ds high pv (fuel + 1) j i v1 w =
      PartitionLoop h cmp dg ds high pv fuel (wrap32 (j + 1)) i
        (VariantClear (InvokeGet h w dg j v1).2.1) (InvokeGet h w dg j v1).2.2.tick := by
  simp [PartitionLoop, hj, hlt]

theorem Partition_eq (h : Host) (cmp : Variant → Variant → Int) (w : World)
    (dg ds low high : Int) (lp : Int × World)
    (hlp : lp = PartitionLoop h cmp dg ds high (InvokeGet h w dg high (VariantInit (h.uninit w.log.length Slot.pivot))).2.1
      (high - low).toNat low (wrap32 (low - 1)) (VariantInit (h.uninit w.log.length Slot.v1))
      (InvokeGet h w dg high (VariantInit (h.uninit w.log.length Slot.pivot))).2.2) :
    Partition h cmp w dg ds low high =
      (wrap32 (lp.1 + 1), SwapElements h lp.2 dg ds (wrap32 (lp.1 + 1)) high) := by
  subst hlp
  rfl

theorem QuickSort_succ (h : Host) (cmp : Variant → Variant → Int) (dg ds : Int) (fuel : Nat)
    (low high : Int) (w : World) (hlh : low < high) :
    QuickSort h cmp dg ds (fuel + 1) low high w =
      (QuickSort h cmp dg ds fuel low (wrap32 ((Partition h cmp w dg ds low high).1 - 1))
        (Partition h cmp w dg ds low high).2).bind
        (fun w1 => QuickSort h cmp dg ds fuel
          (wrap32 ((Partition h cmp w dg ds low high).1 + 1)) high w1) := by
  have hn : ¬ low ≥ high := by omega
  rw [QuickSort]
  simp only [hn, if_false]
  cases QuickSort h cmp dg ds fuel low (wrap32 ((Partition h cmp w dg ds low high).1 - 1))
    (Partition h cmp w dg ds low high).2 <;> rfl

theorem QuickSort_base (h : Host) (cmp : Variant → Variant → Int) (dg ds : Int) (fuel : Nat)
    (low high : Int) (w : World) (hlh : high ≤ low) :
    QuickSort h cmp dg ds (fuel + 1) low high w = some w := by
  have hn : low ≥ high := hlh
  rw [QuickSort]
  simp only [hn, if_true]

theorem tick_log (w : World) : w.tick.log = w.log := rfl

theorem tick_items (w : World) : w.tick.items = w.items := rfl

/-- The loop of `Partition`: the boundary cursor only grows, stays below the loop
index, and every index touched lies strictly between the cursor and `high`. -/
theorem PartitionLoop_any (h : Host) (cmp : Variant → Variant → Int) (dg ds high : Int)
    (pv : Variant) (hhigh : high ≤ 2147483647) :
    ∀ (fuel : Nat) (j i : Int) (v1 : Variant) (w : World), -2147483648 ≤ i → i < j →
      i ≤ (PartitionLoop h cmp dg ds high pv fuel j i v1 w).1
      ∧ (PartitionLoop h cmp dg ds high pv fuel j i v1 w).1 < max j high
      ∧ Grows (fun c => i < c.index ∧ c.index < high) w
          (PartitionLoop h cmp dg ds high pv fuel j i v1 w).2 := by
  intro fuel
  induction fuel with
  | zero =>
    intro j i v1 w _ hij
    rw [PartitionLoop_zero]
    exact ⟨le_refl _, lt_of_lt_of_le hij (le_max_left _ _), Grows.refl _ _⟩
  | succ fuel ih =>
    intro j i v1 w hi hij
    by_cases hj : j < high
    · have hwj : wrap32 (j + 1) = j + 1 := wrap32_eq (by omega) (by omega)
      have hwi : wrap32 (i + 1) = i + 1 := wrap32_eq (by omega) (by omega)
      obtain ⟨c, hc, -, hci, -, -⟩ := InvokeGet_log h w dg j v1
      have hg : Grows (fun c => i < c.index ∧ c.index < high) w
          (InvokeGet h w dg j v1).2.2.tick := by
        refine ⟨[c], hc, ?_⟩
        intro c' hc'
        rw [List.mem_singleton] at hc'
        subst hc'
        rw [hci]
        exact ⟨hij, hj⟩
      have hmax : max (j + 1) high = high := max_eq_right (by omega)
      by_cases hlt : cmp (InvokeGet h w dg j v1).2.1 pv < 0
      · rw [PartitionLoop_less h cmp dg ds high pv fuel j i v1 w hj hlt, hwj, hwi]
        obtain ⟨h1, h2, h3⟩ := ih (j + 1) (i + 1) (VariantClear (InvokeGet h w dg j v1).2.1)
          (SwapElements h (InvokeGet h w dg j v1).2.2.tick dg ds (i + 1) j) (by omega) (by omega)
        refine ⟨by omega, ?_, ?_⟩
        · rw [hmax] at h2
          exact lt_of_lt_of_le h2 (le_max_right _ _)
        · refine hg.trans (Grows.trans ?_ (h3.mono ?_))
          · refine (SwapElements_grows h _ dg ds (i + 1) j).1.mono ?_
            intro c' hc'
            rcases hc' with hc' | hc' <;> rw [hc'] <;> omega
          · intro c' hc'
            omega
      · rw [PartitionLoop_notLess h cmp dg ds high pv fuel j i v1 w hj hlt, hwj]
        obtain ⟨h1, h2, h3⟩ := ih (j + 1) i (VariantClear (InvokeGet h w dg j v1).2.1)
          (InvokeGet h w dg j v1).2.2.tick hi (by omega)
        refine ⟨h1, ?_, hg.trans h3⟩
        rw [hmax] at h2
        exact lt_of_lt_of_le h2 (le_max_right _ _)
    · rw [PartitionLoop_done h cmp dg ds high pv _ j i v1 w hj]
      exact ⟨le_refl _, lt_of_lt_of_le hij (le_max_left _ _), Grows.refl _ _⟩

/-- Any run of `Partition` on a non-empty range: the index returned lies in the range, every
index touched lies in the range, the first call reads `high` and the last call is
a `set`. -/
theorem Partition_any (h : Host) (cmp : Variant → Variant → Int) (w : World) (dg ds low high : Int)
    (hlow : -2147483648 < low) (hhigh : high ≤ 2147483647) (hle : low ≤ high) :
    low ≤ (Partition h cmp w dg ds low high).1
      ∧ (Partition h cmp w dg ds low high).1 ≤ high
      ∧ Grows (fun c => low ≤ c.index ∧ c.index ≤ high) w (Partition h cmp w dg ds low high).2
      ∧ LastSet w (Partition h cmp w dg ds low high).2
      ∧ (∃ c t, (Partition h cmp w dg ds low high).2.log = w.log ++ c :: t
          ∧ c.kind = Kind.get ∧ c.index = high) := by
  have hwl : wrap32 (low - 1) = low - 1 := wrap32_eq (by omega) (by omega)
  obtain ⟨c, hc, hck, hci, -, -⟩ := InvokeGet_log h w dg high (VariantInit (h.uninit w.log.length Slot.pivot))
  have hg : Grows (fun c => low ≤ c.index ∧ c.index ≤ high) w
      (InvokeGet h w dg high (VariantInit (h.uninit w.log.length Slot.pivot))).2.2 := by
    refine ⟨[c], hc, ?_⟩
    intro c' hc'
    rw [List.mem_singleton] at hc'
    subst hc'
    rw [hci]
    exact ⟨hle, le_refl _⟩
  rw [Partition_eq h cmp w dg ds low high _ rfl, hwl]
  generalize hlp : PartitionLoop h cmp dg ds high (InvokeGet h w dg high (VariantInit (h.uninit w.log.length Slot.pivot))).2.1
    (high - low).toNat low (low - 1) (VariantInit (h.uninit w.log.length Slot.v1))
    (InvokeGet h w dg high (VariantInit (h.uninit w.log.length Slot.pivot))).2.2 = lp
  obtain ⟨h1, h2, h3⟩ := PartitionLoop_any h cmp dg ds high
    (InvokeGet h w dg high (VariantInit (h.uninit w.log.length Slot.pivot))).2.1 hhigh (high - low).toNat low (low - 1)
    (VariantInit (h.uninit w.log.length Slot.v1)) (InvokeGet h w dg high (VariantInit (h.uninit w.log.length Slot.pivot))).2.2 (by omega) (by omega)
  rw [hlp, max_eq_right hle] at h2
  rw [hlp] at h1 h3
  have hwp : wrap32 (lp.1 + 1) = lp.1 + 1 := wrap32_eq (by omega) (by omega)
  rw [hwp]
  obtain ⟨s1, s2⟩ := SwapElements_grows h lp.2 dg ds (lp.1 + 1) high
  have hg3 : Grows (fun c => low ≤ c.index ∧ c.index ≤ high)
      (InvokeGet h w dg high (VariantInit (h.uninit w.log.length Slot.pivot))).2.2 lp.2 :=
    h3.mono (fun c' hc' => by omega)
  have s1' : Grows (fun c => low ≤ c.index ∧ c.index ≤ high) lp.2
      (SwapElements h lp.2 dg ds (lp.1 + 1) high) := by
    refine s1.mono ?_
    intro c' hc'
    rcases hc' with hc' | hc' <;> rw [hc'] <;> omega
  refine ⟨by simp only []; omega, by simp only []; omega, hg.trans (hg3.trans s1'),
    LastSet.of_grows_left (hg.trans hg3) s2, ?_⟩
  obtain ⟨t, ht, -⟩ := hg3.trans s1'
  exact ⟨c, t, by simp only []; rw [ht, hc]; simp, hck, hci⟩

/-- The fuel handed to the loop by `Partition` is enough: the loop stops because
`j` has reached `high`, and more fuel changes nothing. -/
theorem PartitionLoop_fuel (h : Host) (cmp : Variant → Variant → Int) (dg ds high : Int)
    (pv : Variant) (hhigh : high ≤ 2147483647) :
    ∀ (fuel : Nat) (j i : Int) (v1 : Variant) (w : World), -2147483648 ≤ j →
      (high - j).toNat ≤ fuel →
      PartitionLoop h cmp dg ds high pv (fuel + 1) j i v1 w
        = PartitionLoop h cmp dg ds high pv fuel j i v1 w := by
  intro fuel
  induction fuel with
  | zero =>
    intro j i v1 w _ hf
    rw [PartitionLoop_done h cmp dg ds high pv _ j i v1 w (by omega), PartitionLoop_zero]
  | succ fuel ih =>
    intro j i v1 w hj0 hf
    by_cases hj : j < high
    · have hwj : wrap32 (j + 1) = j + 1 := wrap32_eq (by omega) (by omega)
      by_cases hlt : cmp (InvokeGet h w dg j v1).2.1 pv < 0
      · rw [PartitionLoop_less h cmp dg ds high pv (fuel + 1) j i v1 w hj hlt,
          PartitionLoop_less h cmp dg ds high pv fuel j i v1 w hj hlt, hwj]
        exact ih _ _ _ _ (by omega) (by omega)
      · rw [PartitionLoop_notLess h cmp dg ds high pv (fuel + 1) j i v1 w hj hlt,
          PartitionLoop_notLess h cmp dg ds high pv fuel j i v1 w hj hlt, hwj]
        exact ih _ _ _ _ (by omega) (by omega)
    · rw [PartitionLoop_done h cmp dg ds high pv _ j i v1 w hj,
        PartitionLoop_done h cmp dg ds high pv _ j i v1 w hj]

/-- More fuel never changes what `QuickSort` returns. -/
theorem QuickSort_fuel_mono (h : Host) (cmp : Variant → Variant → Int) (dg ds : Int) :
    ∀ (fuel : Nat) (low high : Int) (w w' : World),
      QuickSort h cmp dg ds fuel low high w = some w' →
      QuickSort h cmp dg ds (fuel + 1) low high w = some w' := by
  intro fuel
  induction fuel with
  | zero => intro low high w w' hq; simp [QuickSort] at hq
  | succ fuel ih =>
    intro low high w w' hq
    by_cases hlh : low < high
    · rw [QuickSort_succ _ _ _ _ _ _ _ _ hlh] at hq ⊢
      obtain ⟨w1, h1, h2⟩ := Option.bind_eq_some.mp hq
      exact Option.bind_eq_some.mpr ⟨w1, ih _ _ _ _ h1, ih _ _ _ _ h2⟩
    · rw [QuickSort_base _ _ _ _ _ _ _ _ (by omega)] at hq ⊢
      exact hq

/-- Termination: `QuickSort` returns once the fuel exceeds the width of the range. -/
theorem QuickSort_total (h : Host) (cmp : Variant → Variant → Int) (dg ds : Int) :
    ∀ (fuel : Nat) (low high : Int) (w : World), -2147483648 < low → high < 2147483647 →
      (high - low).toNat < fuel → ∃ w', QuickSort h cmp dg ds fuel low high w = some w' := by
  intro fuel
  induction fuel with
  | zero => intro low high w _ _ hf; omega
  | succ fuel ih =>
    intro low high w hlow hhigh hf
    by_cases hlh : low < high
    · rw [QuickSort_succ _ _ _ _ _ _ _ _ hlh]
      obtain ⟨p1, p2, -⟩ := Partition_any h cmp w dg ds low high hlow (by omega) (by omega)
      have e1 : wrap32 ((Partition h cmp w dg ds low high).1 - 1)
          = (Partition h cmp w dg ds low high).1 - 1 := wrap32_eq (by omega) (by omega)
      have e2 : wrap32 ((Partition h cmp w dg ds low high).1 + 1)
          = (Partition h cmp w dg ds low high).1 + 1 := wrap32_eq (by omega) (by omega)
      rw [e1, e2]
      obtain ⟨w1, hw1⟩ := ih low ((Partition h cmp w dg ds low high).1 - 1)
        (Partition h cmp w dg ds low high).2 hlow (by omega) (by omega)
      obtain ⟨w2, hw2⟩ := ih ((Partition h cmp w dg ds low high).1 + 1) high w1 (by omega) hhigh
        (by omega)
      exact ⟨w2, Option.bind_eq_some.mpr ⟨w1, hw1, hw2⟩⟩
    · exact ⟨w, QuickSort_base _ _ _ _ _ _ _ _ (by omega)⟩

/-- What `QuickSort` does to the trace, whatever the host answers. -/
theorem QuickSort_any (h : Host) (cmp : Variant → Variant → Int) (dg ds : Int) :
    ∀ (fuel : Nat) (low high : Int) (w w' : World), -2147483648 < low → high < 2147483647 →
      QuickSort h cmp dg ds fuel low high w = some w' →
      Grows (fun c => low ≤ c.index ∧ c.index ≤ high) w w'
      ∧ (low < high → LastSet w w'
          ∧ ∃ c t, w'.log = w.log ++ c :: t ∧ c.kind = Kind.get ∧ c.index = high)
      ∧ (high ≤ low → w' = w) := by
  intro fuel
  induction fuel with
  | zero => intro low high w w' _ _ hq; simp [QuickSort] at hq
  | succ fuel ih =>
    intro low high w w' hlow hhigh hq
    by_cases hlh : low < high
    · rw [QuickSort_succ _ _ _ _ _ _ _ _ hlh] at hq
      obtain ⟨p1, p2, pg, pl, c, t, pc, pk, pi⟩ :=
        Partition_any h cmp w dg ds low high hlow (by omega) (by omega)
      have e1 : wrap32 ((Partition h cmp w dg ds low high).1 - 1)
          = (Partition h cmp w dg ds low high).1 - 1 := wrap32_eq (by omega) (by omega)
      have e2 : wrap32 ((Partition h cmp w dg ds low high).1 + 1)
          = (Partition h cmp w dg ds low high).1 + 1 := wrap32_eq (by omega) (by omega)
      rw [e1, e2] at hq
      obtain ⟨w1, h1, h2⟩ := Option.bind_eq_some.mp hq
      obtain ⟨g1, l1, s1⟩ := ih _ _ _ _ hlow (by omega) h1
      obtain ⟨g2, l2, s2⟩ := ih _ _ _ _ (by omega) hhigh h2
      have g1' : Grows (fun c => low ≤ c.index ∧ c.index ≤ high)
          (Partition h cmp w dg ds low high).2 w1 := g1.mono (fun c' hc' => by omega)
      have g2' : Grows (fun c => low ≤ c.index ∧ c.index ≤ high) w1 w' :=
        g2.mono (fun c' hc' => by omega)
      refine ⟨pg.trans (g1'.trans g2'), fun _ => ⟨?_, ?_⟩, fun hc => absurd hc (by omega)⟩
      · have l01 : LastSet w w1 := by
          by_cases hc1 : low < (Partition h cmp w dg ds low high).1 - 1
          · exact LastSet.of_grows_left pg (l1 hc1).1
          · rw [s1 (by omega)]
            exact pl
        by_cases hc2 : (Partition h cmp w dg ds low high).1 + 1 < high
        · exact LastSet.of_grows_left (pg.trans g1') (l2 hc2).1
        · rw [s2 (by omega)]
          exact l01
      · obtain ⟨u, hu, -⟩ := g1'.trans g2'
        exact ⟨c, t ++ u, by rw [hu, pc]; simp, pk, pi⟩
    · rw [QuickSort_base _ _ _ _ _ _ _ _ (by omega)] at hq
      simp only [Option.some.injEq] at hq
      subst hq
      exact ⟨Grows.refl _ _, fun hc => absurd hc hlh, fun _ => rfl⟩

/-! ### Exchanging two positions of a list -/

theorem swapAt_length (l : List Variant) (a b : Nat) : (swapAt l a b).length = l.length := by
  unfold swapAt
  split <;> simp

theorem swapAt_eq {l : List Variant} {a b : Nat} {x y : Variant} (ha : l[a]? = some x)
    (hb : l[b]? = some y) : swapAt l a b = (l.set a y).set b x := by
  simp [swapAt, ha, hb]

theorem swapAt_getElem? {l : List Variant} {a b : Nat} (ha : a < l.length) (hb : b < l.length)
    (k : Nat) : (swapAt l a b)[k]? = if k = b then l[a]? else if k = a then l[b]? else l[k]? := by
  have hxa : l[a]? = some l[a] := List.getElem?_eq_getElem ha
  have hxb : l[b]? = some l[b] := List.getElem?_eq_getElem hb
  rw [swapAt_eq hxa hxb, List.getElem?_set, List.getElem?_set]
  by_cases h1 : k = b
  · subst h1
    simp [hb, hxa]
  · by_cases h2 : k = a
    · subst h2
      have : ¬ b = k := fun e => h1 e.symm
      simp [this, h1, ha, hxb]
    · have e1 : ¬ b = k := fun e => h1 e.symm
      have e2 : ¬ a = k := fun e => h2 e.symm
      simp [e1, e2, h1, h2]

theorem count_swap_aux (l : List Variant) (i : Nat) (hi : i < l.length) (c : Variant) :
    (if l[i] = c then 1 else 0) ≤ l.count c := by
  split
  · rename_i he
    exact List.count_pos_iff.mpr (he ▸ List.getElem_mem hi)
  · exact Nat.zero_le _

theorem swapAt_perm (l : List Variant) (a b : Nat) : (swapAt l a b).Perm l := by
  unfold swapAt
  split
  · rename_i x y hx hy
    obtain ⟨ha, rfl⟩ := List.getElem?_eq_some_iff.mp hx
    obtain ⟨hb, rfl⟩ := List.getElem?_eq_some_iff.mp hy
    rw [List.perm_iff_count]
    intro c
    have hb' : b < (l.set a l[b]).length := by simpa using hb
    rw [List.count_set _ _ _ _ hb', List.count_set _ _ _ _ ha, List.getElem_set]
    have h1 := count_swap_aux l a ha c
    have h2 := count_swap_aux l b hb c
    by_cases hab : a = b
    · subst hab
      simp only [if_true, beq_iff_eq]
      omega
    · simp only [hab, if_false, beq_iff_eq]
      omega
  · exact List.Perm.refl _

/-! ### Tag and 64-bit field -/

theorem key_setArg (r v : Variant) : key (setArg r v) = key v := rfl

theorem key_key (v : Variant) : key (key v) = key v := rfl

theorem key_VariantClear (v : Variant) : (VariantClear v).llVal = v.llVal := rfl

theorem KeyEq.rfl_of (A : List Variant) : KeyEq A A := rfl

theorem KeyEq.length_eq {A B : List Variant} (hk : KeyEq A B) : A.length = B.length := by
  have := congrArg List.length hk
  simpa using this

theorem KeyEq.getElem? {A B : List Variant} (hk : KeyEq A B) {k : Nat} {u : Variant}
    (hu : A[k]? = some u) : ∃ v, B[k]? = some v ∧ key v = key u := by
  have h1 : (A.map key)[k]? = (B.map key)[k]? := by rw [hk]
  rw [List.getElem?_map, List.getElem?_map, hu] at h1
  cases hb : B[k]? with
  | none => rw [hb] at h1; cases h1
  | some v =>
    rw [hb] at h1
    exact ⟨v, rfl, (Option.some.inj h1).symm⟩

theorem KeyEq.perm_left {A B C : List Variant} (hk : KeyEq A B)
    (hp : (B.map key).Perm (C.map key)) : (A.map key).Perm (C.map key) := by
  unfold KeyEq at hk
  rw [hk]
  exact hp

theorem mem_keys {A : List Variant} {k : Nat} {v : Variant} (hv : A[k]? = some v) :
    key v ∈ A.map key :=
  List.mem_map.mpr ⟨v, List.getElem?_mem hv, rfl⟩

theorem Determined.of_perm {cmp : Variant → Variant → Int} {A A0 : List Variant}
    (hd : Determined cmp A0) (hp : (A.map key).Perm (A0.map key)) : Determined cmp A :=
  fun a b a' b' ha hb ha' hb' => hd a b a' b' (hp.mem_iff.mp ha) (hp.mem_iff.mp hb) ha' hb'

/-- Two successful sets of copies give, up to the other bytes, the exchange of
the two positions. -/
theorem set_set_keyEq {l : List Variant} {a b : Nat} {x y x' y' : Variant}
    (ha : l[a]? = some x) (hb : l[b]? = some y) (hx : key x' = key x) (hy : key y' = key y) :
    KeyEq ((l.set a y').set b x') (swapAt l a b) := by
  rw [swapAt_eq ha hb]
  unfold KeyEq
  rw [List.map_set, List.map_set, List.map_set, List.map_set, hx, hy]

theorem set_set_frame (l : List Variant) (a b : Nat) (x' y' : Variant) (k : Nat) (hka : k ≠ a)
    (hkb : k ≠ b) : ((l.set a y').set b x')[k]? = l[k]? := by
  rw [List.getElem?_set_ne (fun e => hkb e.symm), List.getElem?_set_ne (fun e => hka e.symm)]

/-! ### The adapter when its calls succeed -/

theorem ok_last {w w' : World} {c : Call} {k : Nat} (hl : w'.log = w.log ++ [c])
    (hk : k ≤ w.log.length) (hok : okFrom k w') : c.ok = true ∧ okFrom k w := by
  have hg : Grows (fun _ => True) w w' := ⟨[c], hl, fun _ _ => trivial⟩
  refine ⟨?_, okFrom_of_grows hg hk hok⟩
  apply hok c
  rw [hl, List.drop_append_of_le_length hk]
  exact List.mem_append_right _ (List.mem_singleton.mpr rfl)

/-- A one-based argument that the collection accepts comes from a zero-based index
that did not overflow. -/
theorem index_of_arg {i : Int} (h1 : -2147483648 ≤ i) (h2 : i ≤ 2147483647)
    (ha : 1 ≤ wrap32 (i + 1)) : 0 ≤ i ∧ i < 2147483647 ∧ (wrap32 (i + 1) - 1).toNat = i.toNat := by
  unfold wrap32 at ha ⊢
  omega

/-- A successful get reads the element at its index. -/
theorem InvokeGet_good {h : Host} {w : World} {dg i : Int} {r : Variant} {k : Nat}
    (hk : k ≤ w.log.length) (hok : okFrom k (InvokeGet h w dg i r).2.2)
    (h1 : -2147483648 ≤ i) (h2 : i ≤ 2147483647) :
    0 ≤ i ∧ i < 2147483647 ∧ w.items[i.toNat]? = some (InvokeGet h w dg i r).2.1
      ∧ okFrom k w := by
  obtain ⟨c, hl, -, -, -, hv⟩ := InvokeGet_log h w dg i r
  obtain ⟨hc, hw⟩ := ok_last hl hk hok
  obtain ⟨v, hf, hr⟩ := hv hc
  obtain ⟨ha, hget⟩ := foreignGet_some hf
  obtain ⟨i0, i1, ie⟩ := index_of_arg h1 h2 ha
  rw [ie] at hget
  exact ⟨i0, i1, by rw [hr]; exact hget, hw⟩

/-- A successful set overwrites the element at its index with what it was handed. -/
theorem InvokeSet_good {h : Host} {w : World} {ds i : Int} {v : Variant} {k : Nat}
    (hk : k ≤ w.log.length) (hok : okFrom k (InvokeSet h w ds i v).2)
    (h1 : -2147483648 ≤ i) (h2 : i ≤ 2147483647) :
    0 ≤ i ∧ i < 2147483647 ∧ i.toNat < w.items.length
      ∧ (InvokeSet h w ds i v).2.items = w.items.set i.toNat (setArg (h.uninit w.log.length Slot.args0) v) ∧ okFrom k w := by
  obtain ⟨c, hl, -, -, -, -, hv⟩ := InvokeSet_log h w ds i v
  obtain ⟨hc, hw⟩ := ok_last hl hk hok
  obtain ⟨l, hf, hr⟩ := hv hc
  obtain ⟨ha, hlen, hset⟩ := foreignSet_some hf
  obtain ⟨i0, i1, ie⟩ := index_of_arg h1 h2 ha
  rw [ie] at hlen hset
  exact ⟨i0, i1, hlen, by rw [hr, hset], hw⟩

theorem InvokeGet_log_length (h : Host) (w : World) (dg i : Int) (r : Variant) :
    (InvokeGet h w dg i r).2.2.log.length = w.log.length + 1 := by
  obtain ⟨c, hl, -⟩ := InvokeGet_log h w dg i r
  rw [hl]; simp

theorem InvokeSet_log_length (h : Host) (w : World) (ds i : Int) (v : Variant) :
    (InvokeSet h w ds i v).2.log.length = w.log.length + 1 := by
  obtain ⟨c, hl, -⟩ := InvokeSet_log h w ds i v
  rw [hl]; simp

theorem SwapElements_eq (h : Host) (w : World) (dg ds i j : Int)
    (r1 r2 : HRESULT × Variant × World) (r3 : HRESULT × World)
    (h1 : r1 = InvokeGet h w dg i (VariantInit (h.uninit w.log.length Slot.temp1)))
    (h2 : r2 = InvokeGet h r1.2.2 dg j (VariantInit (h.uninit w.log.length Slot.temp2)))
    (h3 : r3 = InvokeSet h r2.2.2 ds i r2.2.1) :
    SwapElements h w dg ds i j = (InvokeSet h r3.2 ds j r1.2.1).2 := by
  subst h1 h2 h3
  rfl

/-- A swap whose four calls succeed writes at each of the two positions a copy of
what the other held, and leaves the other positions alone. -/
theorem SwapElements_good {h : Host} {w : World} {dg ds i j : Int} {k : Nat}
    (hk : k ≤ w.log.length) (hok : okFrom k (SwapElements h w dg ds i j))
    (hi1 : -2147483648 ≤ i) (hi2 : i ≤ 2147483647) (hj1 : -2147483648 ≤ j)
    (hj2 : j ≤ 2147483647) :
    0 ≤ i ∧ 0 ≤ j ∧ i.toNat < w.items.length ∧ j.toNat < w.items.length
      ∧ KeyEq (SwapElements h w dg ds i j).items (swapAt w.items i.toNat j.toNat)
      ∧ ∀ m : Nat, m ≠ i.toNat → m ≠ j.toNat →
          (SwapElements h w dg ds i j).items[m]? = w.items[m]? := by
  rw [SwapElements_eq h w dg ds i j _ _ _ rfl rfl rfl] at hok ⊢
  generalize e1 : InvokeGet h w dg i (VariantInit (h.uninit w.log.length Slot.temp1)) = r1
    at hok ⊢
  generalize e2 : InvokeGet h r1.2.2 dg j (VariantInit (h.uninit w.log.length Slot.temp2)) = r2
    at hok ⊢
  generalize e3 : InvokeSet h r2.2.2 ds i r2.2.1 = r3 at hok ⊢
  have n1 : r1.2.2.log.length = w.log.length + 1 := by rw [← e1]; exact InvokeGet_log_length _ _ _ _ _
  have n2 : r2.2.2.log.length = r1.2.2.log.length + 1 := by
    rw [← e2]; exact InvokeGet_log_length _ _ _ _ _
  have n3 : r3.2.log.length = r2.2.2.log.length + 1 := by
    rw [← e3]; exact InvokeSet_log_length _ _ _ _ _
  have I1 : r1.2.2.items = w.items := by rw [← e1]; exact (InvokeGet_items _ _ _ _ _).1
  have I2 : r2.2.2.items = r1.2.2.items := by rw [← e2]; exact (InvokeGet_items _ _ _ _ _).1
  obtain ⟨-, -, -, s4, ok3⟩ := @InvokeSet_good h r3.2 ds j r1.2.1 k (by omega) hok hj1 hj2
  have q3 := @InvokeSet_good h r2.2.2 ds i r2.2.1 k (by omega)
  rw [e3] at q3
  obtain ⟨-, -, -, s3, ok2⟩ := q3 ok3 hi1 hi2
  have q2 := @InvokeGet_good h r1.2.2 dg j (VariantInit (h.uninit w.log.length Slot.temp2)) k
    (by omega)
  rw [e2] at q2
  obtain ⟨j0, -, g2, ok1⟩ := q2 ok2 hj1 hj2
  have q1 := @InvokeGet_good h w dg i (VariantInit (h.uninit w.log.length Slot.temp1)) k hk
  rw [e1] at q1
  obtain ⟨i0, -, g1, -⟩ := q1 ok1 hi1 hi2
  rw [I1] at g2
  rw [s4, s3, I2, I1]
  have hl1 := (List.getElem?_eq_some_iff.mp g1).1
  have hl2 := (List.getElem?_eq_some_iff.mp g2).1
  exact ⟨i0, j0, hl1, hl2, set_set_keyEq g1 g2 (key_setArg _ _) (key_setArg _ _),
    fun m h1 h2 => set_set_frame _ _ _ _ _ m h1 h2⟩

/-! ### The Lomuto invariant -/

theorem LoopInv.start (cmp : Variant → Variant → Int) (pv : Variant) (low high : Int)
    (A0 : List Variant) (hle : low ≤ high) : LoopInv cmp pv low high A0 low (low - 1) A0 where
  len := rfl
  perm := List.Perm.refl _
  ilo := le_refl _
  ij := by omega
  jhi := hle
  small := fun _ k v h1 h2 _ => absurd h1 (by omega)
  large := fun _ k v h1 h2 _ => absurd h1 (by omega)
  frame := fun _ _ => rfl
  keep := fun _ _ hP => hP

theorem LoopInv.notLess {cmp : Variant → Variant → Int} {pv : Variant} {low high : Int}
    {A0 A : List Variant} {j i : Int} (inv : LoopInv cmp pv low high A0 j i A)
    (hj : j < high) {v : Variant} (hv : A[j.toNat]? = some v)
    (hnl : ¬ cmp v pv < 0) : LoopInv cmp pv low high A0 (j + 1) i A where
  len := inv.len
  perm := inv.perm
  ilo := inv.ilo
  ij := by have := inv.ij; omega
  jhi := by omega
  small := inv.small
  large := by
    intro hd k u h1 h2 hu
    by_cases hk : (k : Int) < j
    · exact inv.large hd k u h1 hk hu
    · have hkj : k = j.toNat := by have := inv.ij; have := inv.ilo; omega
      rw [hkj, hv] at hu
      cases hu
      exact hnl
  frame := inv.frame
  keep := inv.keep

theorem LoopInv.less {cmp : Variant → Variant → Int} {pv : Variant} {low high : Int}
    {A0 A : List Variant} {j i : Int} (inv : LoopInv cmp pv low high A0 j i A)
    (hlow : 0 ≤ low) (hj : j < high) {v : Variant} (hv : A[j.toNat]? = some v)
    (hlt : cmp v pv < 0) :
    LoopInv cmp pv low high A0 (j + 1) (i + 1) (swapAt A (i + 1).toNat j.toNat) := by
  have hij := inv.ij
  have hilo := inv.ilo
  have hb : j.toNat < A.length := (List.getElem?_eq_some_iff.mp hv).1
  have ha : (i + 1).toNat < A.length := by omega
  have hget := swapAt_getElem? ha hb
  refine ⟨by rw [swapAt_length]; exact inv.len,
    ((swapAt_perm _ _ _).map key).trans inv.perm, by omega, by omega, by omega, ?_, ?_, ?_, ?_⟩
  · intro hd k u h1 h2 hu
    rw [hget] at hu
    by_cases hkb : k = j.toNat
    · have hab : (i + 1).toNat = j.toNat := by omega
      rw [if_pos hkb, hab, hv] at hu
      cases hu
      exact hlt
    · rw [if_neg hkb] at hu
      by_cases hka : k = (i + 1).toNat
      · rw [if_pos hka, hv] at hu
        cases hu
        exact hlt
      · rw [if_neg hka] at hu
        exact inv.small hd k u h1 (by omega) hu
  · intro hd k u h1 h2 hu
    rw [hget] at hu
    have hka : ¬ k = (i + 1).toNat := by omega
    by_cases hkb : k = j.toNat
    · rw [if_pos hkb] at hu
      exact inv.large hd (i + 1).toNat u (by omega) (by omega) hu
    · rw [if_neg hkb, if_neg hka] at hu
      exact inv.large hd k u (by omega) (by omega) hu
  · intro k hk
    rw [hget, if_neg (by omega), if_neg (by omega)]
    exact inv.frame k hk
  · intro P hk hP k u h1 h2 hu
    rw [hget] at hu
    have old := inv.keep P hk hP
    by_cases hkb : k = j.toNat
    · rw [if_pos hkb] at hu
      exact old (i + 1).toNat u (by omega) (by omega) hu
    · rw [if_neg hkb] at hu
      by_cases hka : k = (i + 1).toNat
      · rw [if_pos hka] at hu
        exact old j.toNat u (by omega) (by omega) hu
      · rw [if_neg hka] at hu
        exact old k u h1 h2 hu

/-- The invariant does not see the bytes outside tag and 64-bit field. -/
theorem LoopInv_copy {cmp : Variant → Variant → Int} {pv : Variant} {low high : Int}
    {A0 B A : List Variant} {j i : Int} (inv : LoopInv cmp pv low high A0 j i B)
    (hk : KeyEq A B)
    (hf : ∀ k : Nat, ((k : Int) < low ∨ high ≤ (k : Int)) → A[k]? = B[k]?)
    (hpv : key pv ∈ A0.map key) : LoopInv cmp pv low high A0 j i A where
  len := hk.length_eq.trans inv.len
  perm := hk.perm_left inv.perm
  ilo := inv.ilo
  ij := inv.ij
  jhi := inv.jhi
  small := by
    intro hd k v h1 h2 hv
    obtain ⟨u, hu, hku⟩ := hk.getElem? hv
    rw [hd u pv v pv (inv.perm.mem_iff.mp (mem_keys hu)) hpv hku.symm rfl]
    exact inv.small hd k u h1 h2 hu
  large := by
    intro hd k v h1 h2 hv
    obtain ⟨u, hu, hku⟩ := hk.getElem? hv
    rw [hd u pv v pv (inv.perm.mem_iff.mp (mem_keys hu)) hpv hku.symm rfl]
    exact inv.large hd k u h1 h2 hu
  frame := fun k hk' => (hf k hk').trans (inv.frame k hk')
  keep := by
    intro P hP h0 k v h1 h2 hv
    obtain ⟨u, hu, hku⟩ := hk.getElem? hv
    exact hP u v hku (inv.keep P hP h0 k u h1 h2 hu)

/-- The loop of `Partition` keeps the invariant up to `j = high`, when every call
it makes succeeds. -/
theorem PartitionLoop_good (h : Host) (cmp : Variant → Variant → Int) (dg ds low high : Int)
    (pv : Variant) (A0 : List Variant) (n : Nat) (hlow : 0 ≤ low) (hhigh : high ≤ 2147483647)
    (hpv : key pv ∈ A0.map key) :
    ∀ (fuel : Nat) (j i : Int) (v1 : Variant) (w : World), (high - j).toNat ≤ fuel →
      n ≤ w.log.length → okFrom n (PartitionLoop h cmp dg ds high pv fuel j i v1 w).2 →
      LoopInv cmp pv low high A0 j i w.items →
      LoopInv cmp pv low high A0 high (PartitionLoop h cmp dg ds high pv fuel j i v1 w).1
        (PartitionLoop h cmp dg ds high pv fuel j i v1 w).2.items := by
  intro fuel
  induction fuel with
  | zero =>
    intro j i v1 w hf _ _ inv
    rw [PartitionLoop_zero]
    have := inv.jhi
    have hjh : j = high := by omega
    rw [hjh] at inv
    exact inv
  | succ fuel ih =>
    intro j i v1 w hf hn hok inv
    have hij := inv.ij
    have hilo := inv.ilo
    by_cases hj : j < high
    · have hwj : wrap32 (j + 1) = j + 1 := wrap32_eq (by omega) (by omega)
      have hwi : wrap32 (i + 1) = i + 1 := wrap32_eq (by omega) (by omega)
      have hn1 : n ≤ (InvokeGet h w dg j v1).2.2.tick.log.length := by
        rw [tick_log, InvokeGet_log_length]; omega
      by_cases hlt : cmp (InvokeGet h w dg j v1).2.1 pv < 0
      · rw [PartitionLoop_less h cmp dg ds high pv fuel j i v1 w hj hlt, hwj, hwi] at hok ⊢
        have hsg := (SwapElements_grows h (InvokeGet h w dg j v1).2.2.tick dg ds (i + 1) j).1
        have hn2 := le_trans hn1 hsg.length_le
        have hg := (PartitionLoop_any h cmp dg ds high pv hhigh fuel (j + 1) (i + 1)
          (VariantClear (InvokeGet h w dg j v1).2.1)
          (SwapElements h (InvokeGet h w dg j v1).2.2.tick dg ds (i + 1) j)
          (by omega) (by omega)).2.2
        have ok2 := okFrom_of_grows hg hn2 hok
        have ok1 : okFrom n (InvokeGet h w dg j v1).2.2 := okFrom_of_grows hsg hn1 ok2
        obtain ⟨-, -, hv, -⟩ := InvokeGet_good hn ok1 (by omega) (by omega)
        obtain ⟨-, -, ha, hb, hs, hfr⟩ := SwapElements_good hn1 ok2 (by omega) (by omega)
          (by omega) (by omega)
        rw [tick_items, (InvokeGet_items _ _ _ _ _).1] at hs hfr ha hb
        refine ih (j + 1) (i + 1) _ _ (by omega) hn2 hok ?_
        refine LoopInv_copy (inv.less hlow hj hv hlt) hs ?_ hpv
        intro k hk
        rw [hfr k (by omega) (by omega), swapAt_getElem? ha hb, if_neg (by omega),
          if_neg (by omega)]
      · rw [PartitionLoop_notLess h cmp dg ds high pv fuel j i v1 w hj hlt, hwj] at hok ⊢
        have hg := (PartitionLoop_any h cmp dg ds high pv hhigh fuel (j + 1) i
          (VariantClear (InvokeGet h w dg j v1).2.1) (InvokeGet h w dg j v1).2.2.tick
          (by omega) (by omega)).2.2
        have ok1 : okFrom n (InvokeGet h w dg j v1).2.2 := okFrom_of_grows hg hn1 hok
        obtain ⟨-, -, hv, -⟩ := InvokeGet_good hn ok1 (by omega) (by omega)
        refine ih (j + 1) i _ _ (by omega) hn1 hok ?_
        rw [tick_items, (InvokeGet_items _ _ _ _ _).1]
        exact inv.notLess hj hv hlt
    · rw [PartitionLoop_done h cmp dg ds high pv _ j i v1 w hj]
      have := inv.jhi
      have hjh : j = high := by omega
      rw [hjh] at inv
      exact inv

/-! ### The trace only grows -/

theorem PartitionLoop_ext (h : Host) (cmp : Variant → Variant → Int) (dg ds high : Int)
    (pv : Variant) :
    ∀ (fuel : Nat) (j i : Int) (v1 : Variant) (w : World),
      Grows (fun _ => True) w (PartitionLoop h cmp dg ds high pv fuel j i v1 w).2 := by
  intro fuel
  induction fuel with
  | zero => intro j i v1 w; exact Grows.refl _ _
  | succ fuel ih =>
    intro j i v1 w
    by_cases hj : j < high
    · obtain ⟨c, hc, -⟩ := InvokeGet_log h w dg j v1
      have hg : Grows (fun _ => True) w (InvokeGet h w dg j v1).2.2.tick :=
        ⟨[c], hc, fun _ _ => trivial⟩
      by_cases hlt : cmp (InvokeGet h w dg j v1).2.1 pv < 0
      · rw [PartitionLoop_less h cmp dg ds high pv fuel j i v1 w hj hlt]
        exact hg.trans (((SwapElements_grows h _ dg ds _ j).1.mono (fun _ _ => trivial)).trans
          (ih _ _ _ _))
      · rw [PartitionLoop_notLess h cmp dg ds high pv fuel j i v1 w hj hlt]
        exact hg.trans (ih _ _ _ _)
    · rw [PartitionLoop_done h cmp dg ds high pv _ j i v1 w hj]
      exact Grows.refl _ _

theorem QuickSort_ext (h : Host) (cmp : Variant → Variant → Int) (dg ds : Int) :
    ∀ (fuel : Nat) (low high : Int) (w w' : World),
      QuickSort h cmp dg ds fuel low high w = some w' → Grows (fun _ => True) w w' := by
  intro fuel
  induction fuel with
  | zero => intro low high w w' hq; simp [QuickSort] at hq
  | succ fuel ih =>
    intro low high w w' hq
    by_cases hlh : low < high
    · rw [QuickSort_succ _ _ _ _ _ _ _ _ hlh] at hq
      obtain ⟨w1, h1, h2⟩ := Option.bind_eq_some.mp hq
      refine Grows.trans ?_ ((ih _ _ _ _ h1).trans (ih _ _ _ _ h2))
      rw [Partition_eq h cmp w dg ds low high _ rfl]
      obtain ⟨c, hc, -⟩ := InvokeGet_log h w dg high (VariantInit (h.uninit w.log.length Slot.pivot))
      have hg : Grows (fun _ => True) w (InvokeGet h w dg high (VariantInit (h.uninit w.log.length Slot.pivot))).2.2 :=
        ⟨[c], hc, fun _ _ => trivial⟩
      exact hg.trans ((PartitionLoop_ext h cmp dg ds high _ _ _ _ _ _).trans
        ((SwapElements_grows h _ dg ds _ high).1.mono (fun _ _ => trivial)))
    · rw [QuickSort_base _ _ _ _ _ _ _ _ (by omega)] at hq
      simp only [Option.some.injEq] at hq
      subst hq
      exact Grows.refl _ _

/-! ### Partition and QuickSort when every call succeeds -/

/-- The closing exchange of `Partition`, on lists. -/
theorem Parted_of_loop {cmp : Variant → Variant → Int} {pv : Variant} {low high i : Int}
    {A0 L : List Variant} (inv : LoopInv cmp pv low high A0 high i L) (hlow : 0 ≤ low)
    (hpv : A0[high.toNat]? = some pv) (ha : (i + 1).toNat < L.length)
    (hb : high.toNat < L.length) :
    Parted cmp low high (i + 1) A0 (swapAt L (i + 1).toNat high.toNat) := by
  have a1 := inv.ilo
  have a2 := inv.ij
  have hget := swapAt_getElem? ha hb
  have hhi : L[high.toNat]? = some pv := by
    rw [inv.frame high.toNat (Or.inr (by omega))]
    exact hpv
  have hall : ∀ P : Variant → Prop, (∀ a b, key a = key b → P a → P b) →
      (∀ (k : Nat) (v : Variant), low ≤ (k : Int) → (k : Int) ≤ high → A0[k]? = some v →
        P v) →
      ∀ (k : Nat) (v : Variant), low ≤ (k : Int) → (k : Int) ≤ high → L[k]? = some v →
        P v := by
    intro P hk hP k v h1 h2 hv
    by_cases hkh : (k : Int) < high
    · exact inv.keep P hk (fun k' v' q1 q2 q3 => hP k' v' q1 (by omega) q3) k v h1 hkh hv
    · rw [inv.frame k (Or.inr (by omega))] at hv
      exact hP k v h1 h2 hv
  refine ⟨?_, ?_, by omega, by omega, ?_, ?_, ?_⟩
  · rw [swapAt_length]
    exact inv.len
  · exact ((swapAt_perm _ _ _).map key).trans inv.perm
  · refine ⟨pv, pv, hpv, ?_, rfl, fun hd => ⟨?_, ?_⟩⟩
    · rw [hget]
      by_cases hab : (i + 1).toNat = high.toNat
      · rw [if_pos hab, hab]
        exact hhi
      · rw [if_neg hab, if_pos rfl]
        exact hhi
    · intro k v h1 h2 hv
      rw [hget, if_neg (by omega), if_neg (by omega)] at hv
      exact inv.small hd k v h1 (by omega) hv
    · intro k v h1 h2 hv
      rw [hget] at hv
      by_cases hkb : k = high.toNat
      · rw [if_pos hkb] at hv
        exact inv.large hd _ v (by omega) (by omega) hv
      · rw [if_neg hkb, if_neg (by omega)] at hv
        exact inv.large hd k v (by omega) (by omega) hv
  · intro k hk
    rw [hget, if_neg (by omega), if_neg (by omega)]
    exact inv.frame k (by omega)
  · intro P hk hP k v h1 h2 hv
    rw [hget] at hv
    have old := hall P hk hP
    by_cases hkb : k = high.toNat
    · rw [if_pos hkb] at hv
      exact old _ v (by omega) (by omega) hv
    · rw [if_neg hkb] at hv
      by_cases hka : k = (i + 1).toNat
      · rw [if_pos hka] at hv
        exact old _ v (by omega) (by omega) hv
      · rw [if_neg hka] at hv
        exact old k v h1 h2 hv

/-- The partition does not see the bytes outside tag and 64-bit field. -/
theorem Parted_copy {cmp : Variant → Variant → Int} {low high p : Int}
    {A0 B A : List Variant} (hp : Parted cmp low high p A0 B) (hk : KeyEq A B)
    (hf : ∀ k : Nat, ((k : Int) < low ∨ high < (k : Int)) → A[k]? = B[k]?) :
    Parted cmp low high p A0 A := by
  obtain ⟨pv, pv', hpv, hpp, hkp, hcond⟩ := hp.pivot
  have hpvK : key pv ∈ A0.map key := mem_keys hpv
  refine ⟨hk.length_eq.trans hp.len, hk.perm_left hp.perm, hp.plo, hp.phi, ?_,
    fun k hk' => (hf k hk').trans (hp.frame k hk'), ?_⟩
  · have hk' : KeyEq B A := hk.symm
    obtain ⟨pv2, h2, hk2⟩ := KeyEq.getElem? hk' hpp
    refine ⟨pv, pv2, hpv, h2, hk2.trans hkp, fun hd => ⟨?_, ?_⟩⟩
    · intro k v h1 h2' hv
      obtain ⟨u, hu, hku⟩ := hk.getElem? hv
      rw [hd u pv v pv (hp.perm.mem_iff.mp (mem_keys hu)) hpvK hku.symm rfl]
      exact (hcond hd).1 k u h1 h2' hu
    · intro k v h1 h2' hv
      obtain ⟨u, hu, hku⟩ := hk.getElem? hv
      rw [hd u pv v pv (hp.perm.mem_iff.mp (mem_keys hu)) hpvK hku.symm rfl]
      exact (hcond hd).2 k u h1 h2' hu
  · intro P hP h0 k v h1 h2 hv
    obtain ⟨u, hu, hku⟩ := hk.getElem? hv
    exact hP u v hku (hp.keep P hP h0 k u h1 h2 hu)

/-- Postcondition: `Partition` splits the range around the pivot, when every call it
makes succeeds. -/
theorem Partition_good (h : Host) (cmp : Variant → Variant → Int) (w : World)
    (dg ds low high : Int) (n : Nat) (hlow : 0 ≤ low) (hle : low ≤ high)
    (hhigh : high ≤ 2147483647) (hn : n ≤ w.log.length)
    (hok : okFrom n (Partition h cmp w dg ds low high).2) :
    Parted cmp low high (Partition h cmp w dg ds low high).1 w.items
      (Partition h cmp w dg ds low high).2.items ∧ high < 2147483647 := by
  have hwl : wrap32 (low - 1) = low - 1 := wrap32_eq (by omega) (by omega)
  rw [Partition_eq h cmp w dg ds low high _ rfl, hwl] at hok ⊢
  have hany := PartitionLoop_any h cmp dg ds high
    (InvokeGet h w dg high (VariantInit (h.uninit w.log.length Slot.pivot))).2.1 hhigh (high - low).toNat low (low - 1)
    (VariantInit (h.uninit w.log.length Slot.v1)) (InvokeGet h w dg high (VariantInit (h.uninit w.log.length Slot.pivot))).2.2 (by omega) (by omega)
  have hgood := fun hpv => PartitionLoop_good h cmp dg ds low high
    (InvokeGet h w dg high (VariantInit (h.uninit w.log.length Slot.pivot))).2.1 w.items n hlow hhigh hpv
    (high - low).toNat low (low - 1) (VariantInit (h.uninit w.log.length Slot.v1))
    (InvokeGet h w dg high (VariantInit (h.uninit w.log.length Slot.pivot))).2.2 (le_refl _)
  have hn1 : n ≤ (InvokeGet h w dg high (VariantInit (h.uninit w.log.length Slot.pivot))).2.2.log.length := by
    rw [InvokeGet_log_length]; omega
  have hpg := @InvokeGet_good h w dg high (VariantInit (h.uninit w.log.length Slot.pivot)) n hn
  have hil := (InvokeGet_items h w dg high (VariantInit (h.uninit w.log.length Slot.pivot))).1
  generalize InvokeGet h w dg high (VariantInit (h.uninit w.log.length Slot.pivot)) = r at hok hany hgood hn1 hpg hil ⊢
  generalize PartitionLoop h cmp dg ds high r.2.1 (high - low).toNat low (low - 1)
    (VariantInit (h.uninit w.log.length Slot.v1)) r.2.2 = lp at hok hany hgood ⊢
  obtain ⟨a1, a2, a3⟩ := hany
  rw [max_eq_right hle] at a2
  have hwp : wrap32 (lp.1 + 1) = lp.1 + 1 := wrap32_eq (by omega) (by omega)
  rw [hwp] at hok ⊢
  have hn2 : n ≤ lp.2.log.length := le_trans hn1 a3.length_le
  have ok2 : okFrom n lp.2 :=
    okFrom_of_grows (SwapElements_grows h lp.2 dg ds (lp.1 + 1) high).1 hn2 hok
  have ok1 : okFrom n r.2.2 := okFrom_of_grows a3 hn1 ok2
  obtain ⟨h0, hmax, hpv, -⟩ := hpg ok1 (by omega) hhigh
  have inv := hgood (mem_keys hpv) hn1 ok2
    (by rw [hil]; exact LoopInv.start cmp r.2.1 low high w.items hle)
  obtain ⟨-, -, ha, hb, hs, hfr⟩ := SwapElements_good hn2 hok (by omega) (by omega) (by omega)
    (by omega)
  refine ⟨Parted_copy (Parted_of_loop inv hlow hpv ha hb) hs ?_, hmax⟩
  intro k hk
  rw [hfr k (by omega) (by omega), swapAt_getElem? ha hb, if_neg (by omega), if_neg (by omega)]

theorem StrictWeakOrder.le_of_not_lt {cmp : Variant → Variant → Int} (sw : StrictWeakOrder cmp)
    {p y : Variant} (hy : ¬ cmp y p < 0) : cmp p y ≤ 0 := by
  by_contra hc
  exact hy ((sw.sign p y).mp (by omega))

theorem StrictWeakOrder.le_of_lt_of_not_lt {cmp : Variant → Variant → Int}
    (sw : StrictWeakOrder cmp) {x p y : Variant} (hx : cmp x p < 0) (hy : ¬ cmp y p < 0) :
    cmp x y ≤ 0 := by
  by_contra hc
  exact hy (sw.trans y x p ((sw.sign x y).mp (by omega)) hx)

theorem Arranged.same (cmp : Variant → Variant → Int) (low high : Int) (A : List Variant)
    (hlh : high ≤ low) : Arranged cmp low high A A where
  len := rfl
  perm := List.Perm.refl _
  frame := fun _ _ => rfl
  keep := fun _ _ hP => hP
  sorted := fun _ _ a b _ _ h1 h2 h3 _ _ => absurd h3 (by omega)

/-- Two sorted halves around a pivot make a sorted range. -/
theorem Arranged.glue {cmp : Variant → Variant → Int} {low high p : Int}
    {A0 Ap A1 A2 : List Variant} (hlow : 0 ≤ low) (hp : Parted cmp low high p A0 Ap)
    (hl : Arranged cmp low (p - 1) Ap A1) (hr : Arranged cmp (p + 1) high A1 A2) :
    Arranged cmp low high A0 A2 := by
  have hplo := hp.plo
  have hphi := hp.phi
  obtain ⟨pv, pv', hpv0, hpp, hkp, hcond⟩ := hp.pivot
  have hpvK : key pv ∈ A0.map key := mem_keys hpv0
  refine ⟨hr.len.trans (hl.len.trans hp.len), hr.perm.trans (hl.perm.trans hp.perm), ?_, ?_, ?_⟩
  · intro k hk
    rw [hr.frame k (by omega), hl.frame k (by omega), hp.frame k hk]
  · intro P hkP hP k v h1 h2 hv
    have s1 := hp.keep P hkP hP
    have s2 : ∀ (k : Nat) (v : Variant), low ≤ (k : Int) → (k : Int) ≤ high →
        A1[k]? = some v → P v := by
      intro k v q1 q2 q3
      by_cases hk : (k : Int) ≤ p - 1
      · exact hl.keep P hkP (fun k' v' r1 r2 r3 => s1 k' v' r1 (by omega) r3) k v q1 hk q3
      · rw [hl.frame k (Or.inr (by omega))] at q3
        exact s1 k v q1 q2 q3
    by_cases hk : p + 1 ≤ (k : Int)
    · exact hr.keep P hkP (fun k' v' r1 r2 r3 => s2 k' v' (by omega) r2 r3) k v hk h2 hv
    · rw [hr.frame k (Or.inl (by omega))] at hv
      exact s2 k v h1 h2 hv
  · intro sw hd a b x y h1 hab h2 hx hy
    obtain ⟨hsm, hlg⟩ := hcond hd
    have hdp : Determined cmp Ap := hd.of_perm hp.perm
    have hd1 : Determined cmp A1 := hdp.of_perm hl.perm
    have hKp : ∀ {k : Nat} {v : Variant}, Ap[k]? = some v → key v ∈ A0.map key :=
      fun hv => hp.perm.mem_iff.mp (mem_keys hv)
    have hK1 : ∀ {k : Nat} {v : Variant}, A1[k]? = some v → key v ∈ A0.map key :=
      fun hv => (hl.perm.trans hp.perm).mem_iff.mp (mem_keys hv)
    have hK2 : ∀ {k : Nat} {v : Variant}, A2[k]? = some v → key v ∈ A0.map key :=
      fun hv => (hr.perm.trans (hl.perm.trans hp.perm)).mem_iff.mp (mem_keys hv)
    have hpiv : A2[p.toNat]? = some pv' := by
      rw [hr.frame p.toNat (Or.inl (by omega)), hl.frame p.toNat (Or.inr (by omega))]
      exact hpp
    have hleft : ∀ (k : Nat) (v : Variant), low ≤ (k : Int) → (k : Int) < p →
        A2[k]? = some v → cmp v pv < 0 := by
      intro k v q1 q2 q3
      rw [hr.frame k (Or.inl (by omega))] at q3
      refine (hl.keep (fun u => key u ∈ A0.map key ∧ cmp u pv < 0) ?_ ?_ k v q1 (by omega) q3).2
      · intro c d hcd hc
        refine ⟨hcd ▸ hc.1, ?_⟩
        rw [hd c pv d pv hc.1 hpvK hcd.symm rfl]
        exact hc.2
      · intro k' v' r1 r2 r3
        exact ⟨hKp r3, hsm k' v' r1 (by omega) r3⟩
    have hright : ∀ (k : Nat) (v : Variant), p < (k : Int) → (k : Int) ≤ high →
        A2[k]? = some v → ¬ cmp v pv < 0 := by
      intro k v q1 q2 q3
      refine (hr.keep (fun u => key u ∈ A0.map key ∧ ¬ cmp u pv < 0) ?_ ?_ k v (by omega) q2
        q3).2
      · intro c d hcd hc
        refine ⟨hcd ▸ hc.1, ?_⟩
        rw [hd c pv d pv hc.1 hpvK hcd.symm rfl]
        exact hc.2
      · intro k' v' r1 r2 r3
        refine ⟨hK1 r3, ?_⟩
        rw [hl.frame k' (Or.inr (by omega))] at r3
        exact hlg k' v' (by omega) r2 r3
    by_cases hbp : (b : Int) < p
    · rw [hr.frame a (Or.inl (by omega))] at hx
      rw [hr.frame b (Or.inl (by omega))] at hy
      exact hl.sorted sw hdp a b x y h1 hab (by omega) hx hy
    · by_cases hap : p < (a : Int)
      · exact hr.sorted sw hd1 a b x y (by omega) hab h2 hx hy
      · by_cases hae : (a : Int) = p
        · have ha : a = p.toNat := by omega
          have hyK := hK2 hy
          rw [ha, hpiv] at hx
          cases hx
          rw [hd pv y pv' y hpvK hyK hkp rfl]
          exact sw.le_of_not_lt (hright b y (by omega) h2 hy)
        · have hxl := hleft a x h1 (by omega) hx
          by_cases hbe : (b : Int) = p
          · have hb : b = p.toNat := by omega
            have hxK := hK2 hx
            rw [hb, hpiv] at hy
            cases hy
            rw [hd x pv x pv' hxK hpvK rfl hkp]
            omega
          · exact sw.le_of_lt_of_not_lt hxl (hright b y (by omega) h2 hy)

/-- Postcondition: `QuickSort` rearranges the range and leaves the rest alone, when every
call made succeeds. -/
theorem QuickSort_good (h : Host) (cmp : Variant → Variant → Int) (dg ds : Int) (n : Nat) :
    ∀ (fuel : Nat) (low high : Int) (w w' : World), 0 ≤ low → high ≤ 2147483647 →
      n ≤ w.log.length →
      QuickSort h cmp dg ds fuel low high w = some w' → okFrom n w' →
      Arranged cmp low high w.items w'.items := by
  intro fuel
  induction fuel with
  | zero => intro low high w w' _ _ _ hq; simp [QuickSort] at hq
  | succ fuel ih =>
    intro low high w w' hlow hhigh hn hq hok
    by_cases hlh : low < high
    · rw [QuickSort_succ _ _ _ _ _ _ _ _ hlh] at hq
      obtain ⟨w1, h1, h2⟩ := Option.bind_eq_some.mp hq
      have g1 := QuickSort_ext _ _ _ _ _ _ _ _ _ h1
      have g2 := QuickSort_ext _ _ _ _ _ _ _ _ _ h2
      obtain ⟨-, -, gp, -⟩ := Partition_any h cmp w dg ds low high (by omega) hhigh (by omega)
      have hnp : n ≤ (Partition h cmp w dg ds low high).2.log.length :=
        le_trans hn gp.length_le
      have hn1 : n ≤ w1.log.length := le_trans hnp g1.length_le
      have ok1 : okFrom n w1 := okFrom_of_grows g2 hn1 hok
      have okp : okFrom n (Partition h cmp w dg ds low high).2 := okFrom_of_grows g1 hnp ok1
      obtain ⟨hp, hmax⟩ := Partition_good h cmp w dg ds low high n hlow (by omega) hhigh hn okp
      have hplo := hp.plo
      have hphi := hp.phi
      have e1 : wrap32 ((Partition h cmp w dg ds low high).1 - 1)
          = (Partition h cmp w dg ds low high).1 - 1 := wrap32_eq (by omega) (by omega)
      have e2 : wrap32 ((Partition h cmp w dg ds low high).1 + 1)
          = (Partition h cmp w dg ds low high).1 + 1 := wrap32_eq (by omega) (by omega)
      rw [e1] at h1
      rw [e2] at h2
      have hl := ih _ _ _ _ hlow (by omega) hnp h1 ok1
      have hr := ih _ _ _ _ (by omega) hhigh hn1 h2 hok
      exact Arranged.glue hlow hp hl hr
    · rw [QuickSort_base _ _ _ _ _ _ _ _ (by omega)] at hq
      simp only [Option.some.injEq] at hq
      subst hq
      exact Arranged.same cmp low high _ (by omega)

/-! ### The entry point -/

theorem sort_bound (h : Host) (cmp : Variant → Variant → Int) (w : World) (n fuel : Nat)
    (dg ds : Int) (hget : h.names "Get" = some dg) (hset : h.names "__Item" = some ds) :
    sort fuel (bound h) n cmp w =
      (QuickSort h cmp dg ds fuel 0
        (toInt32 ((n % 4294967296 + 4294967295) % 4294967296)) w).map (fun w1 => (0, w1)) := by
  simp only [sort, bound, hget, hset, ne_eq, not_true_eq_false, if_false]
  cases QuickSort h cmp dg ds fuel 0 (toInt32 ((n % 4294967296 + 4294967295) % 4294967296)) w <;>
    rfl

theorem high_of_len {n : Nat} (hn : n ≤ 2147483647) :
    toInt32 ((n % 4294967296 + 4294967295) % 4294967296) = (n : Int) - 1 := by
  unfold toInt32
  split <;> omega

theorem high_of_len_neg {n : Nat} (h1 : 2147483648 < n) (h2 : n < 4294967296) :
    toInt32 ((n % 4294967296 + 4294967295) % 4294967296) = (n : Int) - 1 - 4294967296 := by
  unfold toInt32
  split <;> omega

theorem high_range (n : Nat) :
    -2147483648 ≤ toInt32 ((n % 4294967296 + 4294967295) % 4294967296)
      ∧ toInt32 ((n % 4294967296 + 4294967295) % 4294967296) ≤ 2147483647 := by
  unfold toInt32
  split <;> omega

theorem high_lt (n : Nat) (hn : n < 4294967296) :
    toInt32 ((n % 4294967296 + 4294967295) % 4294967296) < n := by
  unfold toInt32
  split <;> omega

/-! ### Lists: prefixes, order and rearrangement -/

theorem take_perm_of_frame {A A' : List Variant} {n : Nat} (hp : A'.Perm A)
    (hf : ∀ k : Nat, n ≤ k → A'[k]? = A[k]?) : (A'.take n).Perm (A.take n) := by
  have hd : A'.drop n = A.drop n := by
    apply List.ext_getElem?
    intro k
    rw [List.getElem?_drop, List.getElem?_drop]
    exact hf _ (by omega)
  have h1 : (A'.take n ++ A.drop n).Perm (A.take n ++ A.drop n) := by
    rw [← hd, List.take_append_drop, hd, List.take_append_drop]
    exact hp
  exact (List.perm_append_right_iff _).mp h1

theorem pairwise_take {cmp : Variant → Variant → Int} {A : List Variant} {n : Nat}
    (hs : ∀ (a b : Nat) (x y : Variant), a < b → b < n → A[a]? = some x → A[b]? = some y →
      cmp x y ≤ 0) : List.Pairwise (fun a b => cmp a b ≤ 0) (A.take n) := by
  rw [List.pairwise_iff_getElem]
  intro i j hi hj hij
  have hi' := hi
  have hj' := hj
  rw [List.length_take] at hi' hj'
  apply hs i j _ _ hij (by omega)
  · rw [← List.getElem?_take_of_lt (show i < n by omega), List.getElem?_eq_getElem hi]
  · rw [← List.getElem?_take_of_lt (show j < n by omega), List.getElem?_eq_getElem hj]

theorem StrictWeakOrder.zero_symm {cmp : Variant → Variant → Int} (sw : StrictWeakOrder cmp)
    {a b : Variant} (h0 : cmp a b = 0) : cmp b a = 0 := by
  have h1 := sw.sign a b
  have h2 := sw.sign b a
  omega

theorem StrictWeakOrder.lt_of_le_of_lt {cmp : Variant → Variant → Int}
    (sw : StrictWeakOrder cmp) {v y x : Variant} (h1 : cmp v y ≤ 0) (h2 : cmp y x < 0) :
    cmp v x < 0 := by
  by_cases hlt : cmp v y < 0
  · exact sw.trans v y x hlt h2
  · have h0 : cmp v y = 0 := by omega
    by_contra hc
    by_cases hz : cmp v x = 0
    · have := sw.equiv y v x (sw.zero_symm h0) hz
      omega
    · have h3 : cmp x v < 0 := (sw.sign v x).mp (by omega)
      have h4 := sw.trans y x v h2 h3
      have h5 := (sw.sign v y).mpr h4
      omega

theorem StrictWeakOrder.not_lt_of_le {cmp : Variant → Variant → Int}
    (sw : StrictWeakOrder cmp) {x v : Variant} (h1 : cmp x v ≤ 0) : ¬ cmp v x < 0 := by
  intro hc
  have := (sw.sign x v).mpr hc
  omega

theorem StrictWeakOrder.irrefl {cmp : Variant → Variant → Int}
    (sw : StrictWeakOrder cmp) (x : Variant) : ¬ cmp x x < 0 := by
  intro hc
  have := (sw.sign x x).mpr hc
  omega

/-- In two sorted arrangements of the same elements, the element at a position of one
is never below the element at that position of the other. -/
theorem sorted_perm_not_lt {cmp : Variant → Variant → Int} (sw : StrictWeakOrder cmp)
    {l l' : List Variant} (hp : l'.Perm l)
    (hs : List.Pairwise (fun a b => cmp a b ≤ 0) l)
    (hs' : List.Pairwise (fun a b => cmp a b ≤ 0) l') {k : Nat} {x y : Variant}
    (hx : l[k]? = some x) (hy : l'[k]? = some y) : ¬ cmp y x < 0 := by
  intro hlt
  obtain ⟨hk, rfl⟩ := List.getElem?_eq_some_iff.mp hx
  obtain ⟨hk', rfl⟩ := List.getElem?_eq_some_iff.mp hy
  rw [List.pairwise_iff_getElem] at hs hs'
  have hc := hp.countP_eq (fun v => decide (cmp v l[k] < 0))
  have h1 : k + 1 ≤ List.countP (fun v => decide (cmp v l[k] < 0)) l' := by
    have ht : List.countP (fun v => decide (cmp v l[k] < 0)) (l'.take (k + 1))
        = (l'.take (k + 1)).length := by
      rw [List.countP_eq_length]
      intro a ha
      obtain ⟨m, hm, rfl⟩ := List.mem_take_iff_getElem.mp ha
      rw [decide_eq_true_eq]
      by_cases hmk : m = k
      · subst hmk
        exact hlt
      · exact sw.lt_of_le_of_lt (hs' m k (by omega) hk' (by omega)) hlt
    rw [List.length_take] at ht
    have hsplit := List.countP_append (fun v => decide (cmp v l[k] < 0)) (l'.take (k + 1))
      (l'.drop (k + 1))
    rw [List.take_append_drop] at hsplit
    omega
  have h2 : List.countP (fun v => decide (cmp v l[k] < 0)) l ≤ k := by
    have hd : List.countP (fun v => decide (cmp v l[k] < 0)) (l.drop k) = 0 := by
      rw [List.countP_eq_zero]
      intro a ha
      obtain ⟨m, hm, rfl⟩ := List.mem_iff_getElem.mp ha
      rw [decide_eq_true_eq, List.getElem_drop]
      by_cases hm0 : m = 0
      · subst hm0
        exact sw.irrefl _
      · exact sw.not_lt_of_le (hs k (k + m) hk (by rw [List.length_drop] at hm; omega) (by omega))
    have hsplit := List.countP_append (fun v => decide (cmp v l[k] < 0)) (l.take k) (l.drop k)
    rw [List.take_append_drop] at hsplit
    have hle := List.countP_le_length (fun v => decide (cmp v l[k] < 0)) (l := l.take k)
    rw [List.length_take] at hle
    omega
  omega

/-- Two sorted arrangements of the same elements hold equivalent elements at every
position. -/
theorem sorted_perm_equiv {cmp : Variant → Variant → Int} (sw : StrictWeakOrder cmp)
    {l l' : List Variant} (hp : l'.Perm l)
    (hs : List.Pairwise (fun a b => cmp a b ≤ 0) l)
    (hs' : List.Pairwise (fun a b => cmp a b ≤ 0) l') {k : Nat} {x y : Variant}
    (hx : l[k]? = some x) (hy : l'[k]? = some y) : cmp x y = 0 := by
  have h1 := sorted_perm_not_lt sw hp hs hs' hx hy
  have h2 := sorted_perm_not_lt sw hp.symm hs' hs hy hx
  have h3 := sw.sign x y
  omega

theorem take_keys_perm_of_frame {A A' : List Variant} {n : Nat}
    (hp : (A'.map key).Perm (A.map key)) (hf : ∀ k : Nat, n ≤ k → A'[k]? = A[k]?) :
    ((A'.take n).map key).Perm ((A.take n).map key) := by
  rw [List.map_take, List.map_take]
  refine take_perm_of_frame hp ?_
  intro k hk
  rw [List.getElem?_map, List.getElem?_map, hf k hk]

/-- The prefix of length `n` after a sort whose calls all succeeded. -/
theorem sort_good (h : Host) (cmp : Variant → Variant → Int) (w w' : World) (n fuel : Nat)
    (dg ds r : Int) (hget : h.names "Get" = some dg) (hset : h.names "__Item" = some ds)
    (hn : n < 4294967296)
    (hs : sort fuel (bound h) n cmp w = some (r, w')) (hok : okFrom w.log.length w') :
    r = 0 ∧ w'.items.length = w.items.length
      ∧ ((w'.items.take n).map key).Perm ((w.items.take n).map key)
      ∧ (∀ k : Nat, n ≤ k → w'.items[k]? = w.items[k]?)
      ∧ (StrictWeakOrder cmp → Determined cmp w.items → n ≤ 2147483648 →
          List.Pairwise (fun a b => cmp a b ≤ 0) (w'.items.take n)) := by
  rw [sort_bound h cmp w n fuel dg ds hget hset] at hs
  obtain ⟨w1, hq, he⟩ := Option.map_eq_some'.mp hs
  simp only [Prod.mk.injEq] at he
  obtain ⟨hr, rfl⟩ := he
  have ar := QuickSort_good h cmp dg ds w.log.length fuel 0 _ w w1 (le_refl _)
    (high_range n).2 (le_refl _) hq hok
  have hlt := high_lt n hn
  have hfr : ∀ k : Nat, n ≤ k → w1.items[k]? = w.items[k]? :=
    fun k hk => ar.frame k (Or.inr (by omega))
  refine ⟨hr.symm, ar.len, take_keys_perm_of_frame ar.perm hfr, hfr, ?_⟩
  intro sw hd hn2
  apply pairwise_take
  intro a b x y hab hb hx hy
  refine ar.sorted sw hd a b x y (by omega) hab ?_ hx hy
  by_cases hn3 : n ≤ 2147483647
  · rw [high_of_len hn3]
    omega
  · have : toInt32 ((n % 4294967296 + 4294967295) % 4294967296) = 2147483647 := by
      unfold toInt32
      split <;> omega
    omega

/-! ### The adapter calls, exactly -/

/-- A get that succeeded, written out. -/
theorem InvokeGet_exact {h : Host} {w : World} {dg i : Int} {r : Variant} {k : Nat}
    (hk : k ≤ w.log.length) (hok : okFrom k (InvokeGet h w dg i r).2.2)
    (h1 : -2147483648 ≤ i) (h2 : i ≤ 2147483647) :
    ∃ v, w.items[i.toNat]? = some v ∧ 0 ≤ i ∧ i < 2147483647
      ∧ InvokeGet h w dg i r
          = (S_OK, v, { w with log := w.log ++ [⟨Kind.get, i, i + 1, none, true⟩] })
      ∧ okFrom k w := by
  obtain ⟨c, hl, -, -, -, hv⟩ := InvokeGet_log h w dg i r
  obtain ⟨hc, hw⟩ := ok_last hl hk hok
  obtain ⟨v, hf, -⟩ := hv hc
  obtain ⟨ha, hget⟩ := foreignGet_some hf
  obtain ⟨i0, i1, ie⟩ := index_of_arg h1 h2 ha
  have hwr : wrap32 (i + 1) = i + 1 := wrap32_eq (by omega) (by omega)
  rw [ie] at hget
  refine ⟨v, hget, i0, i1, ?_, hw⟩
  rw [InvokeGet_some r hf, hwr]

/-- A set that succeeded, written out. -/
theorem InvokeSet_exact {h : Host} {w : World} {ds i : Int} {v : Variant} {k : Nat}
    (hk : k ≤ w.log.length) (hok : okFrom k (InvokeSet h w ds i v).2)
    (h1 : -2147483648 ≤ i) (h2 : i ≤ 2147483647) :
    0 ≤ i ∧ i < 2147483647 ∧ i.toNat < w.items.length
      ∧ InvokeSet h w ds i v
          = (S_OK, { w with
              items := w.items.set i.toNat (setArg (h.uninit w.log.length Slot.args0) v),
              log := w.log ++ [⟨Kind.set, i, i + 1,
                some (setArg (h.uninit w.log.length Slot.args0) v), true⟩] })
      ∧ okFrom k w := by
  obtain ⟨c, hl, -, -, -, -, hv⟩ := InvokeSet_log h w ds i v
  obtain ⟨hc, hw⟩ := ok_last hl hk hok
  obtain ⟨l, hf, -⟩ := hv hc
  obtain ⟨ha, hlen, hset⟩ := foreignSet_some hf
  obtain ⟨i0, i1, ie⟩ := index_of_arg h1 h2 ha
  have hwr : wrap32 (i + 1) = i + 1 := wrap32_eq (by omega) (by omega)
  rw [ie] at hlen hset
  refine ⟨i0, i1, hlen, ?_, hw⟩
  rw [InvokeSet_some hf, hwr, hset]

/-- A swap whose four calls succeed, written out: the four calls and the storage
afterwards. What is written at `i` is the copy `y'` of the element `y` of `j`, what
is written at `j` the copy `x'` of the element `x` of `i`. -/
theorem SwapElements_exact {h : Host} {w : World} {dg ds i j : Int} {k : Nat}
    (hk : k ≤ w.log.length) (hok : okFrom k (SwapElements h w dg ds i j))
    (hi1 : -2147483648 ≤ i) (hi2 : i ≤ 2147483647) (hj1 : -2147483648 ≤ j)
    (hj2 : j ≤ 2147483647) :
    ∃ x y x' y', w.items[i.toNat]? = some x ∧ w.items[j.toNat]? = some y
      ∧ x' = setArg (h.uninit (w.log.length + 3) Slot.args0) x
      ∧ y' = setArg (h.uninit (w.log.length + 2) Slot.args0) y
      ∧ 0 ≤ i ∧ i < 2147483647 ∧ 0 ≤ j ∧ j < 2147483647
      ∧ SwapElements h w dg ds i j =
          { items := (w.items.set i.toNat y').set j.toNat x',
            log := w.log ++ [⟨Kind.get, i, i + 1, none, true⟩, ⟨Kind.get, j, j + 1, none, true⟩,
              ⟨Kind.set, i, i + 1, some y', true⟩, ⟨Kind.set, j, j + 1, some x', true⟩],
            cmps := w.cmps } := by
  rw [SwapElements_eq h w dg ds i j _ _ _ rfl rfl rfl] at hok ⊢
  generalize e1 : InvokeGet h w dg i (VariantInit (h.uninit w.log.length Slot.temp1)) = r1
    at hok ⊢
  generalize e2 : InvokeGet h r1.2.2 dg j (VariantInit (h.uninit w.log.length Slot.temp2)) = r2
    at hok ⊢
  generalize e3 : InvokeSet h r2.2.2 ds i r2.2.1 = r3 at hok ⊢
  have n1 : r1.2.2.log.length = w.log.length + 1 := by
    rw [← e1]; exact InvokeGet_log_length _ _ _ _ _
  have n2 : r2.2.2.log.length = r1.2.2.log.length + 1 := by
    rw [← e2]; exact InvokeGet_log_length _ _ _ _ _
  have n3 : r3.2.log.length = r2.2.2.log.length + 1 := by
    rw [← e3]; exact InvokeSet_log_length _ _ _ _ _
  obtain ⟨-, -, -, s4, ok3⟩ := @InvokeSet_exact h r3.2 ds j r1.2.1 k (by omega) hok hj1 hj2
  have q3 := @InvokeSet_exact h r2.2.2 ds i r2.2.1 k (by omega)
  rw [e3] at q3
  obtain ⟨-, -, -, s3, ok2⟩ := q3 ok3 hi1 hi2
  have q2 := @InvokeGet_exact h r1.2.2 dg j (VariantInit (h.uninit w.log.length Slot.temp2)) k
    (by omega)
  rw [e2] at q2
  obtain ⟨y, g2, j0, j1, s2, ok1⟩ := q2 ok2 hj1 hj2
  have q1 := @InvokeGet_exact h w dg i (VariantInit (h.uninit w.log.length Slot.temp1)) k hk
  rw [e1] at q1
  obtain ⟨x, g1, i0, i1, s1, -⟩ := q1 ok1 hi1 hi2
  have m3 : r3.2.log.length = w.log.length + 3 := by omega
  have m2 : r2.2.2.log.length = w.log.length + 2 := by omega
  rw [m3] at s4
  rw [m2] at s3
  subst s1
  subst s2
  subst s3
  simp only [List.append_assoc, List.singleton_append] at s4 g2 ⊢
  exact ⟨x, y, _, _, g1, g2, rfl, rfl, i0, i1, j0, j1, by rw [s4]; simp⟩

/-! ### Successful calls address existing positions -/

/-- When the loop of `Partition` runs at least once and its calls succeed, the index
it starts from is not negative. -/
theorem PartitionLoop_first_nonneg (h : Host) (cmp : Variant → Variant → Int)
    (dg ds high : Int) (pv : Variant) (fuel : Nat) (j i : Int) (v1 : Variant) (w : World)
    (n : Nat) (hj : j < high) (hj1 : -2147483648 ≤ j) (hj2 : j ≤ 2147483647)
    (hn : n ≤ w.log.length)
    (hok : okFrom n (PartitionLoop h cmp dg ds high pv (fuel + 1) j i v1 w).2) : 0 ≤ j := by
  have hn1 : n ≤ (InvokeGet h w dg j v1).2.2.tick.log.length := by
    rw [tick_log, InvokeGet_log_length]; omega
  have ok1 : okFrom n (InvokeGet h w dg j v1).2.2 := by
    by_cases hlt : cmp (InvokeGet h w dg j v1).2.1 pv < 0
    · rw [PartitionLoop_less h cmp dg ds high pv fuel j i v1 w hj hlt] at hok
      have hsg := (SwapElements_grows h (InvokeGet h w dg j v1).2.2.tick dg ds
        (wrap32 (i + 1)) j).1
      have ok2 := okFrom_of_grows (PartitionLoop_ext h cmp dg ds high pv fuel _ _ _ _)
        (le_trans hn1 hsg.length_le) hok
      exact okFrom_of_grows hsg hn1 ok2
    · rw [PartitionLoop_notLess h cmp dg ds high pv fuel j i v1 w hj hlt] at hok
      exact okFrom_of_grows (PartitionLoop_ext h cmp dg ds high pv fuel _ _ _
        (InvokeGet h w dg j v1).2.2.tick) hn1 hok
  obtain ⟨-, -, h0, -⟩ := InvokeGet_exact hn ok1 hj1 hj2
  exact h0

/-- When the calls of `Partition` succeed, the range lies inside the collection. -/
theorem Partition_range_of_ok (h : Host) (cmp : Variant → Variant → Int) (w : World)
    (dg ds low high : Int) (n : Nat) (hlo : -2147483648 ≤ low) (hhi : high ≤ 2147483647)
    (hle : low ≤ high) (hn : n ≤ w.log.length)
    (hok : okFrom n (Partition h cmp w dg ds low high).2) :
    0 ≤ low ∧ high < 2147483647 ∧ ∃ pv, w.items[high.toNat]? = some pv
      ∧ InvokeGet h w dg high (VariantInit (h.uninit w.log.length Slot.pivot))
          = (S_OK, pv, { w with log := w.log ++ [⟨Kind.get, high, high + 1, none, true⟩] }) := by
  rw [Partition_eq h cmp w dg ds low high _ rfl] at hok
  have hn1 : n ≤ (InvokeGet h w dg high (VariantInit (h.uninit w.log.length Slot.pivot))).2.2.log.length := by
    rw [InvokeGet_log_length]; omega
  have hg := PartitionLoop_ext h cmp dg ds high
    (InvokeGet h w dg high (VariantInit (h.uninit w.log.length Slot.pivot))).2.1 (high - low).toNat low (wrap32 (low - 1))
    (VariantInit (h.uninit w.log.length Slot.v1)) (InvokeGet h w dg high (VariantInit (h.uninit w.log.length Slot.pivot))).2.2
  have ok2 := okFrom_of_grows (SwapElements_grows h _ dg ds _ high).1
    (le_trans hn1 hg.length_le) hok
  have ok1 := okFrom_of_grows hg hn1 ok2
  obtain ⟨pv, hpv, h0, hmax, he, -⟩ := InvokeGet_exact hn ok1 (by omega) hhi
  refine ⟨?_, hmax, pv, hpv, he⟩
  by_cases hlt : low < high
  · obtain ⟨f, hf⟩ : ∃ f, (high - low).toNat = f + 1 := ⟨(high - low).toNat - 1, by omega⟩
    rw [hf] at ok2
    exact PartitionLoop_first_nonneg h cmp dg ds high _ f low _ _ _ n hlt hlo (by omega) hn1 ok2
  · omega

/-! ### The value returned by Partition -/

theorem slice_succ {A : List Variant} {lo j : Int} {v : Variant} (hlo : 0 ≤ lo) (hj : lo ≤ j)
    (hv : A[j.toNat]? = some v) : slice A lo j = slice A lo (j - 1) ++ [v] := by
  unfold slice
  have e1 : (j + 1 - lo).toNat = (j - 1 + 1 - lo).toNat + 1 := by omega
  have e2 : lo.toNat + (j - 1 + 1 - lo).toNat = j.toNat := by omega
  rw [e1, List.take_succ, List.getElem?_drop, e2, hv]
  rfl

theorem slice_empty (A : List Variant) (lo : Int) : slice A lo (lo - 1) = [] := by
  unfold slice
  have e1 : (lo - 1 + 1 - lo).toNat = 0 := by omega
  rw [e1, List.take_zero]

/-- The loop of `Partition` counts the elements below the pivot: the element read at
`j` is the one that was there at entry, whatever the swaps before did. -/
theorem PartitionLoop_count (h : Host) (cmp : Variant → Variant → Int) (dg ds low high : Int)
    (pv : Variant) (A0 : List Variant) (n : Nat) (hlow : 0 ≤ low) (hhigh : high ≤ 2147483647) :
    ∀ (fuel : Nat) (j i : Int) (v1 : Variant) (w : World), (high - j).toNat ≤ fuel →
      n ≤ w.log.length → okFrom n (PartitionLoop h cmp dg ds high pv fuel j i v1 w).2 →
      low ≤ j → j ≤ high → low - 1 ≤ i → i < j →
      (∀ k : Nat, j ≤ (k : Int) → w.items[k]? = A0[k]?) →
      i + 1 = low + List.countP (fun v => decide (cmp v pv < 0)) (slice A0 low (j - 1)) →
      (PartitionLoop h cmp dg ds high pv fuel j i v1 w).1 + 1
        = low + List.countP (fun v => decide (cmp v pv < 0)) (slice A0 low (high - 1)) := by
  intro fuel
  induction fuel with
  | zero =>
    intro j i v1 w hf _ _ _ hjh _ _ _ hc
    rw [PartitionLoop_zero]
    have hjeq : j = high := by omega
    rw [hjeq] at hc
    exact hc
  | succ fuel ih =>
    intro j i v1 w hf hn hok hlj hjh hil hij hfr hc
    by_cases hj : j < high
    · have hwj : wrap32 (j + 1) = j + 1 := wrap32_eq (by omega) (by omega)
      have hwi : wrap32 (i + 1) = i + 1 := wrap32_eq (by omega) (by omega)
      have hn1 : n ≤ (InvokeGet h w dg j v1).2.2.tick.log.length := by
        rw [tick_log, InvokeGet_log_length]; omega
      have hstep : ∀ v : Variant, w.items[j.toNat]? = some v →
          List.countP (fun v => decide (cmp v pv < 0)) (slice A0 low (j + 1 - 1))
            = List.countP (fun v => decide (cmp v pv < 0)) (slice A0 low (j - 1))
              + if cmp v pv < 0 then 1 else 0 := by
        intro v hv
        rw [hfr j.toNat (by omega)] at hv
        have e : j + 1 - 1 = j := by omega
        rw [e, slice_succ hlow hlj hv, List.countP_append, List.countP_singleton]
        simp
      by_cases hlt : cmp (InvokeGet h w dg j v1).2.1 pv < 0
      · rw [PartitionLoop_less h cmp dg ds high pv fuel j i v1 w hj hlt, hwj, hwi] at hok ⊢
        have hsg := (SwapElements_grows h (InvokeGet h w dg j v1).2.2.tick dg ds (i + 1) j).1
        have hn2 := le_trans hn1 hsg.length_le
        have ok2 := okFrom_of_grows (PartitionLoop_ext h cmp dg ds high pv fuel _ _ _ _) hn2 hok
        have ok1 : okFrom n (InvokeGet h w dg j v1).2.2 := okFrom_of_grows hsg hn1 ok2
        obtain ⟨v, hv, -, -, he, -⟩ := InvokeGet_exact hn ok1 (by omega) (by omega)
        obtain ⟨x, y, x', y', -, -, -, -, -, -, -, -, hs⟩ :=
          SwapElements_exact hn1 ok2 (by omega) (by omega) (by omega) (by omega)
        rw [he] at hlt
        simp only [] at hlt
        refine ih (j + 1) (i + 1) _ _ (by omega) hn2 hok (by omega) (by omega) (by omega)
          (by omega) ?_ ?_
        · intro k hk
          rw [hs]
          simp only []
          rw [List.getElem?_set, List.getElem?_set, if_neg (by omega), if_neg (by omega),
            tick_items, (InvokeGet_items _ _ _ _ _).1]
          exact hfr k (by omega)
        · rw [hstep v hv, if_pos hlt]
          push_cast
          omega
      · rw [PartitionLoop_notLess h cmp dg ds high pv fuel j i v1 w hj hlt, hwj] at hok ⊢
        have ok1 : okFrom n (InvokeGet h w dg j v1).2.2 :=
          okFrom_of_grows (PartitionLoop_ext h cmp dg ds high pv fuel _ _ _
            (InvokeGet h w dg j v1).2.2.tick) hn1 hok
        obtain ⟨v, hv, -, -, he, -⟩ := InvokeGet_exact hn ok1 (by omega) (by omega)
        rw [he] at hlt
        simp only [] at hlt
        refine ih (j + 1) i _ _ (by omega) hn1 hok (by omega) (by omega) (by omega)
          (by omega) ?_ ?_
        · intro k hk
          rw [tick_items, (InvokeGet_items _ _ _ _ _).1]
          exact hfr k (by omega)
        · rw [hstep v hv, if_neg hlt]
          push_cast
          omega
    · rw [PartitionLoop_done h cmp dg ds high pv _ j i v1 w hj]
      have hjeq : j = high := by omega
      rw [hjeq] at hc
      exact hc

/-- The index returned by `Partition` is `low` plus the number of elements of
`[low, high)` that were below the element at `high`, when the calls succeed. -/
theorem Partition_count (h : Host) (cmp : Variant → Variant → Int) (w : World)
    (dg ds low high : Int) (n : Nat) (hlo : -2147483648 ≤ low) (hhi : high ≤ 2147483647)
    (hle : low ≤ high) (hn : n ≤ w.log.length)
    (hok : okFrom n (Partition h cmp w dg ds low high).2) :
    ∃ pv, w.items[high.toNat]? = some pv ∧ 0 ≤ low
      ∧ (Partition h cmp w dg ds low high).1
        = low + List.countP (fun v => decide (cmp v pv < 0)) (slice w.items low (high - 1)) := by
  obtain ⟨hlow, hmax, pv, hpv, he⟩ :=
    Partition_range_of_ok h cmp w dg ds low high n hlo hhi hle hn hok
  refine ⟨pv, hpv, hlow, ?_⟩
  have hwl : wrap32 (low - 1) = low - 1 := wrap32_eq (by omega) (by omega)
  rw [Partition_eq h cmp w dg ds low high _ rfl, hwl, he] at hok ⊢
  simp only [] at hok ⊢
  have hany := PartitionLoop_any h cmp dg ds high pv hhi (high - low).toNat low (low - 1)
    (VariantInit (h.uninit w.log.length Slot.v1))
    { w with log := w.log ++ [⟨Kind.get, high, high + 1, none, true⟩] } (by omega) (by omega)
  have hcnt := PartitionLoop_count h cmp dg ds low high pv w.items n hlow hhi
    (high - low).toNat low (low - 1) (VariantInit (h.uninit w.log.length Slot.v1))
    { w with log := w.log ++ [⟨Kind.get, high, high + 1, none, true⟩] } (le_refl _)
    (by simp; omega)
  generalize PartitionLoop h cmp dg ds high pv (high - low).toNat low (low - 1)
    (VariantInit (h.uninit w.log.length Slot.v1))
    { w with log := w.log ++ [⟨Kind.get, high, high + 1, none, true⟩] } = lp
    at hok hany hcnt ⊢
  obtain ⟨a1, a2, a3⟩ := hany
  rw [max_eq_right hle] at a2
  have hwp : wrap32 (lp.1 + 1) = lp.1 + 1 := wrap32_eq (by omega) (by omega)
  rw [hwp] at hok ⊢
  have hn1 : n ≤ (w.log ++ [(⟨Kind.get, high, high + 1, none, true⟩ : Call)]).length := by
    simp; omega
  have ok2 : okFrom n lp.2 :=
    okFrom_of_grows (SwapElements_grows h lp.2 dg ds (lp.1 + 1) high).1
      (le_trans hn1 a3.length_le) hok
  exact hcnt ok2 (le_refl _) hle (le_refl _) (by omega) (fun _ _ => rfl)
    (by rw [slice_empty]; simp)

/-! ### Positions that a call cannot touch, for any host -/

theorem Untouched.unchanged (P : Int → Prop) (A : List Variant) : Untouched P A A :=
  ⟨rfl, fun _ _ => rfl⟩

theorem Untouched.chain {P : Int → Prop} {A B C : List Variant} (h1 : Untouched P A B)
    (h2 : Untouched P B C) : Untouched P A C :=
  ⟨h2.1.trans h1.1, fun k hk => (h2.2 k hk).trans (h1.2 k hk)⟩

theorem Untouched.widen {P Q : Int → Prop} {A B : List Variant} (h1 : Untouched P A B)
    (hPQ : ∀ k, P k → Q k) : Untouched Q A B :=
  ⟨h1.1, fun k hk => h1.2 k (fun hp => hk (hPQ _ hp))⟩

/-- A set, successful or not, touches at most the position it names. -/
theorem InvokeSet_untouched (h : Host) (w : World) (ds i : Int) (v : Variant)
    (h1 : -2147483648 ≤ i) (h2 : i ≤ 2147483647) :
    Untouched (fun k => k = i) w.items (InvokeSet h w ds i v).2.items := by
  cases hf : h.foreignSet w ds (wrap32 (i + 1)) (setArg (h.uninit w.log.length Slot.args0) v) with
  | none =>
    rw [InvokeSet_none hf]
    exact Untouched.unchanged _ _
  | some l =>
    rw [InvokeSet_some hf]
    obtain ⟨ha, -, hset⟩ := foreignSet_some hf
    obtain ⟨i0, -, ie⟩ := index_of_arg h1 h2 ha
    rw [ie] at hset
    subst hset
    refine ⟨by simp, fun k hk => ?_⟩
    simp only []
    rw [List.getElem?_set, if_neg (by omega)]

/-- A swap touches at most the two positions it names. -/
theorem SwapElements_untouched (h : Host) (w : World) (dg ds i j : Int)
    (hi1 : -2147483648 ≤ i) (hi2 : i ≤ 2147483647) (hj1 : -2147483648 ≤ j)
    (hj2 : j ≤ 2147483647) :
    Untouched (fun k => k = i ∨ k = j) w.items (SwapElements h w dg ds i j).items := by
  rw [SwapElements_eq h w dg ds i j _ _ _ rfl rfl rfl]
  generalize e1 : InvokeGet h w dg i (VariantInit (h.uninit w.log.length Slot.temp1)) = r1
  generalize e2 : InvokeGet h r1.2.2 dg j (VariantInit (h.uninit w.log.length Slot.temp2)) = r2
  have I1 : r1.2.2.items = w.items := by rw [← e1]; exact (InvokeGet_items _ _ _ _ _).1
  have I2 : r2.2.2.items = r1.2.2.items := by rw [← e2]; exact (InvokeGet_items _ _ _ _ _).1
  have u3 := InvokeSet_untouched h r2.2.2 ds i r2.2.1 hi1 hi2
  have u4 := InvokeSet_untouched h (InvokeSet h r2.2.2 ds i r2.2.1).2 ds j r1.2.1 hj1 hj2
  rw [I2, I1] at u3
  exact (u3.widen (fun k hk => Or.inl hk)).chain (u4.widen (fun k hk => Or.inr hk))

/-- The loop of `Partition` touches only positions strictly between the cursor and
`high`. -/
theorem PartitionLoop_untouched (h : Host) (cmp : Variant → Variant → Int) (dg ds high : Int)
    (pv : Variant) (hhigh : high ≤ 2147483647) :
    ∀ (fuel : Nat) (j i : Int) (v1 : Variant) (w : World), -2147483648 ≤ i → i < j →
      Untouched (fun k => i < k ∧ k < high) w.items
        (PartitionLoop h cmp dg ds high pv fuel j i v1 w).2.items := by
  intro fuel
  induction fuel with
  | zero =>
    intro j i v1 w _ _
    rw [PartitionLoop_zero]
    exact Untouched.unchanged _ _
  | succ fuel ih =>
    intro j i v1 w hi hij
    by_cases hj : j < high
    · have hwj : wrap32 (j + 1) = j + 1 := wrap32_eq (by omega) (by omega)
      have hwi : wrap32 (i + 1) = i + 1 := wrap32_eq (by omega) (by omega)
      by_cases hlt : cmp (InvokeGet h w dg j v1).2.1 pv < 0
      · rw [PartitionLoop_less h cmp dg ds high pv fuel j i v1 w hj hlt, hwj, hwi]
        have us := SwapElements_untouched h (InvokeGet h w dg j v1).2.2.tick dg ds (i + 1) j
          (by omega) (by omega) (by omega) (by omega)
        rw [tick_items, (InvokeGet_items _ _ _ _ _).1] at us
        have ul := ih (j + 1) (i + 1) (VariantClear (InvokeGet h w dg j v1).2.1)
          (SwapElements h (InvokeGet h w dg j v1).2.2.tick dg ds (i + 1) j) (by omega) (by omega)
        refine (us.widen ?_).chain (ul.widen ?_)
        · intro k hk
          rcases hk with hk | hk <;> omega
        · intro k hk
          omega
      · rw [PartitionLoop_notLess h cmp dg ds high pv fuel j i v1 w hj hlt, hwj]
        have ul := ih (j + 1) i (VariantClear (InvokeGet h w dg j v1).2.1)
          (InvokeGet h w dg j v1).2.2.tick hi (by omega)
        rw [tick_items, (InvokeGet_items _ _ _ _ _).1] at ul
        exact ul
    · rw [PartitionLoop_done h cmp dg ds high pv _ j i v1 w hj]
      exact Untouched.unchanged _ _

/-- Any run of `Partition` on a non-empty range touches only positions of the range. -/
theorem Partition_untouched (h : Host) (cmp : Variant → Variant → Int) (w : World)
    (dg ds low high : Int) (hlow : -2147483648 < low) (hhigh : high ≤ 2147483647)
    (hle : low ≤ high) :
    Untouched (fun k => low ≤ k ∧ k ≤ high) w.items
      (Partition h cmp w dg ds low high).2.items := by
  have hwl : wrap32 (low - 1) = low - 1 := wrap32_eq (by omega) (by omega)
  rw [Partition_eq h cmp w dg ds low high _ rfl, hwl]
  have hany := PartitionLoop_any h cmp dg ds high
    (InvokeGet h w dg high (VariantInit (h.uninit w.log.length Slot.pivot))).2.1 hhigh (high - low).toNat low (low - 1)
    (VariantInit (h.uninit w.log.length Slot.v1)) (InvokeGet h w dg high (VariantInit (h.uninit w.log.length Slot.pivot))).2.2 (by omega) (by omega)
  have ul := PartitionLoop_untouched h cmp dg ds high
    (InvokeGet h w dg high (VariantInit (h.uninit w.log.length Slot.pivot))).2.1 hhigh (high - low).toNat low (low - 1)
    (VariantInit (h.uninit w.log.length Slot.v1)) (InvokeGet h w dg high (VariantInit (h.uninit w.log.length Slot.pivot))).2.2 (by omega) (by omega)
  rw [(InvokeGet_items _ _ _ _ _).1] at ul
  generalize PartitionLoop h cmp dg ds high (InvokeGet h w dg high (VariantInit (h.uninit w.log.length Slot.pivot))).2.1
    (high - low).toNat low (low - 1) (VariantInit (h.uninit w.log.length Slot.v1))
    (InvokeGet h w dg high (VariantInit (h.uninit w.log.length Slot.pivot))).2.2 = lp at hany ul ⊢
  obtain ⟨a1, a2, -⟩ := hany
  rw [max_eq_right hle] at a2
  have hwp : wrap32 (lp.1 + 1) = lp.1 + 1 := wrap32_eq (by omega) (by omega)
  rw [hwp]
  have us := SwapElements_untouched h lp.2 dg ds (lp.1 + 1) high (by omega) (by omega)
    (by omega) hhigh
  refine (ul.widen ?_).chain (us.widen ?_)
  · intro k hk
    omega
  · intro k hk
    rcases hk with hk | hk <;> omega

/-- Any run of `QuickSort` touches only positions of its range. -/
theorem QuickSort_untouched (h : Host) (cmp : Variant → Variant → Int) (dg ds : Int) :
    ∀ (fuel : Nat) (low high : Int) (w w' : World), -2147483648 < low → high < 2147483647 →
      QuickSort h cmp dg ds fuel low high w = some w' →
      Untouched (fun k => low ≤ k ∧ k ≤ high) w.items w'.items := by
  intro fuel
  induction fuel with
  | zero => intro low high w w' _ _ hq; simp [QuickSort] at hq
  | succ fuel ih =>
    intro low high w w' hlow hhigh hq
    by_cases hlh : low < high
    · rw [QuickSort_succ _ _ _ _ _ _ _ _ hlh] at hq
      obtain ⟨p1, p2, -⟩ := Partition_any h cmp w dg ds low high hlow (by omega) (by omega)
      have up := Partition_untouched h cmp w dg ds low high hlow (by omega) (by omega)
      have e1 : wrap32 ((Partition h cmp w dg ds low high).1 - 1)
          = (Partition h cmp w dg ds low high).1 - 1 := wrap32_eq (by omega) (by omega)
      have e2 : wrap32 ((Partition h cmp w dg ds low high).1 + 1)
          = (Partition h cmp w dg ds low high).1 + 1 := wrap32_eq (by omega) (by omega)
      rw [e1, e2] at hq
      obtain ⟨w1, h1, h2⟩ := Option.bind_eq_some.mp hq
      have u1 := ih _ _ _ _ hlow (by omega) h1
      have u2 := ih _ _ _ _ (by omega) hhigh h2
      exact up.chain ((u1.widen (fun k hk => by omega)).chain (u2.widen (fun k hk => by omega)))
    · rw [QuickSort_base _ _ _ _ _ _ _ _ (by omega)] at hq
      simp only [Option.some.injEq] at hq
      subst hq
      exact Untouched.unchanged _ _

/-- A rearrangement that leaves everything outside `[lo, hi]` in place rearranges the
elements of `[lo, hi]` among themselves. -/
theorem slice_perm_of_frame {A A' : List Variant} {lo hi : Int} (hlo : 0 ≤ lo)
    (hp : A'.Perm A)
    (hf : ∀ k : Nat, ((k : Int) < lo ∨ hi < (k : Int)) → A'[k]? = A[k]?) :
    (slice A' lo hi).Perm (slice A lo hi) := by
  unfold slice
  have ht : A'.take lo.toNat = A.take lo.toNat := by
    apply List.ext_getElem?
    intro k
    rw [List.getElem?_take, List.getElem?_take]
    by_cases hk : k < lo.toNat
    · rw [if_pos hk, if_pos hk]
      exact hf k (Or.inl (by omega))
    · rw [if_neg hk, if_neg hk]
  have hd : (A'.drop lo.toNat).drop (hi + 1 - lo).toNat
      = (A.drop lo.toNat).drop (hi + 1 - lo).toNat := by
    apply List.ext_getElem?
    intro k
    rw [List.getElem?_drop, List.getElem?_drop, List.getElem?_drop, List.getElem?_drop]
    exact hf _ (Or.inr (by omega))
  have h1 : (A'.take lo.toNat ++ A'.drop lo.toNat).Perm (A.take lo.toNat ++ A.drop lo.toNat) := by
    rw [List.take_append_drop, List.take_append_drop]
    exact hp
  rw [ht] at h1
  have h2 := (List.perm_append_left_iff _).mp h1
  have h3 : ((A'.drop lo.toNat).take (hi + 1 - lo).toNat
        ++ (A.drop lo.toNat).drop (hi + 1 - lo).toNat).Perm
      ((A.drop lo.toNat).take (hi + 1 - lo).toNat
        ++ (A.drop lo.toNat).drop (hi + 1 - lo).toNat) := by
    rw [← hd, List.take_append_drop, hd, List.take_append_drop]
    exact h2
  exact (List.perm_append_right_iff _).mp h3

/-! ### The index handed to the foreign collection -/

theorem Grows.and {P Q : Call → Prop} {w1 w2 : World} (hp : Grows P w1 w2)
    (hq : Grows Q w1 w2) : Grows (fun c => P c ∧ Q c) w1 w2 := by
  obtain ⟨t, ht, hP⟩ := hp
  obtain ⟨u, hu, hQ⟩ := hq
  have he : t = u := List.append_cancel_left (ht.symm.trans hu)
  subst he
  exact ⟨t, ht, fun c hc => ⟨hP c hc, hQ c hc⟩⟩

theorem InvokeGet_args (h : Host) (w : World) (dg i : Int) (r : Variant) :
    Grows (fun c => c.arg = wrap32 (c.index + 1)) w (InvokeGet h w dg i r).2.2 := by
  obtain ⟨c, hl, -, hi, ha, -⟩ := InvokeGet_log h w dg i r
  refine ⟨[c], hl, fun c' hc' => ?_⟩
  rw [List.mem_singleton] at hc'
  subst hc'
  rw [ha, hi]

theorem InvokeSet_args (h : Host) (w : World) (ds i : Int) (v : Variant) :
    Grows (fun c => c.arg = wrap32 (c.index + 1)) w (InvokeSet h w ds i v).2 := by
  obtain ⟨c, hl, -, hi, ha, -⟩ := InvokeSet_log h w ds i v
  refine ⟨[c], hl, fun c' hc' => ?_⟩
  rw [List.mem_singleton] at hc'
  subst hc'
  rw [ha, hi]

theorem SwapElements_args (h : Host) (w : World) (dg ds i j : Int) :
    Grows (fun c => c.arg = wrap32 (c.index + 1)) w (SwapElements h w dg ds i j) := by
  rw [SwapElements_eq h w dg ds i j _ _ _ rfl rfl rfl]
  exact (InvokeGet_args h w dg i _).trans ((InvokeGet_args h _ dg j _).trans
    ((InvokeSet_args h _ ds i _).trans (InvokeSet_args h _ ds j _)))

theorem PartitionLoop_args (h : Host) (cmp : Variant → Variant → Int) (dg ds high : Int)
    (pv : Variant) :
    ∀ (fuel : Nat) (j i : Int) (v1 : Variant) (w : World),
      Grows (fun c => c.arg = wrap32 (c.index + 1)) w
        (PartitionLoop h cmp dg ds high pv fuel j i v1 w).2 := by
  intro fuel
  induction fuel with
  | zero => intro j i v1 w; exact Grows.refl _ _
  | succ fuel ih =>
    intro j i v1 w
    by_cases hj : j < high
    · have hg : Grows (fun c => c.arg = wrap32 (c.index + 1)) w
          (InvokeGet h w dg j v1).2.2.tick := InvokeGet_args h w dg j v1
      by_cases hlt : cmp (InvokeGet h w dg j v1).2.1 pv < 0
      · rw [PartitionLoop_less h cmp dg ds high pv fuel j i v1 w hj hlt]
        exact hg.trans ((SwapElements_args h _ dg ds _ j).trans (ih _ _ _ _))
      · rw [PartitionLoop_notLess h cmp dg ds high pv fuel j i v1 w hj hlt]
        exact hg.trans (ih _ _ _ _)
    · rw [PartitionLoop_done h cmp dg ds high pv _ j i v1 w hj]
      exact Grows.refl _ _

/-- Every call that `QuickSort` makes hands over its zero-based index plus one. -/
theorem QuickSort_args (h : Host) (cmp : Variant → Variant → Int) (dg ds : Int) :
    ∀ (fuel : Nat) (low high : Int) (w w' : World),
      QuickSort h cmp dg ds fuel low high w = some w' →
      Grows (fun c => c.arg = wrap32 (c.index + 1)) w w' := by
  intro fuel
  induction fuel with
  | zero => intro low high w w' hq; simp [QuickSort] at hq
  | succ fuel ih =>
    intro low high w w' hq
    by_cases hlh : low < high
    · rw [QuickSort_succ _ _ _ _ _ _ _ _ hlh] at hq
      obtain ⟨w1, h1, h2⟩ := Option.bind_eq_some.mp hq
      refine Grows.trans ?_ ((ih _ _ _ _ h1).trans (ih _ _ _ _ h2))
      rw [Partition_eq h cmp w dg ds low high _ rfl]
      exact (InvokeGet_args h w dg high _).trans
        ((PartitionLoop_args h cmp dg ds high _ _ _ _ _ _).trans
          (SwapElements_args h _ dg ds _ high))
    · rw [QuickSort_base _ _ _ _ _ _ _ _ (by omega)] at hq
      simp only [Option.some.injEq] at hq
      subst hq
      exact Grows.refl _ _

/-! ### Counting the comparator calls -/

theorem SwapElements_cmps (h : Host) (w : World) (dg ds i j : Int) :
    (SwapElements h w dg ds i j).cmps = w.cmps := by
  obtain ⟨_, _, _, _, -, -, -, -, -, hc⟩ := SwapElements_log h w dg ds i j
  exact hc

theorem tick_cmps (w : World) : w.tick.cmps = w.cmps + 1 := rfl

/-- The loop of `Partition` calls the comparator once for each index from `j` up to
`high - 1`, whatever the host answers. -/
theorem PartitionLoop_cmps (h : Host) (cmp : Variant → Variant → Int) (dg ds high : Int)
    (pv : Variant) (hhigh : high ≤ 2147483647) :
    ∀ (fuel : Nat) (j i : Int) (v1 : Variant) (w : World), -2147483648 ≤ j →
      (high - j).toNat ≤ fuel →
      (PartitionLoop h cmp dg ds high pv fuel j i v1 w).2.cmps = w.cmps + (high - j).toNat := by
  intro fuel
  induction fuel with
  | zero =>
    intro j i v1 w _ hf
    rw [PartitionLoop_zero]
    simp only []
    omega
  | succ fuel ih =>
    intro j i v1 w hj0 hf
    by_cases hj : j < high
    · have hwj : wrap32 (j + 1) = j + 1 := wrap32_eq (by omega) (by omega)
      by_cases hlt : cmp (InvokeGet h w dg j v1).2.1 pv < 0
      · rw [PartitionLoop_less h cmp dg ds high pv fuel j i v1 w hj hlt, hwj,
          ih _ _ _ _ (by omega) (by omega), SwapElements_cmps, tick_cmps,
          (InvokeGet_items _ _ _ _ _).2]
        omega
      · rw [PartitionLoop_notLess h cmp dg ds high pv fuel j i v1 w hj hlt, hwj,
          ih _ _ _ _ (by omega) (by omega), tick_cmps, (InvokeGet_items _ _ _ _ _).2]
        omega
    · rw [PartitionLoop_done h cmp dg ds high pv _ j i v1 w hj]
      simp only []
      omega

/-- Any run of `Partition(low, high)` makes exactly `high - low` comparator calls. -/
theorem Partition_cmps (h : Host) (cmp : Variant → Variant → Int) (w : World)
    (dg ds low high : Int) (hlow : -2147483648 ≤ low) (hhigh : high ≤ 2147483647) :
    (Partition h cmp w dg ds low high).2.cmps = w.cmps + (high - low).toNat := by
  rw [Partition_eq h cmp w dg ds low high _ rfl]
  simp only []
  rw [SwapElements_cmps, PartitionLoop_cmps h cmp dg ds high _ hhigh _ _ _ _ _ hlow (le_refl _),
    (InvokeGet_items _ _ _ _ _).2]

theorem pairs_bound (a b s : Nat) (hs : a + b + 1 = s) :
    2 * (s - 1) + a * (a - 1) + b * (b - 1) ≤ s * (s - 1) := by
  subst hs
  cases a with
  | zero =>
    cases b with
    | zero => simp
    | succ b =>
      simp only [Nat.zero_add, Nat.add_sub_cancel, Nat.zero_mul, Nat.add_zero]
      nlinarith
  | succ a =>
    cases b with
    | zero =>
      simp only [Nat.add_zero, Nat.add_sub_cancel, Nat.zero_mul]
      nlinarith
    | succ b =>
      simp only [Nat.add_sub_cancel]
      nlinarith [Nat.zero_le (a * b)]

/-- Any run of `QuickSort` on a range of `s` indices makes at most `s (s - 1) / 2`
comparator calls. -/
theorem QuickSort_cmps_le (h : Host) (cmp : Variant → Variant → Int) (dg ds : Int) :
    ∀ (fuel : Nat) (low high : Int) (w w' : World), -2147483648 < low → high < 2147483647 →
      QuickSort h cmp dg ds fuel low high w = some w' →
      ∃ c : Nat, w'.cmps = w.cmps + c
        ∧ 2 * c ≤ (high - low + 1).toNat * ((high - low + 1).toNat - 1) := by
  intro fuel
  induction fuel with
  | zero => intro low high w w' _ _ hq; simp [QuickSort] at hq
  | succ fuel ih =>
    intro low high w w' hlow hhigh hq
    by_cases hlh : low < high
    · rw [QuickSort_succ _ _ _ _ _ _ _ _ hlh] at hq
      obtain ⟨p1, p2, -⟩ := Partition_any h cmp w dg ds low high hlow (by omega) (by omega)
      have hpc := Partition_cmps h cmp w dg ds low high (by omega) (by omega)
      have e1 : wrap32 ((Partition h cmp w dg ds low high).1 - 1)
          = (Partition h cmp w dg ds low high).1 - 1 := wrap32_eq (by omega) (by omega)
      have e2 : wrap32 ((Partition h cmp w dg ds low high).1 + 1)
          = (Partition h cmp w dg ds low high).1 + 1 := wrap32_eq (by omega) (by omega)
      rw [e1, e2] at hq
      obtain ⟨w1, h1, h2⟩ := Option.bind_eq_some.mp hq
      obtain ⟨c1, hc1, hb1⟩ := ih _ _ _ _ hlow (by omega) h1
      obtain ⟨c2, hc2, hb2⟩ := ih _ _ _ _ (by omega) hhigh h2
      generalize (Partition h cmp w dg ds low high).1 = p at p1 p2 hb1 hb2
      refine ⟨(high - low).toNat + c1 + c2, by rw [hc2, hc1, hpc]; omega, ?_⟩
      have ea : (p - 1 - low + 1).toNat = (p - low).toNat := by congr 1; omega
      have eb : (high - (p + 1) + 1).toNat = (high - p).toNat := by congr 1; omega
      rw [ea] at hb1
      rw [eb] at hb2
      have hsum : (p - low).toNat + (high - p).toNat + 1 = (high - low + 1).toNat := by omega
      have hb := pairs_bound _ _ _ hsum
      have es : (high - low).toNat = (high - low + 1).toNat - 1 := by omega
      rw [es]
      omega
    · rw [QuickSort_base _ _ _ _ _ _ _ _ (by omega)] at hq
      simp only [Option.some.injEq] at hq
      subst hq
      exact ⟨0, rfl, Nat.zero_le _⟩

/-! ### Strictly ascending input -/

theorem swapAt_self {l : List Variant} {a : Nat} {x : Variant} (hx : l[a]? = some x) :
    swapAt l a a = l := by
  rw [swapAt_eq hx hx]
  apply List.ext_getElem?
  intro k
  rw [List.getElem?_set, List.getElem?_set]
  have ha := (List.getElem?_eq_some_iff.mp hx).1
  by_cases hk : a = k
  · subst hk
    simp [ha, hx]
  · simp [hk]

/-- On elements that are all below the pivot, the loop of `Partition` swaps every
position with itself: the cursor ends at `high - 1` and no tag or 64-bit field moves. -/
theorem PartitionLoop_ascending (h : Host) (cmp : Variant → Variant → Int) (dg ds high : Int)
    (pv : Variant) (n : Nat) (hhigh : high ≤ 2147483647) :
    ∀ (fuel : Nat) (j : Int) (v1 : Variant) (w : World), (high - j).toNat ≤ fuel →
      n ≤ w.log.length → okFrom n (PartitionLoop h cmp dg ds high pv fuel j (j - 1) v1 w).2 →
      0 ≤ j → j ≤ high →
      (∀ (k : Nat) (v : Variant), j ≤ (k : Int) → (k : Int) < high → w.items[k]? = some v →
        cmp v pv < 0) →
      (PartitionLoop h cmp dg ds high pv fuel j (j - 1) v1 w).1 = high - 1
        ∧ KeyEq (PartitionLoop h cmp dg ds high pv fuel j (j - 1) v1 w).2.items w.items
        ∧ ∀ k : Nat, high ≤ (k : Int) →
            (PartitionLoop h cmp dg ds high pv fuel j (j - 1) v1 w).2.items[k]? = w.items[k]? := by
  intro fuel
  induction fuel with
  | zero =>
    intro j v1 w hf _ _ _ hjh _
    rw [PartitionLoop_zero]
    exact ⟨by simp only []; omega, rfl, fun _ _ => rfl⟩
  | succ fuel ih =>
    intro j v1 w hf hn hok hj0 hjh hall
    by_cases hj : j < high
    · have hwj : wrap32 (j + 1) = j + 1 := wrap32_eq (by omega) (by omega)
      have hwi : wrap32 (j - 1 + 1) = j + 1 - 1 := by
        rw [wrap32_eq (by omega) (by omega)]; omega
      have hn1 : n ≤ (InvokeGet h w dg j v1).2.2.tick.log.length := by
        rw [tick_log, InvokeGet_log_length]; omega
      have hfirst : okFrom n (InvokeGet h w dg j v1).2.2 := by
        by_cases hlt : cmp (InvokeGet h w dg j v1).2.1 pv < 0
        · rw [PartitionLoop_less h cmp dg ds high pv fuel j (j - 1) v1 w hj hlt] at hok
          have hsg := (SwapElements_grows h (InvokeGet h w dg j v1).2.2.tick dg ds
            (wrap32 (j - 1 + 1)) j).1
          exact okFrom_of_grows hsg hn1 (okFrom_of_grows
            (PartitionLoop_ext h cmp dg ds high pv fuel _ _ _ _) (le_trans hn1 hsg.length_le) hok)
        · rw [PartitionLoop_notLess h cmp dg ds high pv fuel j (j - 1) v1 w hj hlt] at hok
          exact okFrom_of_grows (PartitionLoop_ext h cmp dg ds high pv fuel _ _ _
            (InvokeGet h w dg j v1).2.2.tick) hn1 hok
      obtain ⟨v, hv, -, -, he, -⟩ := InvokeGet_exact hn hfirst (by omega) (by omega)
      have hlt : cmp (InvokeGet h w dg j v1).2.1 pv < 0 := by
        rw [he]
        exact hall j.toNat v (by omega) (by omega) hv
      rw [PartitionLoop_less h cmp dg ds high pv fuel j (j - 1) v1 w hj hlt, hwj, hwi] at hok ⊢
      have hsg := (SwapElements_grows h (InvokeGet h w dg j v1).2.2.tick dg ds (j + 1 - 1) j).1
      have hn2 := le_trans hn1 hsg.length_le
      have ok2 := okFrom_of_grows (PartitionLoop_ext h cmp dg ds high pv fuel _ _ _ _) hn2 hok
      obtain ⟨-, -, -, -, hs, hfr⟩ := SwapElements_good hn1 ok2 (by omega) (by omega)
        (by omega) (by omega)
      rw [tick_items, (InvokeGet_items _ _ _ _ _).1] at hs hfr
      have hjj : (j + 1 - 1).toNat = j.toNat := by congr 1; omega
      rw [hjj] at hfr
      rw [hjj, swapAt_self hv] at hs
      have hi := ih (j + 1) (VariantClear (InvokeGet h w dg j v1).2.1)
        (SwapElements h (InvokeGet h w dg j v1).2.2.tick dg ds (j + 1 - 1) j) (by omega) hn2 hok
        (by omega) (by omega)
        (by
          intro k u q1 q2 q3
          rw [hfr k (by omega) (by omega)] at q3
          exact hall k u (by omega) q2 q3)
      refine ⟨hi.1, hi.2.1.trans hs, fun k hk => ?_⟩
      rw [hi.2.2 k hk, hfr k (by omega) (by omega)]
    · rw [PartitionLoop_done h cmp dg ds high pv _ j (j - 1) v1 w hj]
      exact ⟨by simp only []; omega, rfl, fun _ _ => rfl⟩

/-- On a strictly ascending range `Partition` returns `high` and moves no tag or 64-bit
field. -/
theorem Partition_ascending (h : Host) (cmp : Variant → Variant → Int) (w : World)
    (dg ds low high : Int) (n : Nat) (hlow : 0 ≤ low) (hle : low ≤ high)
    (hhigh : high ≤ 2147483647) (hn : n ≤ w.log.length)
    (hok : okFrom n (Partition h cmp w dg ds low high).2)
    (hasc : ∀ (a b : Nat) (x y : Variant), low ≤ (a : Int) → a < b → (b : Int) ≤ high →
      w.items[a]? = some x → w.items[b]? = some y → cmp x y < 0) :
    (Partition h cmp w dg ds low high).1 = high
      ∧ KeyEq (Partition h cmp w dg ds low high).2.items w.items := by
  obtain ⟨-, hmax, pv, hpv, he⟩ :=
    Partition_range_of_ok h cmp w dg ds low high n (by omega) hhigh hle hn hok
  have hwl : wrap32 (low - 1) = low - 1 := wrap32_eq (by omega) (by omega)
  rw [Partition_eq h cmp w dg ds low high _ rfl, hwl, he] at hok ⊢
  simp only [] at hok ⊢
  have hn1 : n ≤ (w.log ++ [(⟨Kind.get, high, high + 1, none, true⟩ : Call)]).length := by
    simp; omega
  have hg := PartitionLoop_ext h cmp dg ds high pv (high - low).toNat low (low - 1)
    (VariantInit (h.uninit w.log.length Slot.v1))
    { w with log := w.log ++ [⟨Kind.get, high, high + 1, none, true⟩] }
  have hasc1 := PartitionLoop_ascending h cmp dg ds high pv n hhigh (high - low).toNat low
    (VariantInit (h.uninit w.log.length Slot.v1))
    { w with log := w.log ++ [⟨Kind.get, high, high + 1, none, true⟩] } (le_refl _) hn1
  generalize PartitionLoop h cmp dg ds high pv (high - low).toNat low (low - 1)
    (VariantInit (h.uninit w.log.length Slot.v1))
    { w with log := w.log ++ [⟨Kind.get, high, high + 1, none, true⟩] } = lp
    at hok hg hasc1 ⊢
  have hn2 : n ≤ lp.2.log.length := le_trans hn1 hg.length_le
  have ok2 : okFrom n lp.2 :=
    okFrom_of_grows (SwapElements_grows h lp.2 dg ds (wrap32 (lp.1 + 1)) high).1 hn2 hok
  obtain ⟨hl1, hl2, hl3⟩ := hasc1 ok2 hlow hle
    (fun k v q1 q2 q3 => hasc k high.toNat v pv (by omega) (by omega) (by omega) q3 hpv)
  simp only [] at hl2 hl3
  have hwp : wrap32 (lp.1 + 1) = high := by
    rw [hl1, wrap32_eq (by omega) (by omega)]; omega
  rw [hwp] at hok ⊢
  obtain ⟨-, -, -, -, hs, -⟩ := SwapElements_good hn2 hok (by omega) (by omega) (by omega)
    (by omega)
  have hpv2 : lp.2.items[high.toNat]? = some pv := by
    rw [hl3 high.toNat (by omega)]
    exact hpv
  rw [swapAt_self hpv2] at hs
  exact ⟨rfl, hs.trans hl2⟩

theorem pairs_exact (s : Nat) (hs : 2 ≤ s) (c1 : Nat)
    (h1 : 2 * c1 = (s - 1) * (s - 1 - 1)) : 2 * ((s - 1) + c1) = s * (s - 1) := by
  obtain ⟨t, rfl⟩ : ∃ t, s = t + 2 := ⟨s - 2, by omega⟩
  simp only [Nat.add_sub_cancel, show t + 2 - 1 = t + 1 by omega] at h1 ⊢
  nlinarith

/-- A strictly ascending range stays so when its elements are replaced by copies with
the same tags and 64-bit fields, for a comparator that tells them apart by these. -/
theorem ascending_copy {cmp : Variant → Variant → Int} {A B : List Variant} {low high : Int}
    (hd : Determined cmp A) (hk : KeyEq B A)
    (hasc : ∀ (a b : Nat) (x y : Variant), low ≤ (a : Int) → a < b → (b : Int) ≤ high →
      A[a]? = some x → A[b]? = some y → cmp x y < 0) :
    ∀ (a b : Nat) (x y : Variant), low ≤ (a : Int) → a < b → (b : Int) ≤ high →
      B[a]? = some x → B[b]? = some y → cmp x y < 0 := by
  intro a b x y h1 h2 h3 hx hy
  obtain ⟨x0, hx0, kx⟩ := hk.getElem? hx
  obtain ⟨y0, hy0, ky⟩ := hk.getElem? hy
  rw [hd x0 y0 x y (mem_keys hx0) (mem_keys hy0) kx.symm ky.symm]
  exact hasc a b x0 y0 h1 h2 h3 hx0 hy0

theorem Determined.of_keyEq {cmp : Variant → Variant → Int} {A B : List Variant}
    (hd : Determined cmp A) (hk : KeyEq B A) : Determined cmp B :=
  hd.of_perm (by unfold KeyEq at hk; rw [hk])

/-- On a strictly ascending range of `s` indices, when every call succeeds and the
comparator tells the elements apart by tag and 64-bit field, `QuickSort` moves no tag
or 64-bit field and makes exactly `s (s - 1) / 2` comparator calls. -/
theorem QuickSort_ascending (h : Host) (cmp : Variant → Variant → Int) (dg ds : Int) (n : Nat) :
    ∀ (fuel : Nat) (low high : Int) (w w' : World), 0 ≤ low → high ≤ 2147483647 →
      n ≤ w.log.length → Determined cmp w.items →
      (∀ (a b : Nat) (x y : Variant), low ≤ (a : Int) → a < b → (b : Int) ≤ high →
        w.items[a]? = some x → w.items[b]? = some y → cmp x y < 0) →
      QuickSort h cmp dg ds fuel low high w = some w' → okFrom n w' →
      KeyEq w'.items w.items ∧ ∃ c : Nat, w'.cmps = w.cmps + c
        ∧ 2 * c = (high - low + 1).toNat * ((high - low + 1).toNat - 1) := by
  intro fuel
  induction fuel with
  | zero => intro low high w w' _ _ _ _ _ hq; simp [QuickSort] at hq
  | succ fuel ih =>
    intro low high w w' hlow hhigh hn hd hasc hq hok
    by_cases hlh : low < high
    · rw [QuickSort_succ _ _ _ _ _ _ _ _ hlh] at hq
      obtain ⟨w1, h1, h2⟩ := Option.bind_eq_some.mp hq
      have g1 := QuickSort_ext _ _ _ _ _ _ _ _ _ h1
      have g2 := QuickSort_ext _ _ _ _ _ _ _ _ _ h2
      obtain ⟨-, -, gp, -⟩ := Partition_any h cmp w dg ds low high (by omega) hhigh (by omega)
      have hnp : n ≤ (Partition h cmp w dg ds low high).2.log.length :=
        le_trans hn gp.length_le
      have hn1 : n ≤ w1.log.length := le_trans hnp g1.length_le
      have ok1 : okFrom n w1 := okFrom_of_grows g2 hn1 hok
      have okp : okFrom n (Partition h cmp w dg ds low high).2 := okFrom_of_grows g1 hnp ok1
      obtain ⟨-, hmax, -⟩ :=
        Partition_range_of_ok h cmp w dg ds low high n (by omega) hhigh (by omega) hn okp
      obtain ⟨hp, hitems⟩ :=
        Partition_ascending h cmp w dg ds low high n hlow (by omega) hhigh hn okp hasc
      have hpc := Partition_cmps h cmp w dg ds low high (by omega) hhigh
      rw [hp] at h1 h2
      have e1 : wrap32 (high - 1) = high - 1 := wrap32_eq (by omega) (by omega)
      have e2 : wrap32 (high + 1) = high + 1 := wrap32_eq (by omega) (by omega)
      rw [e1] at h1
      rw [e2] at h2
      obtain ⟨hi1, c1, hc1, hb1⟩ := ih low (high - 1) _ w1 hlow (by omega) hnp
        (hd.of_keyEq hitems)
        (fun a b x y q1 q2 q3 => ascending_copy hd hitems hasc a b x y q1 q2 (by omega)) h1 ok1
      have hw' := (QuickSort_any h cmp dg ds fuel (high + 1) high w1 w' (by omega) hmax h2).2.2
        (by omega)
      subst hw'
      refine ⟨hi1.trans hitems, (high - low).toNat + c1, by rw [hc1, hpc]; omega, ?_⟩
      have es1 : (high - 1 - low + 1).toNat = (high - low + 1).toNat - 1 := by omega
      have es2 : (high - low).toNat = (high - low + 1).toNat - 1 := by omega
      rw [es1] at hb1
      rw [es2]
      exact pairs_exact _ (by omega) c1 hb1
    · rw [QuickSort_base _ _ _ _ _ _ _ _ (by omega)] at hq
      simp only [Option.some.injEq] at hq
      subst hq
      refine ⟨rfl, 0, rfl, ?_⟩
      have hsz : (high - low + 1).toNat = 0 ∨ (high - low + 1).toNat = 1 := by omega
      rcases hsz with hsz | hsz <;> rw [hsz]

/-! ### The length `2^31` -/

/-- With the comparator that always answers "less" the cursor of the loop advances
at every step. -/
theorem PartitionLoop_allLess (h : Host) (dg ds high : Int) (pv : Variant)
    (hhigh : high ≤ 2147483647) :
    ∀ (fuel : Nat) (j i : Int) (v1 : Variant) (w : World), -2147483648 ≤ j → j ≤ high →
      -2147483648 ≤ i → i ≤ 2147483647 → (high - j).toNat ≤ fuel →
      (PartitionLoop h allLess dg ds high pv fuel j i v1 w).1 = wrap32 (i + (high - j)) := by
  intro fuel
  induction fuel with
  | zero =>
    intro j i v1 w _ hjh hi1 hi2 hf
    rw [PartitionLoop_zero]
    simp only []
    unfold wrap32
    omega
  | succ fuel ih =>
    intro j i v1 w hj0 hjh hi1 hi2 hf
    by_cases hj : j < high
    · have hwj : wrap32 (j + 1) = j + 1 := wrap32_eq (by omega) (by omega)
      have hlt : allLess (InvokeGet h w dg j v1).2.1 pv < 0 := by
        show (-1 : Int) < 0
        decide
      rw [PartitionLoop_less h allLess dg ds high pv fuel j i v1 w hj hlt, hwj,
        ih _ _ _ _ (by omega) (by omega) (by unfold wrap32; omega) (by unfold wrap32; omega)
          (by omega)]
      unfold wrap32
      omega
    · rw [PartitionLoop_done h allLess dg ds high pv _ j i v1 w hj]
      simp only []
      unfold wrap32
      omega

/-- With the comparator that always answers "less", `Partition` returns `high`. -/
theorem Partition_allLess (h : Host) (w : World) (dg ds low high : Int)
    (hlow : -2147483648 ≤ low) (hle : low ≤ high) (hhigh : high ≤ 2147483647) :
    (Partition h allLess w dg ds low high).1 = high := by
  rw [Partition_eq h allLess w dg ds low high _ rfl]
  simp only []
  rw [PartitionLoop_allLess h dg ds high _ hhigh _ _ _ _ _ hlow hle
    (by unfold wrap32; omega) (by unfold wrap32; omega) (le_refl _)]
  unfold wrap32
  omega

/-- With the comparator that always answers "less", `QuickSort` on the whole range
of `int` calls itself on the same range and never returns. -/
theorem QuickSort_whole_range_diverges (h : Host) (dg ds : Int) :
    ∀ (fuel : Nat) (w : World),
      QuickSort h allLess dg ds fuel (-2147483648) 2147483647 w = none := by
  intro fuel
  induction fuel with
  | zero => intro w; rfl
  | succ fuel ih =>
    intro w
    rw [QuickSort_succ _ _ _ _ _ _ _ _ (by decide),
      Partition_allLess h w dg ds _ _ (by decide) (by decide) (by decide)]
    have e : wrap32 (2147483647 + 1) = -2147483648 := by decide
    rw [e]
    cases QuickSort h allLess dg ds fuel (-2147483648) (wrap32 (2147483647 - 1))
      (Partition h allLess w dg ds (-2147483648) 2147483647).2 with
    | none => rfl
    | some w1 => exact ih w1

/-- With the comparator that always answers "less", `sort` with length `2^31` never
returns: `pivotIndex + 1` overflows to the least `int`. -/
theorem sort_allLess_diverges (h : Host) (w : World) (dg ds : Int)
    (hget : h.names "Get" = some dg) (hset : h.names "__Item" = some ds) :
    ∀ fuel : Nat, sort fuel (bound h) 2147483648 allLess w = none := by
  intro fuel
  rw [sort_bound h allLess w 2147483648 fuel dg ds hget hset]
  have eh : toInt32 ((2147483648 % 4294967296 + 4294967295) % 4294967296) = 2147483647 := by
    decide
  rw [eh]
  cases fuel with
  | zero => rfl
  | succ fuel =>
    rw [QuickSort_succ _ _ _ _ _ _ _ _ (by decide),
      Partition_allLess h w dg ds _ _ (by decide) (by decide) (by decide)]
    have e : wrap32 (2147483647 + 1) = -2147483648 := by decide
    rw [e]
    cases QuickSort h allLess dg ds fuel 0 (wrap32 (2147483647 - 1))
      (Partition h allLess w dg ds 0 2147483647).2 with
    | none => rfl
    | some w1 =>
      simp only [Option.some_bind]
      rw [QuickSort_whole_range_diverges h dg ds fuel w1]
      rfl

/-! ### The calls made, whatever fails -/

theorem foreignGet_accepted {h : Host} {w : World} {dg a : Int} {v : Variant}
    (hf : h.foreignGet w dg a = some v) : h.fails w.log.length Kind.get a = false := by
  unfold Host.foreignGet at hf
  split at hf
  · rename_i hc
    exact hc.2.1
  · cases hf

theorem foreignSet_accepted {h : Host} {w : World} {ds a : Int} {v : Variant}
    {l : List Variant} (hf : h.foreignSet w ds a v = some l) :
    h.fails w.log.length Kind.set a = false := by
  unfold Host.foreignSet at hf
  split at hf
  · rename_i hc
    exact hc.2.1
  · cases hf

/-- A call that the host rejects whenever it is made is recorded as failed. -/
theorem InvokeGet_rejected (h : Host) (w : World) (dg i : Int) (r : Variant) :
    Grows (fun c => c.ok = true → ∃ n, h.fails n c.kind c.arg = false) w
      (InvokeGet h w dg i r).2.2 := by
  obtain ⟨c, hl, hk, -, ha, hv⟩ := InvokeGet_log h w dg i r
  refine ⟨[c], hl, fun c' hc' => ?_⟩
  rw [List.mem_singleton] at hc'
  subst hc'
  intro hok
  obtain ⟨v, hf, -⟩ := hv hok
  exact ⟨w.log.length, by rw [hk, ha]; exact foreignGet_accepted hf⟩

theorem InvokeSet_rejected (h : Host) (w : World) (ds i : Int) (v : Variant) :
    Grows (fun c => c.ok = true → ∃ n, h.fails n c.kind c.arg = false) w
      (InvokeSet h w ds i v).2 := by
  obtain ⟨c, hl, hk, -, ha, -, hv⟩ := InvokeSet_log h w ds i v
  refine ⟨[c], hl, fun c' hc' => ?_⟩
  rw [List.mem_singleton] at hc'
  subst hc'
  intro hok
  obtain ⟨l, hf, -⟩ := hv hok
  exact ⟨w.log.length, by rw [hk, ha]; exact foreignSet_accepted hf⟩

/-- What holds of every call of the adapter holds of every call of a swap. -/
theorem SwapElements_each (h : Host) (dg ds : Int) (P : Call → Prop)
    (hg : ∀ (w : World) (i : Int) (r : Variant), Grows P w (InvokeGet h w dg i r).2.2)
    (hs : ∀ (w : World) (i : Int) (v : Variant), Grows P w (InvokeSet h w ds i v).2)
    (w : World) (i j : Int) : Grows P w (SwapElements h w dg ds i j) := by
  rw [SwapElements_eq h w dg ds i j _ _ _ rfl rfl rfl]
  exact (hg w i _).trans ((hg _ j _).trans ((hs _ i _).trans (hs _ j _)))

theorem PartitionLoop_each (h : Host) (cmp : Variant → Variant → Int) (dg ds high : Int)
    (pv : Variant) (P : Call → Prop)
    (hg : ∀ (w : World) (i : Int) (r : Variant), Grows P w (InvokeGet h w dg i r).2.2)
    (hs : ∀ (w : World) (i : Int) (v : Variant), Grows P w (InvokeSet h w ds i v).2) :
    ∀ (fuel : Nat) (j i : Int) (v1 : Variant) (w : World),
      Grows P w (PartitionLoop h cmp dg ds high pv fuel j i v1 w).2 := by
  intro fuel
  induction fuel with
  | zero => intro j i v1 w; exact Grows.refl _ _
  | succ fuel ih =>
    intro j i v1 w
    by_cases hj : j < high
    · have hg1 : Grows P w (InvokeGet h w dg j v1).2.2.tick := hg w j v1
      by_cases hlt : cmp (InvokeGet h w dg j v1).2.1 pv < 0
      · rw [PartitionLoop_less h cmp dg ds high pv fuel j i v1 w hj hlt]
        exact hg1.trans ((SwapElements_each h dg ds P hg hs _ _ j).trans (ih _ _ _ _))
      · rw [PartitionLoop_notLess h cmp dg ds high pv fuel j i v1 w hj hlt]
        exact hg1.trans (ih _ _ _ _)
    · rw [PartitionLoop_done h cmp dg ds high pv _ j i v1 w hj]
      exact Grows.refl _ _

theorem QuickSort_each (h : Host) (cmp : Variant → Variant → Int) (dg ds : Int)
    (P : Call → Prop)
    (hg : ∀ (w : World) (i : Int) (r : Variant), Grows P w (InvokeGet h w dg i r).2.2)
    (hs : ∀ (w : World) (i : Int) (v : Variant), Grows P w (InvokeSet h w ds i v).2) :
    ∀ (fuel : Nat) (low high : Int) (w w' : World),
      QuickSort h cmp dg ds fuel low high w = some w' → Grows P w w' := by
  intro fuel
  induction fuel with
  | zero => intro low high w w' hq; simp [QuickSort] at hq
  | succ fuel ih =>
    intro low high w w' hq
    by_cases hlh : low < high
    · rw [QuickSort_succ _ _ _ _ _ _ _ _ hlh] at hq
      obtain ⟨w1, h1, h2⟩ := Option.bind_eq_some.mp hq
      refine Grows.trans ?_ ((ih _ _ _ _ h1).trans (ih _ _ _ _ h2))
      rw [Partition_eq h cmp w dg ds low high _ rfl]
      exact (hg w high _).trans
        ((PartitionLoop_each h cmp dg ds high _ P hg hs _ _ _ _ _).trans
          (SwapElements_each h dg ds P hg hs _ _ high))
    · rw [QuickSort_base _ _ _ _ _ _ _ _ (by omega)] at hq
      simp only [Option.some.injEq] at hq
      subst hq
      exact Grows.refl _ _

/-! ### The sequence of calls does not depend on what fails -/

theorem SwapElements_shape (h : Host) (w : World) (dg ds i j : Int) :
    ∃ t, (SwapElements h w dg ds i j).log = w.log ++ t ∧ t.map Call.shape = swapShape i j := by
  obtain ⟨c1, c2, c3, c4, hl, h1, h2, h3, h4, -⟩ := SwapElements_log h w dg ds i j
  refine ⟨[c1, c2, c3, c4], hl, ?_⟩
  simp only [List.map_cons, List.map_nil, Call.shape, swapShape, h1.1, h1.2, h2.1, h2.2, h3.1,
    h3.2, h4.1, h4.2]

theorem InvokeGet_shape (h : Host) (w : World) (dg i : Int) (r : Variant) :
    ∃ c, (InvokeGet h w dg i r).2.2.log = w.log ++ [c] ∧ c.shape = (Kind.get, i) := by
  obtain ⟨c, hl, hk, hi, -⟩ := InvokeGet_log h w dg i r
  exact ⟨c, hl, by simp only [Call.shape, hk, hi]⟩

/-- The loop of `Partition` makes the calls of `loopShape` for the answers that the
comparator gives, whatever the host answers. -/
theorem PartitionLoop_shape (h : Host) (cmp : Variant → Variant → Int) (dg ds high : Int)
    (pv : Variant) (hhigh : high ≤ 2147483647) :
    ∀ (fuel : Nat) (j i : Int) (v1 : Variant) (w : World), -2147483648 ≤ i → i < j →
      (high - j).toNat ≤ fuel →
      ∃ (answers : List Bool) (t : List Call), answers.length = (high - j).toNat
        ∧ (PartitionLoop h cmp dg ds high pv fuel j i v1 w).2.log = w.log ++ t
        ∧ t.map Call.shape = (loopShape answers j i).1
        ∧ (PartitionLoop h cmp dg ds high pv fuel j i v1 w).1 = (loopShape answers j i).2 := by
  intro fuel
  induction fuel with
  | zero =>
    intro j i v1 w _ _ hf
    refine ⟨[], [], by simp; omega, by rw [PartitionLoop_zero]; simp, rfl, rfl⟩
  | succ fuel ih =>
    intro j i v1 w hi hij hf
    by_cases hj : j < high
    · have hwj : wrap32 (j + 1) = j + 1 := wrap32_eq (by omega) (by omega)
      have hwi : wrap32 (i + 1) = i + 1 := wrap32_eq (by omega) (by omega)
      obtain ⟨c, hc, hcs⟩ := InvokeGet_shape h w dg j v1
      have hlen : (high - j).toNat = (high - (j + 1)).toNat + 1 := by omega
      by_cases hlt : cmp (InvokeGet h w dg j v1).2.1 pv < 0
      · rw [PartitionLoop_less h cmp dg ds high pv fuel j i v1 w hj hlt, hwj, hwi]
        obtain ⟨ts, hts, hss⟩ :=
          SwapElements_shape h (InvokeGet h w dg j v1).2.2.tick dg ds (i + 1) j
        obtain ⟨bs, t, hb, ht, hsh, hcur⟩ := ih (j + 1) (i + 1)
          (VariantClear (InvokeGet h w dg j v1).2.1)
          (SwapElements h (InvokeGet h w dg j v1).2.2.tick dg ds (i + 1) j) (by omega)
          (by omega) (by omega)
        refine ⟨true :: bs, c :: (ts ++ t), by rw [List.length_cons, hb, hlen], ?_, ?_, ?_⟩
        · rw [ht, hts, tick_log, hc]
          simp
        · simp only [List.map_cons, List.map_append, loopShape, hcs, hss, hsh, List.cons_append]
        · simp only [loopShape]
          exact hcur
      · rw [PartitionLoop_notLess h cmp dg ds high pv fuel j i v1 w hj hlt, hwj]
        obtain ⟨bs, t, hb, ht, hsh, hcur⟩ := ih (j + 1) i
          (VariantClear (InvokeGet h w dg j v1).2.1) (InvokeGet h w dg j v1).2.2.tick hi
          (by omega) (by omega)
        refine ⟨false :: bs, c :: t, by rw [List.length_cons, hb, hlen], ?_, ?_, ?_⟩
        · rw [ht, tick_log, hc]
          simp
        · simp only [List.map_cons, loopShape, hcs, hsh]
        · simp only [loopShape]
          exact hcur
    · rw [PartitionLoop_done h cmp dg ds high pv _ j i v1 w hj]
      exact ⟨[], [], by simp; omega, by simp, rfl, rfl⟩

/-- A whole `Partition` makes the calls of `partitionShape`, whatever the host answers. -/
theorem Partition_shape (h : Host) (cmp : Variant → Variant → Int) (w : World)
    (dg ds low high : Int) (hlow : -2147483648 < low) (hhigh : high ≤ 2147483647)
    (hle : low ≤ high) :
    ∃ (answers : List Bool) (t : List Call), answers.length = (high - low).toNat
      ∧ (Partition h cmp w dg ds low high).2.log = w.log ++ t
      ∧ t.map Call.shape = partitionShape low high answers
      ∧ (Partition h cmp w dg ds low high).1 = pivotOf low answers := by
  have hwl : wrap32 (low - 1) = low - 1 := wrap32_eq (by omega) (by omega)
  obtain ⟨c, hc, hcs⟩ :=
    InvokeGet_shape h w dg high (VariantInit (h.uninit w.log.length Slot.pivot))
  obtain ⟨p1, p2, -⟩ := PartitionLoop_any h cmp dg ds high
    (InvokeGet h w dg high (VariantInit (h.uninit w.log.length Slot.pivot))).2.1 hhigh
    (high - low).toNat low (low - 1) (VariantInit (h.uninit w.log.length Slot.v1))
    (InvokeGet h w dg high (VariantInit (h.uninit w.log.length Slot.pivot))).2.2 (by omega)
    (by omega)
  rw [max_eq_right hle] at p2
  rw [Partition_eq h cmp w dg ds low high _ rfl, hwl]
  obtain ⟨bs, t, hb, ht, hsh, hcur⟩ := PartitionLoop_shape h cmp dg ds high
    (InvokeGet h w dg high (VariantInit (h.uninit w.log.length Slot.pivot))).2.1 hhigh
    (high - low).toNat low (low - 1) (VariantInit (h.uninit w.log.length Slot.v1))
    (InvokeGet h w dg high (VariantInit (h.uninit w.log.length Slot.pivot))).2.2 (by omega)
    (by omega) (le_refl _)
  generalize PartitionLoop h cmp dg ds high
    (InvokeGet h w dg high (VariantInit (h.uninit w.log.length Slot.pivot))).2.1
    (high - low).toNat low (low - 1) (VariantInit (h.uninit w.log.length Slot.v1))
    (InvokeGet h w dg high (VariantInit (h.uninit w.log.length Slot.pivot))).2.2 = lp
    at p1 p2 ht hcur ⊢
  have hwp : wrap32 (lp.1 + 1) = lp.1 + 1 := wrap32_eq (by omega) (by omega)
  rw [hwp]
  obtain ⟨ts, hts, hss⟩ := SwapElements_shape h lp.2 dg ds (lp.1 + 1) high
  refine ⟨bs, c :: (t ++ ts), hb, ?_, ?_, ?_⟩
  · simp only []
    rw [hts, ht, hc]
    simp
  · simp only [List.map_cons, List.map_append, partitionShape, pivotOf, hcs, hsh, hss, hcur,
      List.cons_append]
  · simp only [pivotOf, hcur]

/-- The calls of `QuickSort` are those of a whole run, whatever the host answers. -/
theorem QuickSort_flow (h : Host) (cmp : Variant → Variant → Int) (dg ds : Int) :
    ∀ (fuel : Nat) (low high : Int) (w w' : World), -2147483648 < low → high < 2147483647 →
      QuickSort h cmp dg ds fuel low high w = some w' →
      ∃ t, w'.log = w.log ++ t ∧ Flow low high (t.map Call.shape) := by
  intro fuel
  induction fuel with
  | zero => intro low high w w' _ _ hq; simp [QuickSort] at hq
  | succ fuel ih =>
    intro low high w w' hlow hhigh hq
    by_cases hlh : low < high
    · rw [QuickSort_succ _ _ _ _ _ _ _ _ hlh] at hq
      obtain ⟨p1, p2, -⟩ := Partition_any h cmp w dg ds low high hlow (by omega) (by omega)
      obtain ⟨bs, tp, hb, htp, hsp, hpv⟩ :=
        Partition_shape h cmp w dg ds low high hlow (by omega) (by omega)
      have e1 : wrap32 ((Partition h cmp w dg ds low high).1 - 1)
          = (Partition h cmp w dg ds low high).1 - 1 := wrap32_eq (by omega) (by omega)
      have e2 : wrap32 ((Partition h cmp w dg ds low high).1 + 1)
          = (Partition h cmp w dg ds low high).1 + 1 := wrap32_eq (by omega) (by omega)
      rw [e1, e2] at hq
      obtain ⟨w1, h1, h2⟩ := Option.bind_eq_some.mp hq
      obtain ⟨t1, ht1, f1⟩ := ih _ _ _ _ hlow (by omega) h1
      obtain ⟨t2, ht2, f2⟩ := ih _ _ _ _ (by omega) hhigh h2
      rw [hpv] at f1 f2
      refine ⟨tp ++ (t1 ++ t2), by rw [ht2, ht1, htp]; simp, ?_⟩
      rw [List.map_append, List.map_append, hsp]
      exact Flow.node low high bs _ _ hlh hb f1 f2
    · rw [QuickSort_base _ _ _ _ _ _ _ _ (by omega)] at hq
      simp only [Option.some.injEq] at hq
      subst hq
      exact ⟨[], by simp, Flow.leaf low high (by omega)⟩

/-- The loop reads every index it passes. -/
theorem loopShape_visits (answers : List Bool) :
    ∀ (j i m : Int), j ≤ m → m < j + answers.length →
      ∃ pre post, (loopShape answers j i).1 = pre ++ (Kind.get, m) :: post := by
  induction answers with
  | nil => intro j i m h1 h2; simp at h2; omega
  | cons b bs ih =>
    intro j i m h1 h2
    simp only [List.length_cons] at h2
    by_cases hm : m = j
    · subst hm
      cases b
      · exact ⟨[], (loopShape bs (m + 1) i).1, rfl⟩
      · exact ⟨[], swapShape (i + 1) m ++ (loopShape bs (m + 1) (i + 1)).1, rfl⟩
    · cases b
      · obtain ⟨pre, post, he⟩ := ih (j + 1) i m (by omega) (by push_cast at h2 ⊢; omega)
        exact ⟨(Kind.get, j) :: pre, post, by simp only [loopShape, he, List.cons_append]⟩
      · obtain ⟨pre, post, he⟩ := ih (j + 1) (i + 1) m (by omega) (by push_cast at h2 ⊢; omega)
        exact ⟨(Kind.get, j) :: (swapShape (i + 1) j ++ pre), post,
          by simp only [loopShape, he, List.cons_append, List.append_assoc]⟩

/-! ### Successful calls address existing positions, for `QuickSort` -/

theorem Partition_ext (h : Host) (cmp : Variant → Variant → Int) (w : World)
    (dg ds low high : Int) :
    Grows (fun _ => True) w (Partition h cmp w dg ds low high).2 := by
  rw [Partition_eq h cmp w dg ds low high _ rfl]
  obtain ⟨c, hc, -⟩ :=
    InvokeGet_log h w dg high (VariantInit (h.uninit w.log.length Slot.pivot))
  have hg : Grows (fun _ => True) w
      (InvokeGet h w dg high (VariantInit (h.uninit w.log.length Slot.pivot))).2.2 :=
    ⟨[c], hc, fun _ _ => trivial⟩
  exact hg.trans ((PartitionLoop_ext h cmp dg ds high _ _ _ _ _ _).trans
    ((SwapElements_grows h _ dg ds _ high).1.mono (fun _ _ => trivial)))

/-- When every call of `QuickSort(low, high)` with `low < high` succeeds, the range
lies inside the collection. -/
theorem QuickSort_range_of_ok (h : Host) (cmp : Variant → Variant → Int) (dg ds : Int)
    (fuel : Nat) (low high : Int) (w w' : World) (n : Nat) (hlo : -2147483648 ≤ low)
    (hhi : high ≤ 2147483647) (hlh : low < high) (hn : n ≤ w.log.length)
    (hq : QuickSort h cmp dg ds fuel low high w = some w') (hok : okFrom n w') :
    0 ≤ low ∧ high < 2147483647 ∧ high.toNat < w.items.length := by
  cases fuel with
  | zero => simp [QuickSort] at hq
  | succ fuel =>
    rw [QuickSort_succ _ _ _ _ _ _ _ _ hlh] at hq
    obtain ⟨w1, h1, h2⟩ := Option.bind_eq_some.mp hq
    have g1 := QuickSort_ext _ _ _ _ _ _ _ _ _ h1
    have g2 := QuickSort_ext _ _ _ _ _ _ _ _ _ h2
    have gp := Partition_ext h cmp w dg ds low high
    have hnp : n ≤ (Partition h cmp w dg ds low high).2.log.length :=
      le_trans hn gp.length_le
    have hn1 : n ≤ w1.log.length := le_trans hnp g1.length_le
    have ok1 : okFrom n w1 := okFrom_of_grows g2 hn1 hok
    have okp : okFrom n (Partition h cmp w dg ds low high).2 := okFrom_of_grows g1 hnp ok1
    obtain ⟨a, b, pv, hpv, -⟩ :=
      Partition_range_of_ok h cmp w dg ds low high n hlo hhi (by omega) hn okp
    exact ⟨a, b, (List.getElem?_eq_some_iff.mp hpv).1⟩

/-! ### Values with the same tag and 64-bit field -/

theorem key_vt {a b : Variant} (hk : key a = key b) : a.vt = b.vt := by
  show (key a).vt = (key b).vt
  rw [hk]

theorem key_llVal {a b : Variant} (hk : key a = key b) : a.llVal = b.llVal := by
  show (key a).llVal = (key b).llVal
  rw [hk]

/-- For a kind whose payload fits in the 64-bit field, the same tag and 64-bit field
make the same value. -/
theorem same_of_key {a b : Variant} (hb : wide b.vt = false) (hk : key a = key b) :
    same a b := by
  refine ⟨key_vt hk, key_llVal hk, fun hw => ?_⟩
  rw [key_vt hk, hb] at hw
  cases hw

theorem forall2_same_of_keyEq : ∀ (A B : List Variant), KeyEq A B →
    (∀ v ∈ B, wide v.vt = false) → List.Forall₂ same A B := by
  intro A
  induction A with
  | nil =>
    intro B hk _
    cases B with
    | nil => exact List.Forall₂.nil
    | cons b B => simp [KeyEq] at hk
  | cons a A ih =>
    intro B hk hB
    cases B with
    | nil => simp [KeyEq] at hk
    | cons b B =>
      simp only [KeyEq, List.map_cons, List.cons.injEq] at hk
      exact List.Forall₂.cons (same_of_key (hB b (List.mem_cons_self _ _)) hk.1)
        (ih B hk.2 (fun v hv => hB v (List.mem_cons_of_mem _ hv)))

/-- A rearrangement of the tags and 64-bit fields is a rearrangement of the elements,
up to the other bytes. -/
theorem exists_perm_of_keys : ∀ (l1 l2 : List Variant), (l1.map key).Perm (l2.map key) →
    ∃ l, l.Perm l2 ∧ KeyEq l1 l := by
  intro l1
  induction l1 with
  | nil =>
    intro l2 hp
    have h2 : l2.map key = [] := List.nil_perm.mp hp
    have h3 : l2 = [] := List.map_eq_nil_iff.mp h2
    subst h3
    exact ⟨[], List.Perm.refl _, rfl⟩
  | cons a l1 ih =>
    intro l2 hp
    have hm : key a ∈ l2.map key := hp.mem_iff.mp (by simp)
    obtain ⟨b, hb, hkb⟩ := List.mem_map.mp hm
    have hp2 : (l2.map key).Perm (key b :: (l2.erase b).map key) :=
      (List.perm_cons_erase hb).map key
    have hp3 : (key a :: l1.map key).Perm (key a :: (l2.erase b).map key) := by
      rw [hkb] at hp2
      exact hp.trans hp2
    obtain ⟨l, hl, hk⟩ := ih (l2.erase b) hp3.cons_inv
    refine ⟨b :: l, (hl.cons b).trans (List.perm_cons_erase hb).symm, ?_⟩
    unfold KeyEq at hk ⊢
    rw [List.map_cons, List.map_cons, hk, hkb]

/-! ### A call that is read again after it failed -/

/-- Whatever fails, `QuickSort` on a range of more than one index reads every index
of the range below `high`, and goes on after it. -/
theorem QuickSort_reads (h : Host) (cmp : Variant → Variant → Int) (dg ds : Int) (fuel : Nat)
    (low high m : Int) (w w' : World) (hlow : -2147483648 < low) (hhigh : high < 2147483647)
    (hlm : low ≤ m) (hmh : m < high)
    (hq : QuickSort h cmp dg ds fuel low high w = some w') :
    ∃ (ta : List Call) (c : Call) (tb : List Call), w'.log = w.log ++ (ta ++ c :: tb)
      ∧ c.kind = Kind.get ∧ c.index = m ∧ ∃ c', c' ∈ tb ∧ c'.kind = Kind.set := by
  obtain ⟨t, ht, hf⟩ := QuickSort_flow h cmp dg ds fuel low high w w' hlow hhigh hq
  generalize hst : t.map Call.shape = s at hf
  cases hf with
  | leaf _ _ hle => omega
  | node _ _ bs t1 t2 _ hb f1 f2 =>
    obtain ⟨pre, post, hv⟩ := loopShape_visits bs low (low - 1) m hlm (by rw [hb]; omega)
    have e : t.map Call.shape = ((Kind.get, high) :: pre)
        ++ ((Kind.get, m) :: (post ++ swapShape (pivotOf low bs) high ++ (t1 ++ t2))) := by
      rw [hst, partitionShape, hv]
      simp [List.append_assoc]
    obtain ⟨ta, tb0, hsplit, -, htb⟩ := List.map_eq_append_iff.mp e
    obtain ⟨c, tb, hcons, hc, htail⟩ := List.map_eq_cons_iff.mp htb
    have e2 : tb.map Call.shape = (post ++ [(Kind.get, pivotOf low bs), (Kind.get, high),
        (Kind.set, pivotOf low bs)]) ++ ((Kind.set, high) :: (t1 ++ t2)) := by
      rw [htail, swapShape]
      simp [List.append_assoc]
    obtain ⟨tc, td0, hsplit2, -, htd⟩ := List.map_eq_append_iff.mp e2
    obtain ⟨c', td, hcons2, hc', -⟩ := List.map_eq_cons_iff.mp htd
    simp only [Call.shape, Prod.mk.injEq] at hc hc'
    refine ⟨ta, c, tb, by rw [ht, hsplit, hcons], hc.1, hc.2, c', ?_, hc'.1⟩
    rw [hsplit2, hcons2]
    simp

/-! ### Facts about the concrete comparators -/

theorem numAsc_swo : StrictWeakOrder numAsc where
  sign := by intro a b; simp only [numAsc]; split_ifs <;> omega
  trans := by
    intro a b c h1 h2
    simp only [numAsc] at h1 h2 ⊢
    split_ifs at h1 h2 ⊢ <;> omega
  equiv := by
    intro a b c h1 h2
    simp only [numAsc] at h1 h2 ⊢
    split_ifs at h1 h2 ⊢ <;> omega

theorem wideAsc_swo : StrictWeakOrder wideAsc where
  sign := by intro a b; simp only [wideAsc]; split_ifs <;> omega
  trans := by
    intro a b c h1 h2
    simp only [wideAsc] at h1 h2 ⊢
    split_ifs at h1 h2 ⊢ <;> omega
  equiv := by
    intro a b c h1 h2
    simp only [wideAsc] at h1 h2 ⊢
    split_ifs at h1 h2 ⊢ <;> omega

/-- The numeric comparator reads the 64-bit field only. -/
theorem numAsc_determined (l : List Variant) : Determined numAsc l := by
  intro a b a' b' _ _ ha hb
  simp only [numAsc, key_llVal ha, key_llVal hb]

/-! ## The claims -/

/-- Counterexample to C1 as stated: four decimals, whose payload is wider than the
64-bit field that `InvokeSet` copies, under a strict weak ordering that looks at every
byte. The collection behaves as an array, every get and set call succeeds, `sort`
returns 0, and afterwards the element at 2 is greater than the element at 3. -/
theorem sort_unordered_on_wide_values :
    StrictWeakOrder wideAsc
      ∧ ∃ w', sort 5 (bound okHost) 4 wideAsc decimals4 = some (0, w') ∧ okFrom 0 w'
        ∧ ∃ x y, w'.items[2]? = some x ∧ w'.items[3]? = some y ∧ 0 < wideAsc x y :=
  ⟨wideAsc_swo,
    ⟨[⟨VT_DECIMAL, 0, 0⟩, ⟨VT_DECIMAL, 1, 0⟩, ⟨VT_DECIMAL, 5, 0⟩, ⟨VT_DECIMAL, 0, 0⟩],
      (sort 5 (bound okHost) 4 wideAsc decimals4).elim [] (fun r => r.2.log), 5⟩,
    by decide, by decide, ⟨VT_DECIMAL, 5, 0⟩, ⟨VT_DECIMAL, 0, 0⟩, by decide, by decide,
    by decide⟩

/-- C1 (ordering), amended. For every length `n ≤ 2^31 - 1`, every bound collection
and every comparator that is a strict weak ordering and tells the elements of the
collection apart by their tag and their 64-bit field only, `sort` returns 0, and when
the get and set calls it made all succeeded, the collection has kept its length, holds
at `[0, n)` the tags and 64-bit fields it held there before, rearranged, and satisfies
`comparator (element i) (element j) ≤ 0` for all `i < j` in `[0, n)`, all of which are
positions of the collection. -/
theorem sort_ordering (h : Host) (cmp : Variant → Variant → Int) (w : World) (n fuel : Nat)
    (dg ds : Int) (hget : h.names "Get" = some dg) (hset : h.names "__Item" = some ds)
    (hn : n ≤ 2147483647) (hfuel : n < fuel) (hcmp : StrictWeakOrder cmp)
    (hdet : Determined cmp w.items) :
    ∃ w', sort fuel (bound h) n cmp w = some (0, w')
      ∧ (okFrom w.log.length w' →
          w'.items.length = w.items.length
          ∧ (2 ≤ n → n ≤ w'.items.length)
          ∧ ((w'.items.take n).map key).Perm ((w.items.take n).map key)
          ∧ List.Pairwise (fun a b => cmp a b ≤ 0) (w'.items.take n)) := by
  obtain ⟨w', hq⟩ := QuickSort_total h cmp dg ds fuel 0 ((n : Int) - 1) w (by omega) (by omega)
    (by omega)
  have hs : sort fuel (bound h) n cmp w = some (0, w') := by
    rw [sort_bound h cmp w n fuel dg ds hget hset, high_of_len hn, hq]
    rfl
  refine ⟨w', hs, fun hok => ?_⟩
  obtain ⟨-, hlen, hp, -, hsrt⟩ :=
    sort_good h cmp w w' n fuel dg ds 0 hget hset (by omega) hs hok
  refine ⟨hlen, fun h2 => ?_, hp, hsrt hcmp hdet (by omega)⟩
  obtain ⟨-, -, hr⟩ := QuickSort_range_of_ok h cmp dg ds fuel 0 ((n : Int) - 1) w w' _
    (by omega) (by omega) (by omega) (le_refl _) hq hok
  omega

set_option maxRecDepth 8000 in
/-- Witness of C1 amended: `[5, 3, 8, 1, 9, 2]` under the numeric ascending comparator,
on a host whose stack holds something else in every local: the tags and 64-bit fields
become those of `[1, 2, 3, 5, 8, 9]`, every call succeeds, and the result is in
order. -/
theorem sort_ordering_witness :
    ∃ w', sort 7 (bound residueHost) 6 numAsc (ints [5, 3, 8, 1, 9, 2]) = some (0, w')
      ∧ w'.items.map key = (ints [1, 2, 3, 5, 8, 9]).items ∧ okFrom 0 w'
      ∧ w'.items.length = 6
      ∧ List.Pairwise (fun a b => numAsc a b ≤ 0) (w'.items.take 6) := by
  obtain ⟨w', hs, hp⟩ := sort_ordering residueHost numAsc (ints [5, 3, 8, 1, 9, 2]) 6 7 1 2
    (by decide) (by decide) (by decide) (by decide) numAsc_swo (numAsc_determined _)
  have hv : (sort 7 (bound residueHost) 6 numAsc (ints [5, 3, 8, 1, 9, 2])).map
      (fun r => (r.2.items.map key, decide (okFrom 0 r.2)))
      = some ((ints [1, 2, 3, 5, 8, 9]).items, true) := by decide
  rw [hs] at hv
  simp only [Option.map_some', Option.some.injEq, Prod.mk.injEq, decide_eq_true_eq] at hv
  exact ⟨w', hs, hv.1, hv.2, (hp hv.2).1, (hp hv.2).2.2.2⟩

/-- Counterexample to C2 as stated: two decimals, whose payload is wider than the
64-bit field that `InvokeSet` copies (their other bytes are 1, the bytes of `args[0]`
that `InvokeSet` leaves unassigned are 0); every get and set call succeeds, `sort`
returns 0, and the elements afterwards are not a rearrangement of the elements
before. -/
theorem sort_permutation_fails_on_wide_values :
    ∃ w', sort 3 (bound okHost) 2 wideAsc decimals = some (0, w')
      ∧ okFrom decimals.log.length w'
      ∧ ¬ (w'.items.take 2).Perm (decimals.items.take 2) :=
  ⟨⟨[⟨VT_DECIMAL, 1, 0⟩, ⟨VT_DECIMAL, 2, 0⟩],
    (sort 3 (bound okHost) 2 wideAsc decimals).elim [] (fun r => r.2.log), 1⟩,
    by decide, by decide, by decide⟩

/-- C2 (permutation), amended. For every 32-bit length `n`, every bound collection and
every comparator whatsoever: when `sort` returns and the get and set calls it made all
succeeded, the tags and 64-bit fields of the elements at `[0, n)` afterwards are a
rearrangement of those before, and when the payload of every element there lies in its
64-bit field, the elements afterwards are a rearrangement of the elements before (as
values: the bytes of a variant that are padding for its kind do not count). For
`n ≤ 2^31 - 1` `sort` does return, with 0. -/
theorem sort_permutation (h : Host) (cmp : Variant → Variant → Int) (w : World) (n fuel : Nat)
    (dg ds : Int) (hget : h.names "Get" = some dg) (hset : h.names "__Item" = some ds)
    (hn : n < 4294967296) :
    (n ≤ 2147483647 → n < fuel → ∃ w', sort fuel (bound h) n cmp w = some (0, w'))
      ∧ ∀ (r : Int) (w' : World), sort fuel (bound h) n cmp w = some (r, w') →
          okFrom w.log.length w' →
          ((w'.items.take n).map key).Perm ((w.items.take n).map key)
          ∧ ((∀ v ∈ w.items.take n, wide v.vt = false) →
              ∃ l, l.Perm (w.items.take n) ∧ List.Forall₂ same (w'.items.take n) l) := by
  refine ⟨fun hn2 hfuel => ?_, fun r w' hs hok => ?_⟩
  · obtain ⟨w', hq⟩ := QuickSort_total h cmp dg ds fuel 0 ((n : Int) - 1) w (by omega)
      (by omega) (by omega)
    refine ⟨w', ?_⟩
    rw [sort_bound h cmp w n fuel dg ds hget hset, high_of_len hn2, hq]
    rfl
  · obtain ⟨-, -, hp, -, -⟩ := sort_good h cmp w w' n fuel dg ds r hget hset hn hs hok
    refine ⟨hp, fun hnar => ?_⟩
    obtain ⟨l, hl, hk⟩ := exists_perm_of_keys _ _ hp
    exact ⟨l, hl, forall2_same_of_keyEq _ _ hk (fun v hv => hnar v (hl.mem_iff.mp hv))⟩

set_option maxRecDepth 8000 in
/-- Witness of C2 amended: on `[3, 1, 2]` with a comparator that is not an ordering (it
always answers "less"), on a host whose stack holds something else in every local,
the result is a rearrangement of the input. -/
theorem sort_permutation_witness :
    ∃ w', sort 4 (bound residueHost) 3 (fun _ _ => -1) (ints [3, 1, 2]) = some (0, w')
      ∧ ((w'.items.take 3).map key).Perm (((ints [3, 1, 2]).items.take 3).map key)
      ∧ ∃ l, l.Perm ((ints [3, 1, 2]).items.take 3) ∧ List.Forall₂ same (w'.items.take 3) l := by
  have hp := sort_permutation residueHost (fun _ _ => -1) (ints [3, 1, 2]) 3 4 1 2
    (by decide) (by decide) (by decide)
  obtain ⟨w', hs⟩ := hp.1 (by decide) (by decide)
  have hv : (sort 4 (bound residueHost) 3 (fun _ _ => -1) (ints [3, 1, 2])).map
      (fun r => decide (okFrom 0 r.2)) = some true := by decide
  rw [hs] at hv
  simp only [Option.map_some', Option.some.injEq, decide_eq_true_eq] at hv
  exact ⟨w', hs, (hp.2 0 w' hs hv).1, (hp.2 0 w' hs hv).2 (by decide)⟩

/-- Counterexample to C3 as stated (scenario E): on a 5-element sequence whose get at
index 2 fails, some adapter call fails and `sort` still returns the success value 0. -/
theorem sort_returns_zero_on_failure :
    (sort 6 (bound failHost) 5 numAsc (ints [4, 2, 5, 1, 3])).map
      (fun r => (r.1, r.2.log.any (fun c => decide (c.kind = Kind.get ∧ c.index = 2) && !c.ok)))
      = some (0, true) := by
  decide

/-- C3 (error propagation, return value), amended. The engine does not report the
failure of a get or set call: for every bound collection, every length `n ≤ 2^31 - 1`
and every comparator, whatever calls fail, `sort` returns 0; and whenever `sort`
returns after a call failed, for any length, the value returned is 0. -/
theorem sort_ignores_failures (h : Host) (cmp : Variant → Variant → Int) (w : World)
    (n fuel : Nat) (dg ds : Int) (hget : h.names "Get" = some dg)
    (hset : h.names "__Item" = some ds) :
    (n ≤ 2147483647 → n < fuel → ∃ w', sort fuel (bound h) n cmp w = some (0, w'))
      ∧ ∀ (r : Int) (w' : World), sort fuel (bound h) n cmp w = some (r, w') →
          ¬ okFrom w.log.length w' → r = 0 := by
  refine ⟨fun hn hfuel => ?_, fun r w' hs _ => ?_⟩
  · obtain ⟨w', hq⟩ := QuickSort_total h cmp dg ds fuel 0 ((n : Int) - 1) w (by omega)
      (by omega) (by omega)
    refine ⟨w', ?_⟩
    rw [sort_bound h cmp w n fuel dg ds hget hset, high_of_len hn, hq]
    rfl
  · rw [sort_bound h cmp w n fuel dg ds hget hset] at hs
    obtain ⟨w1, -, he⟩ := Option.map_eq_some'.mp hs
    simp only [Prod.mk.injEq] at he
    exact he.1.symm

/-- Witness of C3 amended: scenario E returns 0 although a call failed. -/
theorem sort_ignores_failures_witness :
    ∃ w', sort 6 (bound failHost) 5 numAsc (ints [4, 2, 5, 1, 3]) = some (0, w')
      ∧ ¬ okFrom 0 w' := by
  have hp := sort_ignores_failures failHost numAsc (ints [4, 2, 5, 1, 3]) 5 6 1 2
    (by decide) (by decide)
  obtain ⟨w', hs⟩ := hp.1 (by decide) (by decide)
  have hv : (sort 6 (bound failHost) 5 numAsc (ints [4, 2, 5, 1, 3])).map
      (fun r => decide (okFrom 0 r.2)) = some false := by decide
  rw [hs] at hv
  simp only [Option.map_some', Option.some.injEq, decide_eq_false_iff_not] at hv
  exact ⟨w', hs, hv⟩

/-- Scenario E on any stack: on a 5-element sequence whose get at index 2 fails,
whatever the stack holds in the locals that are left unassigned, `sort` returns 0 and
the trace does not end at the failing call: a get at index 2 is made, it fails, and a
set call is made after it. -/
theorem scenarioE_any_stack :
    ∀ u : Nat → Slot → Variant,
      ∃ (w' : World) (ta : List Call) (c : Call) (tb : List Call),
        sort 6 (bound (failHostWith u)) 5 numAsc (ints [4, 2, 5, 1, 3]) = some (0, w')
        ∧ w'.log = ta ++ c :: tb ∧ c.kind = Kind.get ∧ c.index = 2 ∧ c.ok = false
        ∧ ∃ c', c' ∈ tb ∧ c'.kind = Kind.set := by
  intro u
  obtain ⟨w', hq⟩ := QuickSort_total (failHostWith u) numAsc 1 2 6 0 4 (ints [4, 2, 5, 1, 3])
    (by decide) (by decide) (by decide)
  have hs : sort 6 (bound (failHostWith u)) 5 numAsc (ints [4, 2, 5, 1, 3]) = some (0, w') := by
    rw [sort_bound (failHostWith u) numAsc _ 5 6 1 2 rfl rfl]
    have e : toInt32 ((5 % 4294967296 + 4294967295) % 4294967296) = 4 := by decide
    rw [e, hq]
    rfl
  obtain ⟨ta, c, tb, hl, hk, hi, hset⟩ := QuickSort_reads (failHostWith u) numAsc 1 2 6 0 4 2
    _ w' (by decide) (by decide) (by decide) (by decide) hq
  have hg := (QuickSort_each (failHostWith u) numAsc 1 2 _
    (fun w i r => InvokeGet_rejected _ w 1 i r)
    (fun w i v => InvokeSet_rejected _ w 2 i v) 6 0 4 _ w' hq).and
    (QuickSort_args (failHostWith u) numAsc 1 2 6 0 4 _ w' hq)
  obtain ⟨t, ht, hP⟩ := hg
  have ht2 : t = ta ++ c :: tb := List.append_cancel_left (ht.symm.trans hl)
  obtain ⟨hrej, harg⟩ := hP c (by rw [ht2]; simp)
  refine ⟨w', ta, c, tb, hs, by rw [hl]; rfl, hk, hi, ?_, hset⟩
  cases hok : c.ok with
  | false => rfl
  | true =>
    obtain ⟨n, hn⟩ := hrej hok
    rw [hk, harg, hi] at hn
    have e3 : wrap32 (2 + 1) = 3 := by decide
    rw [e3] at hn
    simp [failHostWith] at hn

/-- C5 (termination for any comparator). For every length `n ≤ 2^31 - 1`, every
collection (failing or not) and every comparator, `QuickSort(0, n - 1)` returns once
the fuel exceeds `n`; and `Partition(low, high)` with `low < high` returns an index
`p` with `low ≤ p ≤ high`, so both ranges `[low, p - 1]` and `[p + 1, high]` are
strictly shorter than `[low, high]`. -/
theorem QuickSort_terminates (h : Host) (cmp : Variant → Variant → Int) (dg ds : Int)
    (w : World) (n fuel : Nat) (low high : Int) (hn : n ≤ 2147483647) (hfuel : n < fuel)
    (hlow : -2147483648 < low) (hhigh : high ≤ 2147483647) (hlt : low < high) :
    (∃ w', QuickSort h cmp dg ds fuel 0 ((n : Int) - 1) w = some w')
      ∧ low ≤ (Partition h cmp w dg ds low high).1
      ∧ (Partition h cmp w dg ds low high).1 ≤ high
      ∧ ((Partition h cmp w dg ds low high).1 - 1) - low < high - low
      ∧ high - ((Partition h cmp w dg ds low high).1 + 1) < high - low := by
  obtain ⟨p1, p2, -⟩ := Partition_any h cmp w dg ds low high hlow hhigh (by omega)
  exact ⟨QuickSort_total h cmp dg ds fuel 0 ((n : Int) - 1) w (by omega) (by omega) (by omega),
    p1, p2, by omega, by omega⟩

/-- Witness of C5: a comparator that always answers "less", on a host whose get at
index 2 fails. -/
theorem QuickSort_terminates_witness :
    (∃ w', QuickSort failHost (fun _ _ => -1) 1 2 6 0 (((5 : Nat) : Int) - 1)
        (ints [4, 2, 5, 1, 3]) = some w')
      ∧ 0 ≤ (Partition failHost (fun _ _ => -1) (ints [4, 2, 5, 1, 3]) 1 2 0 4).1
      ∧ (Partition failHost (fun _ _ => -1) (ints [4, 2, 5, 1, 3]) 1 2 0 4).1 ≤ 4
      ∧ ((Partition failHost (fun _ _ => -1) (ints [4, 2, 5, 1, 3]) 1 2 0 4).1 - 1) - 0 < 4 - 0
      ∧ 4 - ((Partition failHost (fun _ _ => -1) (ints [4, 2, 5, 1, 3]) 1 2 0 4).1 + 1)
          < 4 - 0 :=
  QuickSort_terminates failHost (fun _ _ => -1) 1 2 (ints [4, 2, 5, 1, 3]) 5 6 0 4
    (by decide) (by decide) (by decide) (by decide) (by decide)

/-- C6 (trivial ranges). For length 0 and for length 1, on a bound collection, `sort`
returns 0 and hands back the world it was given: the trace of get and set calls, the
count of comparator calls and the collection are all unchanged.  For length 0 the
unsigned `dwLen - 1` is `2^32 - 1`, which is `high = -1` as an `int`. -/
theorem sort_trivial (h : Host) (cmp : Variant → Variant → Int) (w : World) (fuel : Nat)
    (dg ds : Int) (hget : h.names "Get" = some dg) (hset : h.names "__Item" = some ds) :
    sort (fuel + 1) (bound h) 0 cmp w = some (0, w)
      ∧ sort (fuel + 1) (bound h) 1 cmp w = some (0, w)
      ∧ toInt32 ((0 % 4294967296 + 4294967295) % 4294967296) = -1 := by
  refine ⟨?_, ?_, by decide⟩
  · rw [sort_bound h cmp w 0 (fuel + 1) dg ds hget hset, high_of_len (by omega),
      QuickSort_base _ _ _ _ _ _ _ _ (by omega)]
    rfl
  · rw [sort_bound h cmp w 1 (fuel + 1) dg ds hget hset, high_of_len (by omega),
      QuickSort_base _ _ _ _ _ _ _ _ (by omega)]
    rfl

/-- Witness of C6: lengths 0 and 1 on `[7, 5]`, on a host that would reject calls. -/
theorem sort_trivial_witness :
    sort 1 (bound failHost) 0 numAsc (ints [7, 5]) = some (0, ints [7, 5])
      ∧ sort 1 (bound failHost) 1 numAsc (ints [7, 5]) = some (0, ints [7, 5])
      ∧ toInt32 ((0 % 4294967296 + 4294967295) % 4294967296) = -1 :=
  sort_trivial failHost numAsc (ints [7, 5]) 0 1 2 (by decide) (by decide)

/-- C7 (index bounds). For every length `n ≤ 2^31 - 1`, every bound collection and
every comparator, every zero-based index that `sort` passes to get or set lies in
`[0, n)`; and every index used inside `QuickSort(low, high)` or `Partition(low, high)`
lies in `[low, high]`. -/
theorem sort_index_bounds (h : Host) (cmp : Variant → Variant → Int) (w : World)
    (n fuel : Nat) (dg ds low high : Int) (hget : h.names "Get" = some dg)
    (hset : h.names "__Item" = some ds) (hn : n ≤ 2147483647) (hfuel : n < fuel)
    (hlow : -2147483648 < low) (hhigh : high < 2147483647)
    (hwidth : (high - low).toNat < fuel) :
    (∃ w' t, sort fuel (bound h) n cmp w = some (0, w') ∧ w'.log = w.log ++ t
        ∧ ∀ c ∈ t, 0 ≤ c.index ∧ c.index < n)
      ∧ (∃ w' t, QuickSort h cmp dg ds fuel low high w = some w' ∧ w'.log = w.log ++ t
          ∧ ∀ c ∈ t, low ≤ c.index ∧ c.index ≤ high)
      ∧ (low ≤ high → ∃ t, (Partition h cmp w dg ds low high).2.log = w.log ++ t
          ∧ ∀ c ∈ t, low ≤ c.index ∧ c.index ≤ high) := by
  refine ⟨?_, ?_, ?_⟩
  · obtain ⟨w', hq⟩ := QuickSort_total h cmp dg ds fuel 0 ((n : Int) - 1) w (by omega)
      (by omega) (by omega)
    obtain ⟨⟨t, ht, hP⟩, -⟩ := QuickSort_any h cmp dg ds fuel 0 ((n : Int) - 1) w w' (by omega)
      (by omega) hq
    refine ⟨w', t, ?_, ht, fun c hc => ?_⟩
    · rw [sort_bound h cmp w n fuel dg ds hget hset, high_of_len hn, hq]
      rfl
    · have := hP c hc
      omega
  · obtain ⟨w', hq⟩ := QuickSort_total h cmp dg ds fuel low high w hlow hhigh hwidth
    obtain ⟨⟨t, ht, hP⟩, -⟩ := QuickSort_any h cmp dg ds fuel low high w w' hlow hhigh hq
    exact ⟨w', t, hq, ht, hP⟩
  · intro hle
    exact (Partition_any h cmp w dg ds low high hlow (by omega) hle).2.2.1

/-- Witness of C7: scenario E, and the range `[1, 3]` of the same sequence. -/
theorem sort_index_bounds_witness :
    (∃ w' t, sort 6 (bound failHost) 5 numAsc (ints [4, 2, 5, 1, 3]) = some (0, w')
        ∧ w'.log = (ints [4, 2, 5, 1, 3]).log ++ t
        ∧ ∀ c ∈ t, 0 ≤ c.index ∧ c.index < (5 : Nat))
      ∧ (∃ w' t, QuickSort failHost numAsc 1 2 6 1 3 (ints [4, 2, 5, 1, 3]) = some w'
          ∧ w'.log = (ints [4, 2, 5, 1, 3]).log ++ t ∧ ∀ c ∈ t, 1 ≤ c.index ∧ c.index ≤ 3)
      ∧ ∃ t, (Partition failHost numAsc (ints [4, 2, 5, 1, 3]) 1 2 1 3).2.log
            = (ints [4, 2, 5, 1, 3]).log ++ t
          ∧ ∀ c ∈ t, 1 ≤ c.index ∧ c.index ≤ 3 :=
  have hw := sort_index_bounds failHost numAsc (ints [4, 2, 5, 1, 3]) 5 6 1 2 1 3 (by decide)
    (by decide) (by decide) (by decide) (by decide) (by decide) (by decide)
  ⟨hw.1, hw.2.1, hw.2.2 (by decide)⟩

/-- C8 (bind failure). If `pVariant` is null, is not tagged as an object reference,
holds a null reference, or the name of the getter or of the setter does not resolve,
`sort` returns a non-zero value and hands back the world it was given: no get call, no
set call and no comparator call is made and the collection is unchanged. -/
theorem sort_bind_failure (pVariant : Option VariantArg) (n fuel : Nat)
    (cmp : Variant → Variant → Int) (w : World)
    (hbad : pVariant = none ∨ ∃ v, pVariant = some v ∧ (v.vt ≠ VT_DISPATCH ∨ v.pdispVal = none
      ∨ ∃ h, v.pdispVal = some h ∧ (h.names "Get" = none ∨ h.names "__Item" = none))) :
    ∃ r, sort fuel pVariant n cmp w = some (r, w) ∧ r ≠ 0 := by
  rcases hbad with rfl | ⟨v, rfl, hv⟩
  · exact ⟨-1, rfl, by decide⟩
  · by_cases hvt : v.vt = VT_DISPATCH
    · rcases hv with hv | hv | ⟨h, hh, hnames⟩
      · exact absurd hvt hv
      · exact ⟨-1, by simp [sort, hvt, hv], by decide⟩
      · cases hg : h.names "Get" with
        | none => exact ⟨-2, by simp [sort, hvt, hh, hg], by decide⟩
        | some dg =>
          rcases hnames with hnames | hnames
          · rw [hg] at hnames
            cases hnames
          · exact ⟨-3, by simp [sort, hvt, hh, hg, hnames], by decide⟩
    · exact ⟨-1, by simp [sort, hvt], by decide⟩

/-- Witness of C8: a host on which `Get` does not resolve. -/
theorem sort_bind_failure_witness :
    ∃ r, sort 4 (bound unboundHost) 3 numAsc (ints [3, 1, 2]) = some (r, ints [3, 1, 2])
      ∧ r ≠ 0 :=
  sort_bind_failure (bound unboundHost) 3 4 numAsc (ints [3, 1, 2])
    (Or.inr ⟨⟨VT_DISPATCH, some unboundHost⟩, rfl,
      Or.inr (Or.inr ⟨unboundHost, rfl, Or.inl rfl⟩)⟩)

/-- Counterexample to C9 as stated: the length `2^32 - 1`, which is `-1` as a signed
32-bit integer, on a bound collection: `sort` returns the success value 0. -/
theorem sort_accepts_negative_length :
    sort 1 (bound okHost) 4294967295 numAsc (ints [3, 1, 2]) = some (0, ints [3, 1, 2]) := by
  decide

/-- C9 (invalid length), amended. No length is rejected: for every length argument
that is negative as a signed 32-bit integer (`2^31 ≤ dwLen < 2^32`), on a bound
collection, the only value `sort` can return is 0; and for `dwLen > 2^31` it does
return 0, at once, without any adapter or comparator call and with the collection
unchanged. -/
theorem sort_negative_length (h : Host) (cmp : Variant → Variant → Int) (w : World)
    (n fuel : Nat) (dg ds : Int) (hget : h.names "Get" = some dg)
    (hset : h.names "__Item" = some ds) (h1 : 2147483648 ≤ n) (h2 : n < 4294967296) :
    (∀ (r : Int) (w' : World), sort fuel (bound h) n cmp w = some (r, w') → r = 0)
      ∧ (2147483648 < n → sort (fuel + 1) (bound h) n cmp w = some (0, w)) := by
  refine ⟨fun r w' hs => ?_, fun h3 => ?_⟩
  · rw [sort_bound h cmp w n fuel dg ds hget hset] at hs
    obtain ⟨w1, -, he⟩ := Option.map_eq_some'.mp hs
    simp only [Prod.mk.injEq] at he
    exact he.1.symm
  · rw [sort_bound h cmp w n (fuel + 1) dg ds hget hset, high_of_len_neg h3 h2,
      QuickSort_base _ _ _ _ _ _ _ _ (by omega)]
    rfl

/-- Witness of C9 amended: the length `2^32 - 2`, which is `-2` as a signed integer. -/
theorem sort_negative_length_witness :
    sort (0 + 1) (bound okHost) 4294967294 numAsc (ints [3, 1, 2]) = some (0, ints [3, 1, 2]) :=
  (sort_negative_length okHost numAsc (ints [3, 1, 2]) 4294967294 0 1 2 (by decide) (by decide)
    (by decide) (by decide)).2 (by decide)

/-- Counterexample to C10 as stated: two decimals already in order under a strict weak
ordering that looks at every byte; every call succeeds, `sort` returns 0, and the value
at position 0 afterwards is not equivalent to the value that was there before. -/
theorem sorted_input_changes_wide_values :
    StrictWeakOrder wideAsc
      ∧ List.Pairwise (fun a b => wideAsc a b ≤ 0) (decimals.items.take 2)
      ∧ ∃ w', sort 3 (bound okHost) 2 wideAsc decimals = some (0, w') ∧ okFrom 0 w'
        ∧ ∃ x y, decimals.items[0]? = some x ∧ w'.items[0]? = some y ∧ wideAsc x y ≠ 0 :=
  ⟨wideAsc_swo, by decide,
    ⟨[⟨VT_DECIMAL, 1, 0⟩, ⟨VT_DECIMAL, 2, 0⟩],
      (sort 3 (bound okHost) 2 wideAsc decimals).elim [] (fun r => r.2.log), 1⟩,
    by decide, by decide, ⟨VT_DECIMAL, 1, 1⟩, ⟨VT_DECIMAL, 1, 0⟩, by decide, by decide,
    by decide⟩

/-- C10 (idempotence on sorted input), amended. For every bound collection, every
length `n ≤ 2^31 - 1` and every comparator that is a strict weak ordering, tells the
elements of the collection apart by their tag and 64-bit field only, and under which
the elements at `[0, n)` are already in order: `sort` returns 0, and when the get and
set calls it made all succeeded, the value at every position is equivalent under the
comparator to the value that was there before; when the comparator returns zero only
for elements of the collection with the same tag and 64-bit field, every position
holds the tag and the 64-bit field it held before. -/
theorem sort_sorted_input (h : Host) (cmp : Variant → Variant → Int) (w : World)
    (n fuel : Nat) (dg ds : Int) (hget : h.names "Get" = some dg)
    (hset : h.names "__Item" = some ds) (hn : n ≤ 2147483647) (hfuel : n < fuel)
    (hcmp : StrictWeakOrder cmp) (hdet : Determined cmp w.items)
    (hsorted : List.Pairwise (fun a b => cmp a b ≤ 0) (w.items.take n)) :
    ∃ w', sort fuel (bound h) n cmp w = some (0, w')
      ∧ (okFrom w.log.length w' →
          w'.items.length = w.items.length
          ∧ (∀ (k : Nat) (x y : Variant), w.items[k]? = some x → w'.items[k]? = some y →
              cmp x y = 0)
          ∧ ((∀ a ∈ w.items, ∀ b ∈ w.items, cmp a b = 0 → key a = key b) →
              KeyEq w'.items w.items)) := by
  obtain ⟨w', hq⟩ := QuickSort_total h cmp dg ds fuel 0 ((n : Int) - 1) w (by omega) (by omega)
    (by omega)
  have hs : sort fuel (bound h) n cmp w = some (0, w') := by
    rw [sort_bound h cmp w n fuel dg ds hget hset, high_of_len hn, hq]
    rfl
  refine ⟨w', hs, fun hok => ?_⟩
  obtain ⟨-, hlen, hp, hf, hsrt⟩ :=
    sort_good h cmp w w' n fuel dg ds 0 hget hset (by omega) hs hok
  have hsrt' := hsrt hcmp hdet (by omega)
  have hK : ∀ a ∈ w.items.take n, key a ∈ w.items.map key :=
    fun a ha => List.mem_map.mpr ⟨a, List.mem_of_mem_take ha, rfl⟩
  have hK' : ∀ a ∈ w'.items.take n, key a ∈ w.items.map key := by
    intro a ha
    have h1 : key a ∈ (w.items.take n).map key :=
      hp.mem_iff.mp (List.mem_map.mpr ⟨a, ha, rfl⟩)
    obtain ⟨b, hb, hkb⟩ := List.mem_map.mp h1
    rw [← hkb]
    exact hK b hb
  have hs1 : List.Pairwise (fun a b => cmp a b ≤ 0) ((w.items.take n).map key) := by
    rw [List.pairwise_map]
    refine hsorted.imp_of_mem ?_
    intro a b ha hb hab
    rw [hdet a b (key a) (key b) (hK a ha) (hK b hb) rfl rfl]
    exact hab
  have hs2 : List.Pairwise (fun a b => cmp a b ≤ 0) ((w'.items.take n).map key) := by
    rw [List.pairwise_map]
    refine hsrt'.imp_of_mem ?_
    intro a b ha hb hab
    rw [hdet a b (key a) (key b) (hK' a ha) (hK' b hb) rfl rfl]
    exact hab
  have heq : ∀ (k : Nat) (x y : Variant), w.items[k]? = some x → w'.items[k]? = some y →
      cmp x y = 0 := by
    intro k x y hx hy
    by_cases hk : k < n
    · have hx' : (w.items.take n)[k]? = some x := by rw [List.getElem?_take_of_lt hk]; exact hx
      have hy' : (w'.items.take n)[k]? = some y := by
        rw [List.getElem?_take_of_lt hk]; exact hy
      have hxm : ((w.items.take n).map key)[k]? = some (key x) := by
        rw [List.getElem?_map, hx']; rfl
      have hym : ((w'.items.take n).map key)[k]? = some (key y) := by
        rw [List.getElem?_map, hy']; rfl
      have h0 := sorted_perm_equiv hcmp hp hs1 hs2 hxm hym
      rw [← hdet x y (key x) (key y) (hK x (List.getElem?_mem hx'))
        (hK' y (List.getElem?_mem hy')) rfl rfl]
      exact h0
    · rw [hf k (by omega), hx] at hy
      cases hy
      have h1 := hcmp.irrefl x
      have h2 := hcmp.sign x x
      omega
  refine ⟨hlen, heq, fun hid => ?_⟩
  unfold KeyEq
  apply List.ext_getElem?
  intro k
  rw [List.getElem?_map, List.getElem?_map]
  by_cases hk : k < w.items.length
  · have hk' : k < w'.items.length := by omega
    have hx := List.getElem?_eq_getElem hk
    have hy := List.getElem?_eq_getElem hk'
    rw [hx, hy]
    simp only [Option.map_some', Option.some.injEq]
    by_cases hkn : k < n
    · have hy' : (w'.items.take n)[k]? = some w'.items[k] := by
        rw [List.getElem?_take_of_lt hkn]; exact hy
      obtain ⟨b, hb, hkb⟩ := List.mem_map.mp (hK' _ (List.getElem?_mem hy'))
      have h0 := heq k _ _ hx hy
      have h1 : cmp w.items[k] b = 0 := by
        rw [← hdet w.items[k] w'.items[k] w.items[k] b
          (List.mem_map.mpr ⟨_, List.getElem_mem hk, rfl⟩)
          (hK' _ (List.getElem?_mem hy')) rfl hkb] at h0
        exact h0
      rw [← hkb]
      exact (hid _ (List.getElem_mem hk) b hb h1).symm
    · have := hf k (by omega)
      rw [hx, hy] at this
      rw [Option.some.inj this]
  · rw [List.getElem?_eq_none (by omega), List.getElem?_eq_none (by omega)]

set_option maxRecDepth 8000 in
/-- Witness of C10 amended: `[1, 2, 3]` under the ascending comparator, on a host whose
stack holds something else in every local, keeps the tags and numbers of `[1, 2, 3]`. -/
theorem sort_sorted_input_witness :
    ∃ w', sort 4 (bound residueHost) 3 numAsc (ints [1, 2, 3]) = some (0, w') ∧ okFrom 0 w'
      ∧ KeyEq w'.items (ints [1, 2, 3]).items := by
  obtain ⟨w', hs, hp⟩ := sort_sorted_input residueHost numAsc (ints [1, 2, 3]) 3 4 1 2
    (by decide) (by decide) (by decide) (by decide) numAsc_swo (numAsc_determined _)
    (by decide)
  have hv : (sort 4 (bound residueHost) 3 numAsc (ints [1, 2, 3])).map
      (fun r => decide (okFrom 0 r.2)) = some true := by decide
  rw [hs] at hv
  simp only [Option.map_some', Option.some.injEq, decide_eq_true_eq] at hv
  have hid : ∀ a ∈ (ints [1, 2, 3]).items, ∀ b ∈ (ints [1, 2, 3]).items,
      numAsc a b = 0 → key a = key b := by decide
  exact ⟨w', hs, hv, (hp hv).2.2 hid⟩

/-- Counterexample to C11 as stated: `Partition(0, 1)` on two decimals, whose payload
is wider than the 64-bit field that `InvokeSet` copies; every call succeeds, the index
returned is 1, and the element at 1 afterwards is not the value that was at `high = 1`
before the call. -/
theorem Partition_changes_wide_pivot :
    okFrom 0 (Partition okHost wideAsc decimals 1 2 0 1).2
      ∧ (Partition okHost wideAsc decimals 1 2 0 1).1 = 1
      ∧ decimals.items[1]? = some ⟨VT_DECIMAL, 2, 1⟩
      ∧ (Partition okHost wideAsc decimals 1 2 0 1).2.items[1]? = some ⟨VT_DECIMAL, 2, 0⟩ := by
  decide

/-- C11 (Partition postcondition), amended. For every `low < high`, every collection
whose get and set calls succeed and every comparator that tells the elements of the
collection apart by their tag and 64-bit field only: after `Partition(low, high)`
returns `p`, `low ≤ p ≤ high`, the element `pv'` at `p` has the tag and the 64-bit
field of the value `pv` that was at `high` before the call (it is the same value when
the payload of `pv` lies in that field), every element at an index in `[low, p)`
satisfies `comparator(element, pivot) < 0`, and every element at an index in
`(p, high]` satisfies `comparator(element, pivot) ≥ 0`, for the pivot `pv` as for its
copy `pv'`. -/
theorem Partition_postcondition (h : Host) (cmp : Variant → Variant → Int) (w : World)
    (dg ds low high : Int) (hlo : -2147483648 ≤ low) (hhi : high ≤ 2147483647)
    (hlt : low < high) (hdet : Determined cmp w.items)
    (hok : okFrom w.log.length (Partition h cmp w dg ds low high).2) :
    ∃ pv pv', w.items[high.toNat]? = some pv
      ∧ low ≤ (Partition h cmp w dg ds low high).1
      ∧ (Partition h cmp w dg ds low high).1 ≤ high
      ∧ (Partition h cmp w dg ds low high).2.items.length = w.items.length
      ∧ (Partition h cmp w dg ds low high).2.items[(Partition h cmp w dg ds low high).1.toNat]?
          = some pv'
      ∧ key pv' = key pv ∧ (wide pv.vt = false → same pv' pv)
      ∧ (∀ (k : Nat) (v : Variant), low ≤ (k : Int) →
          (k : Int) < (Partition h cmp w dg ds low high).1 →
          (Partition h cmp w dg ds low high).2.items[k]? = some v →
          cmp v pv < 0 ∧ cmp v pv' < 0)
      ∧ (∀ (k : Nat) (v : Variant), (Partition h cmp w dg ds low high).1 < (k : Int) →
          (k : Int) ≤ high →
          (Partition h cmp w dg ds low high).2.items[k]? = some v →
          0 ≤ cmp v pv ∧ 0 ≤ cmp v pv') := by
  obtain ⟨hlow, -, -⟩ :=
    Partition_range_of_ok h cmp w dg ds low high _ hlo hhi (by omega) (le_refl _) hok
  obtain ⟨hp, -⟩ :=
    Partition_good h cmp w dg ds low high _ hlow (by omega) hhi (le_refl _) hok
  obtain ⟨pv, pv', h1, h2, hk, hcond⟩ := hp.pivot
  obtain ⟨h3, h4⟩ := hcond hdet
  have hpvK : key pv ∈ w.items.map key := mem_keys h1
  have hK : ∀ {k : Nat} {v : Variant},
      (Partition h cmp w dg ds low high).2.items[k]? = some v → key v ∈ w.items.map key :=
    fun hv => hp.perm.mem_iff.mp (mem_keys hv)
  refine ⟨pv, pv', h1, hp.plo, hp.phi, hp.len, h2, hk, fun hn => same_of_key hn hk,
    fun k v q1 q2 q3 => ?_, fun k v q1 q2 q3 => ?_⟩
  · have := h3 k v q1 q2 q3
    rw [hdet v pv v pv' (hK q3) hpvK rfl hk]
    exact ⟨this, this⟩
  · have := h4 k v q1 q2 q3
    rw [hdet v pv v pv' (hK q3) hpvK rfl hk]
    omega

/-- Witness of C11 amended: `Partition(0, 5)` on `[5, 3, 8, 1, 9, 2]`, on a host whose
stack holds something else in every local, puts the pivot 2 at index 1. -/
theorem Partition_postcondition_witness :
    ∃ pv pv', (ints [5, 3, 8, 1, 9, 2]).items[(5 : Int).toNat]? = some pv
      ∧ (Partition residueHost numAsc (ints [5, 3, 8, 1, 9, 2]) 1 2 0 5).1 = 1
      ∧ (Partition residueHost numAsc (ints [5, 3, 8, 1, 9, 2]) 1 2 0 5).2.items[
          (Partition residueHost numAsc (ints [5, 3, 8, 1, 9, 2]) 1 2 0 5).1.toNat]? = some pv'
      ∧ key pv' = key pv
      ∧ (∀ (k : Nat) (v : Variant), (0 : Int) ≤ (k : Int) →
          (k : Int) < (Partition residueHost numAsc (ints [5, 3, 8, 1, 9, 2]) 1 2 0 5).1 →
          (Partition residueHost numAsc (ints [5, 3, 8, 1, 9, 2]) 1 2 0 5).2.items[k]? = some v →
          numAsc v pv < 0 ∧ numAsc v pv' < 0) := by
  obtain ⟨pv, pv', h1, -, -, -, h5, h6, -, h7, -⟩ := Partition_postcondition residueHost numAsc
    (ints [5, 3, 8, 1, 9, 2]) 1 2 0 5 (by decide) (by decide) (by decide)
    (numAsc_determined _) (by decide)
  exact ⟨pv, pv', h1, by decide, h5, h6, h7⟩

/-- C12 (value returned by Partition). For every `low ≤ high`, every collection whose
get and set calls succeed and every comparator, `Partition(low, high)` returns
`low + k`, where `k` is the number of elements at the indices of `[low, high)`
before the call that satisfy `comparator(element, element(high)) < 0`; hence
`low ≤ result ≤ high`. -/
theorem Partition_returns_count (h : Host) (cmp : Variant → Variant → Int) (w : World)
    (dg ds low high : Int) (hlo : -2147483648 ≤ low) (hhi : high ≤ 2147483647)
    (hle : low ≤ high) (hok : okFrom w.log.length (Partition h cmp w dg ds low high).2) :
    ∃ pv, w.items[high.toNat]? = some pv
      ∧ (Partition h cmp w dg ds low high).1
          = low + List.countP (fun v => decide (cmp v pv < 0)) (slice w.items low (high - 1))
      ∧ low ≤ (Partition h cmp w dg ds low high).1
      ∧ (Partition h cmp w dg ds low high).1 ≤ high := by
  obtain ⟨pv, hpv, hlow, hc⟩ :=
    Partition_count h cmp w dg ds low high _ hlo hhi hle (le_refl _) hok
  obtain ⟨p1, p2, -⟩ := Partition_any h cmp w dg ds low high (by omega) hhi hle
  exact ⟨pv, hpv, hc, p1, p2⟩

/-- Witness of C12: on `[5, 3, 8, 1, 9, 2]` one element of `[0, 5)` is below the
pivot 2, and `Partition(0, 5)` returns `0 + 1`. -/
theorem Partition_returns_count_witness :
    ∃ pv, (ints [5, 3, 8, 1, 9, 2]).items[(5 : Int).toNat]? = some pv
      ∧ (Partition okHost numAsc (ints [5, 3, 8, 1, 9, 2]) 1 2 0 5).1
          = 0 + List.countP (fun v => decide (numAsc v pv < 0))
              (slice (ints [5, 3, 8, 1, 9, 2]).items 0 (5 - 1))
      ∧ (Partition okHost numAsc (ints [5, 3, 8, 1, 9, 2]) 1 2 0 5).1 = 1 := by
  obtain ⟨pv, h1, h2, -⟩ := Partition_returns_count okHost numAsc
    (ints [5, 3, 8, 1, 9, 2]) 1 2 0 5 (by decide) (by decide) (by decide) (by decide)
  exact ⟨pv, h1, h2, by decide⟩

/-- Counterexample to C13 as stated: on two decimals, whose payload is wider than the
64-bit field that `InvokeSet` copies, every call of a swap succeeds; after
`SwapElements(0, 1)` the element at 0 is not the old element at 1, and
`SwapElements(0, 0)` changes the collection. -/
theorem SwapElements_changes_wide_values :
    okFrom 0 (SwapElements okHost decimals 1 2 0 1)
      ∧ decimals.items[1]? = some ⟨VT_DECIMAL, 2, 1⟩
      ∧ (SwapElements okHost decimals 1 2 0 1).items[0]? = some ⟨VT_DECIMAL, 2, 0⟩
      ∧ okFrom 0 (SwapElements okHost decimals 1 2 0 0)
      ∧ (SwapElements okHost decimals 1 2 0 0).items ≠ decimals.items := by
  decide

/-- C13 (swap), amended. For every pair of indices `i` and `j` (including `i = j`) on a
collection whose get and set calls succeed, `SwapElements(i, j)` adds to the trace
exactly get(i), get(j), set(i, copy of the old element of `j`), set(j, copy of the
old element of `i`), where a copy has the tag and the 64-bit field of the original
and is the same value when the payload of the original lies in that field;
afterwards the element at `i` is a copy of the old element of `j`, the element at `j`
is the copy of the old element of `i`, every other position is unchanged, and for
`i = j` every position holds the tag and the 64-bit field it held before. -/
theorem SwapElements_swaps (h : Host) (w : World) (dg ds i j : Int)
    (hi1 : -2147483648 ≤ i) (hi2 : i ≤ 2147483647) (hj1 : -2147483648 ≤ j)
    (hj2 : j ≤ 2147483647)
    (hok : okFrom w.log.length (SwapElements h w dg ds i j)) :
    ∃ x y x' y', w.items[i.toNat]? = some x ∧ w.items[j.toNat]? = some y ∧ 0 ≤ i ∧ 0 ≤ j
      ∧ key x' = key x ∧ key y' = key y
      ∧ (wide x.vt = false → same x' x) ∧ (wide y.vt = false → same y' y)
      ∧ (SwapElements h w dg ds i j).log
          = w.log ++ [⟨Kind.get, i, i + 1, none, true⟩, ⟨Kind.get, j, j + 1, none, true⟩,
              ⟨Kind.set, i, i + 1, some y', true⟩, ⟨Kind.set, j, j + 1, some x', true⟩]
      ∧ (∃ u, (SwapElements h w dg ds i j).items[i.toNat]? = some u ∧ key u = key y)
      ∧ (SwapElements h w dg ds i j).items[j.toNat]? = some x'
      ∧ (∀ k : Nat, k ≠ i.toNat → k ≠ j.toNat →
          (SwapElements h w dg ds i j).items[k]? = w.items[k]?)
      ∧ KeyEq (SwapElements h w dg ds i j).items (swapAt w.items i.toNat j.toNat)
      ∧ (i = j → KeyEq (SwapElements h w dg ds i j).items w.items) := by
  obtain ⟨x, y, x', y', hx, hy, ex, ey, i0, -, j0, -, hs⟩ :=
    SwapElements_exact (le_refl _) hok hi1 hi2 hj1 hj2
  have kx : key x' = key x := by rw [ex]; rfl
  have ky : key y' = key y := by rw [ey]; rfl
  have hli := (List.getElem?_eq_some_iff.mp hx).1
  have hlj := (List.getElem?_eq_some_iff.mp hy).1
  have hitems : (SwapElements h w dg ds i j).items
      = (w.items.set i.toNat y').set j.toNat x' := by rw [hs]
  have hke : KeyEq (SwapElements h w dg ds i j).items (swapAt w.items i.toNat j.toNat) := by
    rw [hitems]
    exact set_set_keyEq hx hy kx ky
  refine ⟨x, y, x', y', hx, hy, i0, j0, kx, ky, fun hn => same_of_key hn kx,
    fun hn => same_of_key hn ky, by rw [hs], ?_, ?_, ?_, hke, ?_⟩
  · rw [hitems]
    by_cases hij : i.toNat = j.toNat
    · refine ⟨x', ?_, ?_⟩
      · rw [hij, List.getElem?_set_self (by simpa using hlj)]
      · rw [kx]
        have : some x = some y := by rw [← hx, ← hy, hij]
        rw [Option.some.inj this]
    · refine ⟨y', ?_, ky⟩
      rw [List.getElem?_set_ne (fun e => hij e.symm), List.getElem?_set_self hli]
  · rw [hitems, List.getElem?_set_self (by simpa using hlj)]
  · intro k hki hkj
    rw [hitems]
    exact set_set_frame _ _ _ _ _ k hki hkj
  · intro hij
    subst hij
    rw [swapAt_self hx] at hke
    exact hke

/-- Witness of C13 amended: `SwapElements(0, 2)` on `[3, 1, 2]`, on a host whose stack
holds something else in every local, gives the tags and numbers of `[2, 1, 3]`. -/
theorem SwapElements_swaps_witness :
    ∃ x y x' y', (ints [3, 1, 2]).items[(0 : Int).toNat]? = some x
      ∧ (ints [3, 1, 2]).items[(2 : Int).toNat]? = some y
      ∧ same x' x ∧ same y' y
      ∧ (SwapElements residueHost (ints [3, 1, 2]) 1 2 0 2).log
          = (ints [3, 1, 2]).log ++ [⟨Kind.get, 0, 0 + 1, none, true⟩,
              ⟨Kind.get, 2, 2 + 1, none, true⟩, ⟨Kind.set, 0, 0 + 1, some y', true⟩,
              ⟨Kind.set, 2, 2 + 1, some x', true⟩]
      ∧ KeyEq (SwapElements residueHost (ints [3, 1, 2]) 1 2 0 2).items
          (ints [2, 1, 3]).items := by
  obtain ⟨x, y, x', y', hx, hy, -, -, -, -, sx, sy, hl, -, -, -, hk, -⟩ :=
    SwapElements_swaps residueHost (ints [3, 1, 2]) 1 2 0 2
      (by decide) (by decide) (by decide) (by decide) (by decide)
  have ex : x = i4 3 := by
    have : some x = some (i4 3) := hx.symm.trans (by decide)
    exact Option.some.inj this
  have ey : y = i4 2 := by
    have : some y = some (i4 2) := hy.symm.trans (by decide)
    exact Option.some.inj this
  exact ⟨x, y, x', y', hx, hy, sx (by rw [ex]; decide), sy (by rw [ey]; decide), hl,
    by unfold KeyEq; decide⟩

/-! ### Index origin, comparator calls, stability, what `set` copies -/

theorem asc_of_pairwise_take {cmp : Variant → Variant → Int} {A : List Variant} {n : Nat}
    (hp : List.Pairwise (fun a b => cmp a b < 0) (A.take n)) :
    ∀ (a b : Nat) (x y : Variant), (0 : Int) ≤ (a : Int) → a < b → (b : Int) ≤ (n : Int) - 1 →
      A[a]? = some x → A[b]? = some y → cmp x y < 0 := by
  intro a b x y _ hab hb hx hy
  rw [List.pairwise_iff_getElem] at hp
  have hla := (List.getElem?_eq_some_iff.mp hx).1
  have hlb := (List.getElem?_eq_some_iff.mp hy).1
  have ha' : a < (A.take n).length := by rw [List.length_take]; omega
  have hb' : b < (A.take n).length := by rw [List.length_take]; omega
  have := hp a b ha' hb' hab
  rw [List.getElem_take, List.getElem_take] at this
  rw [List.getElem?_eq_getElem hla] at hx
  rw [List.getElem?_eq_getElem hlb] at hy
  cases hx
  cases hy
  exact this

/-- C14 (index-origin translation). For every zero-based index `i` with
`0 ≤ i < 2^31 - 1`, `InvokeGet(i)` is the call of the foreign getter with the integer
argument `i + 1`, and `InvokeSet(i, v)` the call of the foreign setter with index
argument `i + 1`; during `sort` of length `n ≤ 2^31 - 1` on a bound collection every
index argument handed to the foreign collection is the zero-based index plus one
and lies in `[1, n]`. -/
theorem index_origin_translation (h : Host) (cmp : Variant → Variant → Int) (w : World)
    (n fuel : Nat) (dg ds i : Int) (r v : Variant) (hget : h.names "Get" = some dg)
    (hset : h.names "__Item" = some ds) (hi0 : 0 ≤ i) (hi1 : i < 2147483647)
    (hn : n ≤ 2147483647) (hfuel : n < fuel) :
    (∀ x, h.foreignGet w dg (i + 1) = some x → InvokeGet h w dg i r
        = (S_OK, x, { w with log := w.log ++ [⟨Kind.get, i, i + 1, none, true⟩] }))
      ∧ (h.foreignGet w dg (i + 1) = none → InvokeGet h w dg i r
        = (E_FAIL, r, { w with log := w.log ++ [⟨Kind.get, i, i + 1, none, false⟩] }))
      ∧ (∀ l, h.foreignSet w ds (i + 1) (setArg (h.uninit w.log.length Slot.args0) v) = some l →
          InvokeSet h w ds i v
            = (S_OK, { w with
                items := l,
                log := w.log ++ [⟨Kind.set, i, i + 1,
                  some (setArg (h.uninit w.log.length Slot.args0) v), true⟩] }))
      ∧ (h.foreignSet w ds (i + 1) (setArg (h.uninit w.log.length Slot.args0) v) = none →
          InvokeSet h w ds i v
            = (E_FAIL, { w with
                log := w.log ++ [⟨Kind.set, i, i + 1,
                  some (setArg (h.uninit w.log.length Slot.args0) v), false⟩] }))
      ∧ ∃ w' t, sort fuel (bound h) n cmp w = some (0, w') ∧ w'.log = w.log ++ t
          ∧ ∀ c ∈ t, c.arg = c.index + 1 ∧ 1 ≤ c.arg ∧ c.arg ≤ n := by
  have hwi : wrap32 (i + 1) = i + 1 := wrap32_eq (by omega) (by omega)
  refine ⟨fun x hx => ?_, fun hx => ?_, fun l hx => ?_, fun hx => ?_, ?_⟩
  · rw [← hwi] at hx
    rw [InvokeGet_some r hx, hwi]
  · rw [← hwi] at hx
    rw [InvokeGet_none r hx, hwi]
  · rw [← hwi] at hx
    rw [InvokeSet_some hx, hwi]
  · rw [← hwi] at hx
    rw [InvokeSet_none hx, hwi]
  · obtain ⟨w', hq⟩ := QuickSort_total h cmp dg ds fuel 0 ((n : Int) - 1) w (by omega)
      (by omega) (by omega)
    obtain ⟨hg, -⟩ := QuickSort_any h cmp dg ds fuel 0 ((n : Int) - 1) w w' (by omega)
      (by omega) hq
    obtain ⟨t, ht, hP⟩ := hg.and (QuickSort_args h cmp dg ds fuel 0 ((n : Int) - 1) w w' hq)
    refine ⟨w', t, ?_, ht, fun c hc => ?_⟩
    · rw [sort_bound h cmp w n fuel dg ds hget hset, high_of_len hn, hq]
      rfl
    · obtain ⟨⟨c0, c1⟩, ca⟩ := hP c hc
      have hwc : wrap32 (c.index + 1) = c.index + 1 := wrap32_eq (by omega) (by omega)
      rw [hwc] at ca
      omega

/-- Witness of C14: index 2 of `[4, 2, 5, 1, 3]` is asked for with the argument 3, and
every index argument of the sort of the five elements lies in `[1, 5]`. -/
theorem index_origin_translation_witness :
    (InvokeGet okHost (ints [4, 2, 5, 1, 3]) 1 2 (i4 0)).2.2.log
        = [⟨Kind.get, 2, 3, none, true⟩]
      ∧ (InvokeSet okHost (ints [4, 2, 5, 1, 3]) 2 2 (i4 7)).2.log
        = [⟨Kind.set, 2, 3, some (i4 7), true⟩]
      ∧ ∃ w' t, sort 6 (bound okHost) 5 numAsc (ints [4, 2, 5, 1, 3]) = some (0, w')
          ∧ w'.log = (ints [4, 2, 5, 1, 3]).log ++ t
          ∧ ∀ c ∈ t, c.arg = c.index + 1 ∧ 1 ≤ c.arg ∧ c.arg ≤ (5 : Nat) :=
  have hw := index_origin_translation okHost numAsc (ints [4, 2, 5, 1, 3]) 5 6 1 2 2 (i4 0)
    (i4 7) (by decide) (by decide) (by decide) (by decide) (by decide) (by decide)
  ⟨by decide, by decide, hw.2.2.2.2⟩

/-- Counterexample to C15 as stated: four decimals, strictly ascending under a
comparator that looks at every byte; every call succeeds, `sort` returns 0, and the
comparator has been called 5 times, not `4 * 3 / 2 = 6`: the self-swaps of the first
`Partition` rewrite the elements, and the input is no longer ascending. -/
theorem sort_ascending_wide_values_five_calls :
    List.Pairwise (fun a b => wideAsc a b < 0) (decimals4.items.take 4)
      ∧ ∃ w', sort 5 (bound okHost) 4 wideAsc decimals4 = some (0, w') ∧ okFrom 0 w'
        ∧ w'.cmps = decimals4.cmps + 5 ∧ 4 * (4 - 1) / 2 = 6 :=
  ⟨by decide,
    (sort 5 (bound okHost) 4 wideAsc decimals4).elim decimals4 (fun r => r.2),
    by decide, by decide, by decide, by decide⟩

/-- C15 (quadratic worst case on sorted input), amended. For every length
`n ≤ 2^31 - 1`, every bound collection and every comparator, `sort` calls the
comparator at most `n(n-1)/2` times; when the get and set calls succeed, the
comparator tells the elements of the collection apart by their tag and 64-bit field
only, and the input is strictly ascending (`comparator(element(i), element(j)) < 0`
for all `i < j`), it calls the comparator exactly `n(n-1)/2` times. Each
`Partition(low, high)` makes exactly `high - low` comparator calls, and on a strictly
ascending range whose calls succeed it returns `high`. -/
theorem sort_comparator_calls (h : Host) (cmp : Variant → Variant → Int) (w : World)
    (n fuel : Nat) (dg ds : Int) (hget : h.names "Get" = some dg)
    (hset : h.names "__Item" = some ds) (hn : n ≤ 2147483647) (hfuel : n < fuel) :
    (∃ w' c, sort fuel (bound h) n cmp w = some (0, w') ∧ w'.cmps = w.cmps + c
        ∧ c ≤ n * (n - 1) / 2
        ∧ (okFrom w.log.length w' → Determined cmp w.items →
            List.Pairwise (fun a b => cmp a b < 0) (w.items.take n) →
            c = n * (n - 1) / 2))
      ∧ ∀ (u : World) (low high : Int), -2147483648 ≤ low → low ≤ high → high ≤ 2147483647 →
          (Partition h cmp u dg ds low high).2.cmps = u.cmps + (high - low).toNat
          ∧ (okFrom u.log.length (Partition h cmp u dg ds low high).2 →
              (∀ (a b : Nat) (x y : Variant), low ≤ (a : Int) → a < b → (b : Int) ≤ high →
                u.items[a]? = some x → u.items[b]? = some y → cmp x y < 0) →
              (Partition h cmp u dg ds low high).1 = high) := by
  refine ⟨?_, fun u low high hlo hle hhi => ⟨Partition_cmps h cmp u dg ds low high hlo hhi,
    fun hok hasc => ?_⟩⟩
  · obtain ⟨w', hq⟩ := QuickSort_total h cmp dg ds fuel 0 ((n : Int) - 1) w (by omega)
      (by omega) (by omega)
    obtain ⟨c, hc, hb⟩ := QuickSort_cmps_le h cmp dg ds fuel 0 ((n : Int) - 1) w w' (by omega)
      (by omega) hq
    have hnn : ((n : Int) - 1 - 0 + 1).toNat = n := by omega
    rw [hnn] at hb
    refine ⟨w', c, ?_, hc, ?_, fun hok hdet hp => ?_⟩
    · rw [sort_bound h cmp w n fuel dg ds hget hset, high_of_len hn, hq]
      rfl
    · generalize n * (n - 1) = m at hb ⊢
      omega
    · obtain ⟨-, c', hc', he⟩ := QuickSort_ascending h cmp dg ds w.log.length fuel 0
        ((n : Int) - 1) w w' (le_refl _) (by omega) (le_refl _) hdet (asc_of_pairwise_take hp)
        hq hok
      rw [hnn] at he
      have hcc : c = c' := by omega
      subst hcc
      generalize n * (n - 1) = m at he ⊢
      omega
  · obtain ⟨hlow, -, -⟩ :=
      Partition_range_of_ok h cmp u dg ds low high _ hlo hhi hle (le_refl _) hok
    exact (Partition_ascending h cmp u dg ds low high _ hlow hle hhi (le_refl _) hok
      hasc).1

set_option maxRecDepth 8000 in
/-- Witness of C15 amended: sorting `[1, 2, 3, 4]`, on a host whose stack holds
something else in every local, takes `4 * 3 / 2` comparator calls. -/
theorem sort_comparator_calls_witness :
    ∃ w', sort 5 (bound residueHost) 4 numAsc (ints [1, 2, 3, 4]) = some (0, w')
      ∧ okFrom 0 w' ∧ w'.cmps = (ints [1, 2, 3, 4]).cmps + 4 * (4 - 1) / 2 := by
  obtain ⟨w', c, hs, hc, -, he⟩ := (sort_comparator_calls residueHost numAsc
    (ints [1, 2, 3, 4]) 4 5 1 2 (by decide) (by decide) (by decide) (by decide)).1
  have hv : (sort 5 (bound residueHost) 4 numAsc (ints [1, 2, 3, 4])).map
      (fun r => decide (okFrom 0 r.2)) = some true := by decide
  rw [hs] at hv
  simp only [Option.map_some', Option.some.injEq, decide_eq_true_eq] at hv
  refine ⟨w', hs, hv, ?_⟩
  rw [hc, he hv (numAsc_determined _) (by decide)]

/-- C16 (not stable). The two-element sequence of the 32-bit integer 1 and the 64-bit
integer 1, two distinct elements for which the strict weak ordering `numAsc` (which
compares the integer field only) returns zero, is reversed by `sort`; every call
succeeds and set gives both elements back unchanged. -/
theorem sort_not_stable :
    StrictWeakOrder numAsc ∧ numAsc (i4 1) (i8 1) = 0 ∧ i4 1 ≠ i8 1 ∧ ¬ same (i4 1) (i8 1)
      ∧ twins.items = [i4 1, i8 1]
      ∧ (∀ v ∈ twins.items, ∀ n : Nat, setArg (okHost.uninit n Slot.args0) v = v)
      ∧ ∃ w', sort 3 (bound okHost) 2 numAsc twins = some (0, w') ∧ okFrom 0 w'
        ∧ w'.items = [i8 1, i4 1] :=
  ⟨numAsc_swo, by decide, by decide, by decide, by decide,
    by
      intro v hv n
      simp only [twins, List.mem_cons, List.mem_singleton, List.not_mem_nil, or_false] at hv
      rcases hv with rfl | rfl <;> rfl,
    (sort 3 (bound okHost) 2 numAsc twins).elim twins (fun r => r.2),
    by decide, by decide, by decide⟩

/-- C17 (set copies only the tag and a 64-bit payload). For every value `v` and index
`i`, the value `InvokeSet(i, v)` hands to the foreign setter has the type tag of `v`
and the 64-bit integer field of `v`, and is the same for every value with that tag
and that field; when the set and a get at the same index succeed, the get returns
that value. It is the value `v` whenever the payload of `v` lies in the 64-bit field;
set followed by get gives `v` back whatever the unassigned bytes of `args[0]` hold
exactly when the payload of `v` lies in that field; and for some decimal, whose
payload is wider, the value written differs from it. -/
theorem InvokeSet_copies_tag_and_payload (h : Host) (w : World) (dg ds i : Int)
    (v r : Variant) (hs : (InvokeSet h w ds i v).1 = S_OK)
    (hg : (InvokeGet h (InvokeSet h w ds i v).2 dg i r).1 = S_OK) :
    (∃ c, (InvokeSet h w ds i v).2.log = w.log ++ [c] ∧ c.kind = Kind.set
        ∧ c.value = some (setArg (h.uninit w.log.length Slot.args0) v))
      ∧ (setArg (h.uninit w.log.length Slot.args0) v).vt = v.vt
      ∧ (setArg (h.uninit w.log.length Slot.args0) v).llVal = v.llVal
      ∧ (∀ v2 : Variant, v2.vt = v.vt → v2.llVal = v.llVal →
          setArg (h.uninit w.log.length Slot.args0) v2
            = setArg (h.uninit w.log.length Slot.args0) v)
      ∧ (InvokeGet h (InvokeSet h w ds i v).2 dg i r).2.1
          = setArg (h.uninit w.log.length Slot.args0) v
      ∧ (wide v.vt = false → same (InvokeGet h (InvokeSet h w ds i v).2 dg i r).2.1 v)
      ∧ ((∀ residue : Variant, same (setArg residue v) v) ↔ wide v.vt = false)
      ∧ ∃ u : Variant, u.vt = VT_DECIMAL ∧ wide u.vt = true
          ∧ ¬ same (setArg (h.uninit w.log.length Slot.args0) u) u := by
  have hback : (InvokeGet h (InvokeSet h w ds i v).2 dg i r).2.1
      = setArg (h.uninit w.log.length Slot.args0) v := by
    cases hfs : h.foreignSet w ds (wrap32 (i + 1))
        (setArg (h.uninit w.log.length Slot.args0) v) with
    | none =>
      rw [InvokeSet_none hfs] at hs
      simp [S_OK, E_FAIL] at hs
    | some l =>
      obtain ⟨-, hlen, hl⟩ := foreignSet_some hfs
      rw [InvokeSet_some hfs] at hg ⊢
      simp only [] at hg ⊢
      cases hfg : h.foreignGet { w with items := l, log := w.log ++
          [⟨Kind.set, i, wrap32 (i + 1), some (setArg (h.uninit w.log.length Slot.args0) v),
            true⟩] } dg (wrap32 (i + 1)) with
      | none =>
        rw [InvokeGet_none r hfg] at hg
        simp [S_OK, E_FAIL] at hg
      | some x =>
        obtain ⟨-, hx⟩ := foreignGet_some hfg
        rw [InvokeGet_some r hfg]
        simp only [] at hx ⊢
        rw [hl, List.getElem?_set_self hlen] at hx
        exact (Option.some.inj hx).symm
  have hnarrow : ∀ residue : Variant, wide v.vt = false → same (setArg residue v) v :=
    fun residue hn => same_of_key hn (key_setArg residue v)
  refine ⟨?_, rfl, rfl, ?_, hback, ?_, ⟨?_, fun hn residue => hnarrow residue hn⟩, ?_⟩
  · cases hfs : h.foreignSet w ds (wrap32 (i + 1))
        (setArg (h.uninit w.log.length Slot.args0) v) with
    | none => exact ⟨_, by rw [InvokeSet_none hfs], rfl, rfl⟩
    | some l => exact ⟨_, by rw [InvokeSet_some hfs], rfl, rfl⟩
  · intro v2 h1 h2
    simp only [setArg, h1, h2]
  · intro hn
    rw [hback]
    exact hnarrow _ hn
  · intro hall
    cases hw : wide v.vt with
    | false => rfl
    | true =>
      have h3 := (hall ⟨0, 0, v.ext + 1⟩).2.2 hw
      simp only [setArg] at h3
      omega
  · refine ⟨⟨VT_DECIMAL, 0, (h.uninit w.log.length Slot.args0).ext + 1⟩, rfl, rfl,
      fun hsame => ?_⟩
    have h3 := hsame.2.2 rfl
    simp only [setArg] at h3
    omega

/-- Witness of C17: the decimal with integer field 2 and further payload 1, set at
index 1 of two decimals and read back, comes back without the further payload; the
32-bit integer 7, set there on a host whose stack holds something else in every
local, comes back as the same value. -/
theorem InvokeSet_copies_tag_and_payload_witness :
    (InvokeGet okHost (InvokeSet okHost decimals 2 1 ⟨VT_DECIMAL, 2, 1⟩).2 1 1 (i4 0)).2.1
        = ⟨VT_DECIMAL, 2, 0⟩
      ∧ (InvokeGet okHost (InvokeSet okHost decimals 2 1 ⟨VT_DECIMAL, 2, 1⟩).2 1 1 (i4 0)).2.1
        = setArg (okHost.uninit decimals.log.length Slot.args0) ⟨VT_DECIMAL, 2, 1⟩
      ∧ same (InvokeGet residueHost (InvokeSet residueHost decimals 2 1 (i4 7)).2 1 1 (i4 0)).2.1
          (i4 7) :=
  ⟨by decide, (InvokeSet_copies_tag_and_payload okHost decimals 1 2 1 ⟨VT_DECIMAL, 2, 1⟩ (i4 0)
    (by decide) (by decide)).2.2.2.2.1,
    (InvokeSet_copies_tag_and_payload residueHost decimals 1 2 1 (i4 7) (i4 0)
      (by decide) (by decide)).2.2.2.2.2.1 (by decide)⟩

/-! ### Frame of a sub-range, result codes -/

theorem slice_map_key (A : List Variant) (lo hi : Int) :
    (slice A lo hi).map key = slice (A.map key) lo hi := by
  unfold slice
  rw [List.map_take, List.map_drop]

theorem slice_keys_perm_of_frame {A A' : List Variant} {lo hi : Int} (hlo : 0 ≤ lo)
    (hp : (A'.map key).Perm (A.map key))
    (hf : ∀ k : Nat, ((k : Int) < lo ∨ hi < (k : Int)) → A'[k]? = A[k]?) :
    ((slice A' lo hi).map key).Perm ((slice A lo hi).map key) := by
  rw [slice_map_key, slice_map_key]
  refine slice_perm_of_frame hlo hp ?_
  intro k hk
  rw [List.getElem?_map, List.getElem?_map, hf k hk]

/-- A rearrangement of tags and 64-bit fields, read as a rearrangement of values. -/
theorem values_perm_of_keys {l1 l2 : List Variant} (hp : (l1.map key).Perm (l2.map key))
    (hn : ∀ v ∈ l2, wide v.vt = false) : ∃ l, l.Perm l2 ∧ List.Forall₂ same l1 l := by
  obtain ⟨l, hl, hk⟩ := exists_perm_of_keys _ _ hp
  exact ⟨l, hl, forall2_same_of_keyEq _ _ hk (fun v hv => hn v (hl.mem_iff.mp hv))⟩

/-- Counterexample to C18 as stated. `Partition(1, 0)`, whose range is empty, on
`[3, 1]`: every call succeeds and both positions, which lie outside the range, are
changed. `Partition(0, 1)` on two decimals, whose payload is wider than the 64-bit
field that `InvokeSet` copies: every call succeeds and the elements of `[0, 1]`
afterwards are not a rearrangement of the elements before. -/
theorem subrange_frame_fails :
    okFrom 0 (Partition okHost numAsc (ints [3, 1]) 1 2 1 0).2
      ∧ (ints [3, 1]).items = [i4 3, i4 1]
      ∧ (Partition okHost numAsc (ints [3, 1]) 1 2 1 0).2.items = [i4 1, i4 3]
      ∧ okFrom 0 (Partition okHost wideAsc decimals 1 2 0 1).2
      ∧ slice decimals.items 0 1 = [⟨VT_DECIMAL, 1, 1⟩, ⟨VT_DECIMAL, 2, 1⟩]
      ∧ slice (Partition okHost wideAsc decimals 1 2 0 1).2.items 0 1
          = [⟨VT_DECIMAL, 1, 0⟩, ⟨VT_DECIMAL, 2, 0⟩]
      ∧ ¬ (slice (Partition okHost wideAsc decimals 1 2 0 1).2.items 0 1).Perm
          (slice decimals.items 0 1) := by
  refine ⟨by decide, by decide, by decide, by decide, by decide, by decide, fun hp => ?_⟩
  have hm := hp.mem_iff (a := (⟨VT_DECIMAL, 1, 0⟩ : Variant))
  revert hm
  decide

/-- C18 (frame of a sub-range sort), amended. For every `low` and `high`, every
collection whose get and set calls succeed and every comparator, `QuickSort(low, high)`
and, when `low ≤ high`, `Partition(low, high)` leave the length and every element at
an index outside `[low, high]` unchanged, and the tags and 64-bit fields of the
elements at the indices in `[low, high]` are the same multiset before and after the
call; when the payload of each of these elements lies in its 64-bit field, the
elements there afterwards are a rearrangement of the elements there before (as
values: the bytes of a variant that are padding for its kind do not count).
`QuickSort(low, high)` returns. -/
theorem subrange_frame (h : Host) (cmp : Variant → Variant → Int) (w : World)
    (dg ds low high : Int) (hlo : -2147483648 ≤ low) (hlo2 : low ≤ 2147483647)
    (hhi : high ≤ 2147483647) :
    (∀ (fuel : Nat) (w' : World), QuickSort h cmp dg ds fuel low high w = some w' →
        okFrom w.log.length w' →
        w'.items.length = w.items.length
        ∧ (∀ k : Nat, ((k : Int) < low ∨ high < (k : Int)) → w'.items[k]? = w.items[k]?)
        ∧ ((slice w'.items low high).map key).Perm ((slice w.items low high).map key)
        ∧ ((∀ v ∈ slice w.items low high, wide v.vt = false) →
            ∃ l, l.Perm (slice w.items low high)
              ∧ List.Forall₂ same (slice w'.items low high) l))
      ∧ (low ≤ high → okFrom w.log.length (Partition h cmp w dg ds low high).2 →
        (Partition h cmp w dg ds low high).2.items.length = w.items.length
        ∧ (∀ k : Nat, ((k : Int) < low ∨ high < (k : Int)) →
            (Partition h cmp w dg ds low high).2.items[k]? = w.items[k]?)
        ∧ ((slice (Partition h cmp w dg ds low high).2.items low high).map key).Perm
            ((slice w.items low high).map key)
        ∧ ((∀ v ∈ slice w.items low high, wide v.vt = false) →
            ∃ l, l.Perm (slice w.items low high)
              ∧ List.Forall₂ same (slice (Partition h cmp w dg ds low high).2.items low high)
                  l))
      ∧ (-2147483648 < low → high < 2147483647 → ∀ fuel : Nat, (high - low).toNat < fuel →
          ∃ w', QuickSort h cmp dg ds fuel low high w = some w') := by
  refine ⟨fun fuel w' hq hok => ?_, fun hle hok => ?_, fun a b fuel hf =>
    QuickSort_total h cmp dg ds fuel low high w a b hf⟩
  · by_cases hlh : low < high
    · obtain ⟨hlow, hhigh, -⟩ := QuickSort_range_of_ok h cmp dg ds fuel low high w w' _ hlo
        hhi hlh (le_refl _) hq hok
      obtain ⟨hlen, hfr⟩ := QuickSort_untouched h cmp dg ds fuel low high w w' (by omega)
        hhigh hq
      have ar := QuickSort_good h cmp dg ds w.log.length fuel low high w w' hlow hhi
        (le_refl _) hq hok
      have hp := slice_keys_perm_of_frame hlow ar.perm ar.frame
      exact ⟨hlen, fun k hk => hfr k (by omega), hp, values_perm_of_keys hp⟩
    · cases fuel with
      | zero => simp [QuickSort] at hq
      | succ fuel =>
        rw [QuickSort_base _ _ _ _ _ _ _ _ (by omega)] at hq
        simp only [Option.some.injEq] at hq
        subst hq
        exact ⟨rfl, fun _ _ => rfl, List.Perm.refl _,
          values_perm_of_keys (List.Perm.refl _)⟩
  · obtain ⟨hlow, -, -⟩ :=
      Partition_range_of_ok h cmp w dg ds low high _ hlo hhi hle (le_refl _) hok
    obtain ⟨hlen, hfr⟩ := Partition_untouched h cmp w dg ds low high (by omega) hhi hle
    obtain ⟨hp, -⟩ :=
      Partition_good h cmp w dg ds low high _ hlow hle hhi (le_refl _) hok
    have hpk := slice_keys_perm_of_frame hlow hp.perm hp.frame
    exact ⟨hlen, fun k hk => hfr k (by omega), hpk, values_perm_of_keys hpk⟩

set_option maxRecDepth 8000 in
/-- Witness of C18 amended: `QuickSort(1, 3)` and `Partition(1, 3)` on
`[4, 2, 5, 1, 3]`, on a host whose stack holds something else in every local, leave
positions 0 and 4 alone and rearrange `2, 5, 1`. -/
theorem subrange_frame_witness :
    (∃ w', QuickSort residueHost numAsc 1 2 4 1 3 (ints [4, 2, 5, 1, 3]) = some w'
        ∧ w'.items.length = (ints [4, 2, 5, 1, 3]).items.length
        ∧ (∀ k : Nat, ((k : Int) < 1 ∨ 3 < (k : Int)) →
            w'.items[k]? = (ints [4, 2, 5, 1, 3]).items[k]?)
        ∧ ∃ l, l.Perm (slice (ints [4, 2, 5, 1, 3]).items 1 3)
            ∧ List.Forall₂ same (slice w'.items 1 3) l)
      ∧ (∀ k : Nat, ((k : Int) < 1 ∨ 3 < (k : Int)) →
          (Partition residueHost numAsc (ints [4, 2, 5, 1, 3]) 1 2 1 3).2.items[k]?
            = (ints [4, 2, 5, 1, 3]).items[k]?)
      ∧ ((slice (Partition residueHost numAsc (ints [4, 2, 5, 1, 3]) 1 2 1 3).2.items 1 3).map
          key).Perm ((slice (ints [4, 2, 5, 1, 3]).items 1 3).map key) := by
  have hw := subrange_frame residueHost numAsc (ints [4, 2, 5, 1, 3]) 1 2 1 3 (by decide)
    (by decide) (by decide)
  obtain ⟨w', hq⟩ := hw.2.2 (by decide) (by decide) 4 (by decide)
  have hv : (QuickSort residueHost numAsc 1 2 4 1 3 (ints [4, 2, 5, 1, 3])).map
      (fun r => decide (okFrom 0 r)) = some true := by decide
  rw [hq] at hv
  simp only [Option.map_some', Option.some.injEq, decide_eq_true_eq] at hv
  have hqs := hw.1 4 w' hq hv
  have hps := hw.2.1 (by decide) (by decide)
  exact ⟨⟨w', hq, hqs.1, hqs.2.1, hqs.2.2.2 (by decide)⟩, hps.2.1, hps.2.2.1⟩

/-- Counterexample to C19 as stated: with the length `2^31` and the comparator that
always answers "less", on a bound collection, `sort` returns no value at all, whatever
the depth of recursion allowed: `pivotIndex + 1` overflows and the whole range of
indices is sorted again and again. -/
theorem sort_returns_nothing_at_two_pow_31 :
    ¬ ∃ (fuel : Nat) (r : Int) (w' : World),
        sort fuel (bound okHost) 2147483648 allLess (ints []) = some (r, w') := by
  rintro ⟨fuel, r, w', hs⟩
  rw [sort_allLess_diverges okHost (ints []) 1 2 (by decide) (by decide) fuel] at hs
  cases hs

/-- C19 (result codes of sort), amended. Whenever `sort` returns, it returns -1
exactly when the collection argument is null, is not tagged as an object reference, or
holds a null reference; otherwise -2 exactly when resolving the getter name "Get"
fails; otherwise -3 exactly when resolving the setter name "__Item" fails; and
otherwise 0, for every comparator and every outcome of the get and set calls. In the
first three cases `sort` returns at once; in the last it returns for every length
other than `2^31`. -/
theorem sort_result_codes (fuel : Nat) (pVariant : Option VariantArg) (n : Nat)
    (cmp : Variant → Variant → Int) (w : World) :
    (∀ (r : Int) (w' : World), sort fuel pVariant n cmp w = some (r, w') →
        (r = -1 ↔ (pVariant = none
            ∨ ∃ v, pVariant = some v ∧ (v.vt ≠ VT_DISPATCH ∨ v.pdispVal = none)))
        ∧ (r = -2 ↔ ∃ h, pVariant = bound h ∧ h.names "Get" = none)
        ∧ (r = -3 ↔ ∃ h dg, pVariant = bound h ∧ h.names "Get" = some dg
            ∧ h.names "__Item" = none)
        ∧ (r = 0 ↔ ∃ h dg ds, pVariant = bound h ∧ h.names "Get" = some dg
            ∧ h.names "__Item" = some ds))
      ∧ ((pVariant = none ∨ ∃ v, pVariant = some v ∧ (v.vt ≠ VT_DISPATCH ∨ v.pdispVal = none)) →
          sort fuel pVariant n cmp w = some (-1, w))
      ∧ (∀ h, pVariant = bound h → h.names "Get" = none →
          sort fuel pVariant n cmp w = some (-2, w))
      ∧ (∀ h dg, pVariant = bound h → h.names "Get" = some dg → h.names "__Item" = none →
          sort fuel pVariant n cmp w = some (-3, w))
      ∧ (∀ h dg ds, pVariant = bound h → h.names "Get" = some dg →
          h.names "__Item" = some ds →
          (n ≤ 2147483647 → n < fuel → ∃ w', sort fuel pVariant n cmp w = some (0, w'))
          ∧ (2147483648 < n → n < 4294967296 → 0 < fuel →
              sort fuel pVariant n cmp w = some (0, w))) := by
  refine ⟨fun r w' hs => ?_, fun hbad => ?_, fun h hb hg => ?_, fun h dg hb hg hi => ?_,
    fun h dg ds hb hg hi => ⟨fun hn hf => ?_, fun h1 h2 hf => ?_⟩⟩
  · rcases pVariant with _ | ⟨vt, pd⟩
    · simp only [sort, Option.some.injEq, Prod.mk.injEq] at hs
      obtain ⟨rfl, -⟩ := hs
      simp [bound]
    · by_cases hvt : vt = VT_DISPATCH
      · subst hvt
        rcases pd with _ | h
        · simp only [sort, ne_eq, not_true_eq_false, if_false, Option.some.injEq,
            Prod.mk.injEq] at hs
          obtain ⟨rfl, -⟩ := hs
          simp [bound]
        · cases hg : h.names "Get" with
          | none =>
            simp only [sort, ne_eq, not_true_eq_false, if_false, hg, Option.some.injEq,
              Prod.mk.injEq] at hs
            obtain ⟨rfl, -⟩ := hs
            simp [bound, hg]
          | some dg =>
            cases hi : h.names "__Item" with
            | none =>
              simp only [sort, ne_eq, not_true_eq_false, if_false, hg, hi, Option.some.injEq,
                Prod.mk.injEq] at hs
              obtain ⟨rfl, -⟩ := hs
              simp [bound, hg, hi]
            | some ds =>
              have hb : (some ⟨VT_DISPATCH, some h⟩ : Option VariantArg) = bound h := rfl
              rw [hb, sort_bound h cmp w n fuel dg ds hg hi] at hs
              obtain ⟨w1, -, he⟩ := Option.map_eq_some'.mp hs
              simp only [Prod.mk.injEq] at he
              obtain ⟨rfl, -⟩ := he
              simp [bound, hg, hi]
      · simp only [sort, ne_eq, hvt, not_false_eq_true, if_true, Option.some.injEq,
          Prod.mk.injEq] at hs
        obtain ⟨rfl, -⟩ := hs
        simp [bound, hvt]
  · rcases hbad with rfl | ⟨v, rfl, hv⟩
    · rfl
    · by_cases hvt : v.vt = VT_DISPATCH
      · rcases hv with hv | hv
        · exact absurd hvt hv
        · simp [sort, hvt, hv]
      · simp [sort, hvt]
  · subst hb
    simp [sort, bound, hg]
  · subst hb
    simp [sort, bound, hg, hi]
  · subst hb
    obtain ⟨w', hq⟩ := QuickSort_total h cmp dg ds fuel 0 ((n : Int) - 1) w (by omega)
      (by omega) (by omega)
    refine ⟨w', ?_⟩
    rw [sort_bound h cmp w n fuel dg ds hg hi, high_of_len hn, hq]
    rfl
  · subst hb
    obtain ⟨f, rfl⟩ : ∃ f, fuel = f + 1 := ⟨fuel - 1, by omega⟩
    rw [sort_bound h cmp w n (f + 1) dg ds hg hi, high_of_len_neg h1 h2,
      QuickSort_base _ _ _ _ _ _ _ _ (by omega)]
    rfl

/-- Witness of C19 amended: on a host that does not resolve "Get" the code is -2, and
on a bound collection of three integers `sort` returns 0. -/
theorem sort_result_codes_witness :
    sort 4 (bound unboundHost) 3 numAsc (ints [3, 1, 2]) = some (-2, ints [3, 1, 2])
      ∧ ∃ w', sort 4 (bound okHost) 3 numAsc (ints [3, 1, 2]) = some (0, w') :=
  ⟨(sort_result_codes 4 (bound unboundHost) 3 numAsc (ints [3, 1, 2])).2.2.1 unboundHost rfl
      rfl,
    ((sort_result_codes 4 (bound okHost) 3 numAsc (ints [3, 1, 2])).2.2.2.2 okHost 1 2 rfl
      (by decide) (by decide)).1 (by decide) (by decide)⟩

end ArraySort
